import Mathlib

/-!
# Verification of the KTRIE trie engine against its specification

This file is a shallow embedding of the KTRIE ordered associative container
(headers `ktrie_base.h`, `ktrie_insert_help.h`, `ktrie_remove_help.h`,
`ktrie_nav.h`, `ktrie_num_cvt.h`).

Modelling conventions:
* A key byte is a `Nat` (the C++ code compares characters after casting to
  `uint8_t`, so bytes are naturals `< 256`; the concrete inputs used below are
  ASCII).  A key is a `List Nat`.
* A node array (`ktrie_base.h` §"NODE ARRAY STRUCTURE", variable-length keys:
  `([EOS]? → [HOP or SKIP])* → [LIST or POP]?`) is embedded as the inductive
  `KArr`: constructor `seg e run rest` is one `[EOS]? [HOP|SKIP]` step (an
  optional value terminator followed by a compressed run of bytes), and
  `fin feos fb` ends the array with an optional terminator and an optional
  branch.  The HOP (1–6 bytes) / SKIP (≥7 bytes) distinction is a storage
  encoding of the same byte run and both are traversed identically by every
  engine, so a run is embedded as the byte list it stores.
* A branch is `KBr`: a `LIST` (sorted character list, `t_small_list`) or a
  `POP` (256-bit bitmap).  `get_pop_chars` enumerates bitmap characters in
  ascending order and `do_find_pop` returns the rank of a present character,
  so both variants are embedded as an ascending association list `KCh` of
  (character, child pointer).  A child pointer may be null (`none`), exactly
  as a `dirty_high_pointer` may hold `nullptr`.
* `ktrie_small_list.h` is `#include`d by `ktrie_node.h` but is not part of the
  sources; its behaviour (sorted insert, 1-based `offset` lookup,
  `max_list = 7`) is modelled from the spec (§3.5) where noted.
* The container (`ktrie_base`) is `KT`: a root pointer (`Option KArr`,
  `head_`) plus the element counter `cnt_`.
-/

set_option autoImplicit false

namespace KtrieProof

/-! ## Byte-lexicographic comparison -/

/-- Strict byte-lexicographic order on byte strings, as produced by comparing
keys byte by byte with `uint8_t` comparisons (shorter strings precede their
extensions). -/
def lexLt : List Nat → List Nat → Bool
  | [], [] => false
  | [], _ :: _ => true
  | _ :: _, [] => false
  | x :: xs, y :: ys => decide (x < y) || (decide (x = y) && lexLt xs ys)

@[simp] theorem lexLt_nil_cons (y : Nat) (ys : List Nat) :
    lexLt [] (y :: ys) = true := rfl

@[simp] theorem lexLt_cons_cons (x y : Nat) (xs ys : List Nat) :
    lexLt (x :: xs) (y :: ys) =
      (decide (x < y) || (decide (x = y) && lexLt xs ys)) := rfl

/-! ## Numeric key encoding (`ktrie_num_cvt.h`)

`cvt_numeric<unsigned T>::bitcvt` byte-swaps on little-endian targets and
`bit_cast`s to a `char` array: the result is the big-endian byte string of the
scalar.  `beBytes w n` is that byte string for a `w`-byte unsigned value `n`.
`cvt_numeric<signed T>` first applies `make_sortable`, which adds the
sign-bit value `2^(8w-1)` in `w`-byte unsigned arithmetic, then encodes the
result like an unsigned value; `uncvt` inverts both steps. -/

/-- Big-endian byte string of the `w`-byte unsigned value `n`
(`detail::do_byteswap` + `bit_cast` in `cvt_numeric<unsigned_numeric>`). -/
def beBytes : Nat → Nat → List Nat
  | 0, _ => []
  | w + 1, n => beBytes w (n / 256) ++ [n % 256]

/-- Decoding of a big-endian byte string (`cvt_numeric<unsigned>::uncvt`). -/
def fromBE (bs : List Nat) : Nat :=
  bs.foldl (fun acc b => acc * 256 + b) 0

/-- `cvt_numeric<unsigned_numeric T>::bitcvt` for a `w`-byte type. -/
def encU (w : Nat) (n : Nat) : List Nat := beBytes w n

/-- `cvt_numeric<signed_numeric T>::make_sortable` for a `w`-byte type:
add the sign-bit value `2^(8w-1)` (two's-complement wraparound is never
reached because the representable range is `[-2^(8w-1), 2^(8w-1))`). -/
def makeSortable (w : Nat) (i : Int) : Nat :=
  (i + (2 : Int) ^ (8 * w - 1)).toNat

/-- `cvt_numeric<signed_numeric T>::bitcvt` for a `w`-byte type. -/
def encS (w : Nat) (i : Int) : List Nat := beBytes w (makeSortable w i)

/-- `cvt_numeric<signed_numeric T>::uncvt` for a `w`-byte type. -/
def decS (w : Nat) (bs : List Nat) : Int :=
  (fromBE bs : Int) - (2 : Int) ^ (8 * w - 1)

theorem fromBE_append_singleton (xs : List Nat) (b : Nat) :
    fromBE (xs ++ [b]) = fromBE xs * 256 + b := by
  simp [fromBE, List.foldl_append]

theorem fromBE_beBytes (w n : Nat) (h : n < 256 ^ w) :
    fromBE (beBytes w n) = n := by
  induction w generalizing n with
  | zero =>
    have hn : n = 0 := by
      simp only [pow_zero] at h
      omega
    subst hn
    rfl
  | succ w ih =>
    have hdiv : n / 256 < 256 ^ w := by
      rw [Nat.div_lt_iff_lt_mul (by norm_num)]
      calc n < 256 ^ (w + 1) := h
        _ = 256 ^ w * 256 := by ring
    rw [beBytes, fromBE_append_singleton, ih _ hdiv]
    omega

theorem beBytes_length (w n : Nat) : (beBytes w n).length = w := by
  induction w generalizing n with
  | zero => rfl
  | succ w ih => simp [beBytes, ih]

theorem lexLt_append_singleton (xs ys : List Nat) (x y : Nat)
    (hlen : xs.length = ys.length) :
    lexLt (xs ++ [x]) (ys ++ [y]) =
      (lexLt xs ys || (decide (xs = ys) && decide (x < y))) := by
  induction xs generalizing ys with
  | nil =>
    cases ys with
    | nil => simp [lexLt]
    | cons b bs => simp at hlen
  | cons a as ih =>
    cases ys with
    | nil => simp at hlen
    | cons b bs =>
      simp only [List.cons_append, lexLt_cons_cons]
      rw [ih bs (by simpa using hlen)]
      by_cases hab : a = b
      · subst hab
        simp [Bool.or_assoc, Bool.and_or_distrib_left]
      · simp [hab]

theorem beBytes_strictMono (w m n : Nat) (hmn : m < n) (hn : n < 256 ^ w) :
    lexLt (beBytes w m) (beBytes w n) = true := by
  induction w generalizing m n with
  | zero =>
    exfalso
    simp only [pow_zero] at hn
    omega
  | succ w ih =>
    have hm : m < 256 ^ (w + 1) := hmn.trans hn
    have hndiv : n / 256 < 256 ^ w := by
      rw [Nat.div_lt_iff_lt_mul (by norm_num)]
      calc n < 256 ^ (w + 1) := hn
        _ = 256 ^ w * 256 := by ring
    rw [beBytes, beBytes,
      lexLt_append_singleton _ _ _ _ (by rw [beBytes_length, beBytes_length])]
    rcases Nat.lt_or_ge (m / 256) (n / 256) with hdiv | hdiv
    · rw [ih _ _ hdiv hndiv]
      simp
    · have hdeq : m / 256 = n / 256 :=
        Nat.le_antisymm (Nat.div_le_div_right hmn.le) hdiv
      have hmod : m % 256 < n % 256 := by
        rcases Nat.lt_or_ge (m % 256) (n % 256) with h | h
        · exact h
        · exfalso
          have : n ≤ m := by
            calc n = 256 * (n / 256) + n % 256 := (Nat.div_add_mod n 256).symm
              _ ≤ 256 * (m / 256) + m % 256 := by
                  rw [hdeq]
                  exact Nat.add_le_add_left h _
              _ = m := Nat.div_add_mod m 256
          exact absurd hmn (Nat.not_lt.2 this)
      rw [hdeq]
      simp [hmod]

theorem cast_pow256 (w : Nat) (hw : 1 ≤ w) :
    ((256 ^ w : Nat) : Int) = 2 * (2 : Int) ^ (8 * w - 1) := by
  have h8 : 8 * w - 1 + 1 = 8 * w := by omega
  have h1 : ((256 ^ w : Nat) : Int) = (2 : Int) ^ (8 * w) := by
    push_cast
    rw [show (256 : Int) = 2 ^ 8 by norm_num, ← pow_mul]
  rw [h1]
  conv_lhs => rw [← h8]
  rw [pow_succ, mul_comm]

/-- C8. The numeric-key encoding of `ktrie_num_cvt.h` is strictly
order-preserving: for a `w`-byte unsigned integer type, `a < b` implies
`encode(a) < encode(b)` byte-lexicographically, and likewise for a `w`-byte
signed integer type on its representable range `[-2^(8w-1), 2^(8w-1))`; the
unsigned encoding is the big-endian byte string of the scalar, the signed
encoding is the big-endian byte string of the scalar plus the sign-bit value
`2^(8w-1)`, and decoding inverts the encoding exactly. -/
theorem num_encoding_order_preserving (w : Nat) (hw : 1 ≤ w) :
    (∀ a b : Nat, a < b → b < 256 ^ w → lexLt (encU w a) (encU w b) = true) ∧
    (∀ a b : Int, -(2 : Int) ^ (8 * w - 1) ≤ a → a < b →
        b < (2 : Int) ^ (8 * w - 1) → lexLt (encS w a) (encS w b) = true) ∧
    (∀ n : Nat, n < 256 ^ w → fromBE (encU w n) = n) ∧
    (∀ i : Int, -(2 : Int) ^ (8 * w - 1) ≤ i → i < (2 : Int) ^ (8 * w - 1) →
        decS w (encS w i) = i) ∧
    (∀ n : Nat, encU w n = beBytes w n) ∧
    (∀ i : Int, encS w i = beBytes w ((i + (2 : Int) ^ (8 * w - 1)).toNat) ∧
        decS w (encS w i) = (fromBE (encS w i) : Int) - (2 : Int) ^ (8 * w - 1)) := by
  have hq := cast_pow256 w hw
  refine ⟨fun a b hab hb => beBytes_strictMono w a b hab hb, ?_, ?_, ?_,
    fun _ => rfl, fun _ => ⟨rfl, rfl⟩⟩
  · intro a b ha hab hb
    apply beBytes_strictMono
    · unfold makeSortable
      generalize (2 : Int) ^ (8 * w - 1) = P at *
      omega
    · unfold makeSortable
      generalize (2 : Int) ^ (8 * w - 1) = P at *
      omega
  · intro n hn
    exact fromBE_beBytes w n hn
  · intro i hge hlt
    unfold decS encS makeSortable
    rw [fromBE_beBytes]
    · generalize (2 : Int) ^ (8 * w - 1) = P at *
      omega
    · generalize (2 : Int) ^ (8 * w - 1) = P at *
      omega

/-- Witness for C8 at the 32-bit signed type: `-1 < 0` and the encodings
(`0x7FFFFFFF` and `0x80000000` as byte strings) compare accordingly, and both
round-trip. -/
theorem num_encoding_order_preserving_witness :
    1 ≤ 4 ∧
      (lexLt (encS 4 (-1)) (encS 4 0) = true ∧ decS 4 (encS 4 (-1)) = -1) ∧
      encS 4 (-1) = [127, 255, 255, 255] ∧ encS 4 0 = [128, 0, 0, 0] := by
  refine ⟨by norm_num, ⟨?_, ?_⟩, by decide, by decide⟩
  · exact (num_encoding_order_preserving 4 (by norm_num)).2.1 (-1) 0
      (by norm_num) (by norm_num) (by norm_num)
  · exact (num_encoding_order_preserving 4 (by norm_num)).2.2.2.1 (-1)
      (by norm_num) (by norm_num)

/-! ## The node-array data model

`KArr` embeds one node array of the variable-length (`fixed_len == 0`) engine:
`seg e run rest` is an `[EOS]? [HOP|SKIP]` step (`e` the optional terminator
cell, `run` the bytes of the compressed run, whose `new_flags` describe
`rest`), `fin feos fb` ends the array with an optional terminator cell and an
optional branch.  `KBr` is the branch: `list` for `t_small_list` (LIST) and
`pop` for the 256-bit bitmap (POP); both store children in ascending
character order, which is how `t_small_list` stores its bytes and how
`get_pop_chars`/`do_find_pop` rank bitmap entries.  A child is an optional
(`dirty_high_pointer` may be null) node array. -/

mutual
inductive KArr (V : Type) where
  | seg (e : Option V) (run : List Nat) (rest : KArr V)
  | fin (feos : Option V) (fb : Option (KBr V))

inductive KBr (V : Type) where
  | list (cs : KCh V)
  | pop (cs : KCh V)

inductive KCh (V : Type) where
  | nil
  | cons (c : Nat) (child : Option (KArr V)) (rest : KCh V)
end

variable {V : Type}

/-- The whole container (`ktrie_base`): root pointer `head_` and counter
`cnt_`. -/
structure KT (V : Type) where
  root : Option (KArr V)
  cnt : Nat

/-- An empty trie: null head, count zero. -/
def emptyKT : KT V := { root := none, cnt := 0 }

/-- Number of children of a branch. -/
def chSize : KCh V → Nat
  | .nil => 0
  | .cons _ _ rest => chSize rest + 1

/-- Characters of a branch, in stored order. -/
def chChars : KCh V → List Nat
  | .nil => []
  | .cons c _ rest => c :: chChars rest

/-- Strict ascending order of branch characters (invariant 4 of the spec;
`t_small_list` keeps its bytes sorted, the POP bitmap is sorted by
construction). -/
def chAsc : KCh V → Bool
  | .cons c _ (.cons c' child' rest') => decide (c < c') && chAsc (.cons c' child' rest')
  | _ => true

/-- Tail construction (`insert_helper::make_tail`): the remaining key bytes
become one run (HOP if ≤6 bytes, SKIP otherwise — same byte list here)
followed by the terminator cell; a zero-byte remainder is just the
terminator. -/
def tailA (k : List Nat) (v : V) : KArr V :=
  match k with
  | [] => .fin (some v) none
  | _ :: _ => .seg none k (.fin (some v) none)

/-! ### Lookup (`ktrie_base::find_internal`, variable-length path) -/

mutual
/-- `find_internal`: walk terminator/run steps; a terminator with exhausted
input yields the value; a run must match the input prefix exactly
(`t_hop::matches` / `do_find_skip`, which also fail on a length shortfall);
at a branch the current byte selects a child (`t_small_list::offset` /
`do_find_pop`), a missing byte or null child is a miss. -/
def findA : KArr V → List Nat → Option V
  | .seg e run rest, k =>
      match k, e with
      | [], some v => some v
      | _, _ => if run.isPrefixOf k then findA rest (k.drop run.length) else none
  | .fin feos _, [] => feos
  | .fin _ none, _ :: _ => none
  | .fin _ (some (.list cs)), c :: ks => findCh cs c ks
  | .fin _ (some (.pop cs)), c :: ks => findCh cs c ks
  termination_by structural a => a

/-- Child lookup within a branch. -/
def findCh : KCh V → Nat → List Nat → Option V
  | .nil, _, _ => none
  | .cons c' child rest, c, ks =>
      if c' = c then
        match child with
        | none => none
        | some ca => findA ca ks
      else findCh rest c ks
  termination_by structural cs => cs
end

/-- `find_internal` at the container level: the `cnt_ == 0` early exit, then
the root array (a null root matches nothing). -/
def findT (t : KT V) (k : List Nat) : Option V :=
  if t.cnt = 0 then none
  else
    match t.root with
    | none => none
    | some a => findA a k

/-! ### Insertion (`insert_helper::insert_update_loop` + `make_tail`) -/

/-- `t_hop::find_mismatch`: index of the first differing byte, up to the
shorter length. -/
def cpl : List Nat → List Nat → Nat
  | x :: xs, y :: ys => if x = y then cpl xs ys + 1 else 0
  | _, _ => 0

/-- Sorted insertion of a new child (`t_small_list::insert` keeps the byte
list ascending — modelled from the spec §3.5, the header is not in the
sources; `set_pop_for` + bitmap rank give the same ascending position).  The
child slot is an optional pointer: the rebuilt array holds a default (null)
word at the new slot until `make_tail` fills it. -/
def chInsSorted (cs : KCh V) (c : Nat) (copt : Option (KArr V)) : KCh V :=
  match cs with
  | .nil => .cons c copt .nil
  | .cons c' child rest =>
      if c < c' then .cons c copt (.cons c' child rest)
      else .cons c' child (chInsSorted rest c copt)

/-- The two-child branch built by `break_hop_at`/`break_skip_at` CASE 2
(`t_small_list{ac, hc}` sorts the two characters). -/
def chTwo (ac : Nat) (an : Option (KArr V)) (hc : Nat) (hn : Option (KArr V)) :
    KCh V :=
  if ac < hc then .cons ac an (.cons hc hn .nil) else .cons hc hn (.cons ac an .nil)

mutual
/-- `insert_update_loop` (variable-length path), with `make_tail` inlined at
the spots where the loop sets `tail_ptr`; returns the rebuilt array and the
`inserted?` flag (`cnt` delta).  Case correspondence:
* terminator hit with exhausted input: existing key (update only if
  `do_update`);
* exhausted input elsewhere: `add_eos_at`;
* mismatch inside a run: `break_hop_at`/`break_skip_at`, CASE 1 when the key
  ends inside the run, CASE 2 (two-child branch) otherwise;
* branch miss: `add_list`, or `list2pop` when the LIST already has
  `max_list = 7` children, or `add_pop`;
* no branch at the array end: `add_branch_at_end`.

Two source paths do NOT behave as these equations state and instead corrupt
the array layout; they are embedded separately, at word level, in the raw
memory model section below, and `insCleanA` (also below) delimits the
inputs on which the equations here are exact.  First, for a key that ends
at a run whose array holds no terminator cell before it, the equation
`.seg none run rest, [] => (.seg (some v) run rest, true)` gives the
intended effect but not the actual one: `break_hop_at` CASE 1 runs with
`plen == 0` and `nodes_before == 0` and neither branch of its flag fix-up
(ktrie_insert_help.h:617-626) executes, so the parent flags never receive
`eos_bit` and the freshly written value cell is invisible (and mis-parsed
as the run word).  Second, `break_skip_at` CASE 1
(ktrie_insert_help.h:745-816) rebuilds the array without the
`nodes_before` cells preceding the SKIP and recomputes the parent flags
from scratch, losing the preceding terminator. -/
def insA : KArr V → List Nat → V → Bool → KArr V × Bool
  | .seg (some v0) run rest, [], v, upd =>
      (.seg (some (if upd then v else v0)) run rest, false)
  | .seg none run rest, [], v, _ => (.seg (some v) run rest, true)
  | .seg e run rest, k, v, upd =>
      let mm := cpl k run
      if mm < run.length then
        if k.length ≤ mm then
          (.seg e (run.take mm) (.seg (some v) (run.drop mm) rest), true)
        else
          let oldChild : KArr V :=
            if run.length ≤ mm + 1 then rest
            else .seg none (run.drop (mm + 1)) rest
          let br := KBr.list
            (chTwo (k.getD mm 0) (some (tailA (k.drop (mm + 1)) v))
              (run.getD mm 0) (some oldChild))
          if mm = 0 then (.fin e (some br), true)
          else (.seg e (run.take mm) (.fin none (some br)), true)
      else
        let r := insA rest (k.drop run.length) v upd
        (.seg e run r.1, r.2)
  | .fin (some v0) fb, [], v, upd =>
      (.fin (some (if upd then v else v0)) fb, false)
  | .fin none fb, [], v, _ => (.fin (some v) fb, true)
  | .fin feos none, k, v, _ => (.seg feos k (.fin (some v) none), true)
  | .fin feos (some (.list cs)), c :: ks, v, upd =>
      match insCh cs c ks v upd with
      | some r => (.fin feos (some (.list r.1)), r.2)
      | none =>
          if 7 ≤ chSize cs then
            (.fin feos (some (.pop (chInsSorted cs c (some (tailA ks v))))), true)
          else
            (.fin feos (some (.list (chInsSorted cs c (some (tailA ks v))))), true)
  | .fin feos (some (.pop cs)), c :: ks, v, upd =>
      match insCh cs c ks v upd with
      | some r => (.fin feos (some (.pop r.1)), r.2)
      | none => (.fin feos (some (.pop (chInsSorted cs c (some (tailA ks v))))), true)
  termination_by structural a => a

/-- Descent into an existing branch child during insertion.  `none` means the
character is absent.  A present character with a null child receives the tail
directly (the loop continues into the null array, where `add_eos_at` /
`add_branch_at_end` build exactly the tail nodes over an empty array). -/
def insCh : KCh V → Nat → List Nat → V → Bool → Option (KCh V × Bool)
  | .nil, _, _, _, _ => none
  | .cons c' child rest, c, ks, v, upd =>
      if c' = c then
        match child with
        | none => some (.cons c' (some (tailA ks v)) rest, true)
        | some ca =>
            let r := insA ca ks v upd
            some (.cons c' (some r.1) rest, r.2)
      else
        match insCh rest c ks v upd with
        | none => none
        | some r => some (.cons c' child r.1, r.2)
  termination_by structural cs => cs
end

/-- `insert_internal` (`upd = false`) / `insert_or_assign_internal`
(`upd = true`): an empty counter means `make_tail` builds a fresh root;
otherwise the loop runs on the root array and `cnt_` grows by the returned
delta. -/
def insT (t : KT V) (k : List Nat) (v : V) (upd : Bool) : KT V × Bool :=
  if t.cnt = 0 then ({ root := some (tailA k v), cnt := t.cnt + 1 }, true)
  else
    match t.root with
    | none => ({ root := some (tailA k v), cnt := t.cnt + 1 }, true)
    | some a =>
        let r := insA a k v upd
        ({ root := some r.1, cnt := t.cnt + (if r.2 then 1 else 0) }, r.2)

/-- Is the array piece free of cells entirely (`new_len == 0`, or
`orig_len == 0` for the count of nodes following a position)? -/
def isEmptyP : KArr V → Bool
  | .fin none none => true
  | _ => false

/-! ### Insertion under allocation failure

`insFB` is `insert_update_loop` + `make_tail` again, threading a budget of
node-array allocations (`node_type::allocate` calls); when the budget is
exhausted the allocator throws, and the `.error` result is the array
reachable from the root at that moment.  The allocation points, in program
order, are those of the source: the rebuilt array `nn`, then (for a run split
CASE 2) the preserved-suffix array `ot`, after which the parent pointer is
swung; `make_tail`'s array is allocated only afterwards by the caller, so a
failure there leaves the already-installed branch with a default (null) child
word at the new slot.  `insFB` inherits the two divergent CASE 1 paths noted
at `insA`; the budget trace used below (the C4 refutation) runs entirely
through CASE 2, where the equations match the source. -/

mutual
def insFB : KArr V → List Nat → V → Bool → Nat →
    Except (KArr V) ((KArr V × Bool) × Nat)
  | .seg (some v0) run rest, [], v, upd, b =>
      .ok ((.seg (some (if upd then v else v0)) run rest, false), b)
  | .seg none run rest, [], v, _, b =>
      match b with
      | 0 => .error (.seg none run rest)
      | b + 1 => .ok ((.seg (some v) run rest, true), b)
  | .seg e run rest, k, v, upd, b =>
      let mm := cpl k run
      if mm < run.length then
        if k.length ≤ mm then
          match b with
          | 0 => .error (.seg e run rest)
          | b + 1 =>
              .ok ((.seg e (run.take mm) (.seg (some v) (run.drop mm) rest),
                true), b)
        else
          match b with
          | 0 => .error (.seg e run rest)
          | b + 1 =>
              let needOt := decide (mm + 1 < run.length) || !isEmptyP rest
              if needOt && decide (b = 0) then .error (.seg e run rest)
              else
                let b2 := if needOt then b - 1 else b
                let oldChild : KArr V :=
                  if run.length ≤ mm + 1 then rest
                  else .seg none (run.drop (mm + 1)) rest
                let assemble : Option (KArr V) → KArr V := fun tl =>
                  let br := KBr.list
                    (chTwo (k.getD mm 0) tl (run.getD mm 0) (some oldChild))
                  if mm = 0 then .fin e (some br)
                  else .seg e (run.take mm) (.fin none (some br))
                match b2 with
                | 0 => .error (assemble none)
                | b2 + 1 =>
                    .ok ((assemble (some (tailA (k.drop (mm + 1)) v)), true), b2)
      else
        match insFB rest (k.drop run.length) v upd b with
        | .error sub => .error (.seg e run sub)
        | .ok r => .ok ((.seg e run r.1.1, r.1.2), r.2)
  | .fin (some v0) fb, [], v, upd, b =>
      .ok ((.fin (some (if upd then v else v0)) fb, false), b)
  | .fin none fb, [], v, _, b =>
      match b with
      | 0 => .error (.fin none fb)
      | b + 1 => .ok ((.fin (some v) fb, true), b)
  | .fin feos none, k, v, _, b =>
      match b with
      | 0 => .error (.fin feos none)
      | b + 1 => .ok ((.seg feos k (.fin (some v) none), true), b)
  | .fin feos (some (.list cs)), c :: ks, v, upd, b =>
      match insChF cs c ks v upd b with
      | some (.error cs') => .error (.fin feos (some (.list cs')))
      | some (.ok r) => .ok ((.fin feos (some (.list r.1.1)), r.1.2), r.2)
      | none =>
          match b with
          | 0 => .error (.fin feos (some (.list cs)))
          | b + 1 =>
              let mk : Option (KArr V) → KBr V := fun tl =>
                if 7 ≤ chSize cs then .pop (chInsSorted cs c tl)
                else .list (chInsSorted cs c tl)
              match b with
              | 0 => .error (.fin feos (some (mk none)))
              | b + 1 => .ok ((.fin feos (some (mk (some (tailA ks v)))), true), b)
  | .fin feos (some (.pop cs)), c :: ks, v, upd, b =>
      match insChF cs c ks v upd b with
      | some (.error cs') => .error (.fin feos (some (.pop cs')))
      | some (.ok r) => .ok ((.fin feos (some (.pop r.1.1)), r.1.2), r.2)
      | none =>
          match b with
          | 0 => .error (.fin feos (some (.pop cs)))
          | b + 1 =>
              match b with
              | 0 => .error (.fin feos (some (.pop (chInsSorted cs c none))))
              | b + 1 =>
                  .ok ((.fin feos (some (.pop (chInsSorted cs c
                    (some (tailA ks v))))), true), b)
  termination_by structural a => a

def insChF : KCh V → Nat → List Nat → V → Bool → Nat →
    Option (Except (KCh V) ((KCh V × Bool) × Nat))
  | .nil, _, _, _, _, _ => none
  | .cons c' child rest, c, ks, v, upd, b =>
      if c' = c then
        match child with
        | none =>
            match b with
            | 0 => some (.error (.cons c' none rest))
            | b + 1 => some (.ok ((.cons c' (some (tailA ks v)) rest, true), b))
        | some ca =>
            match insFB ca ks v upd b with
            | .error ca' => some (.error (.cons c' (some ca') rest))
            | .ok r => some (.ok ((.cons c' (some r.1.1) rest, r.1.2), r.2))
      else
        match insChF rest c ks v upd b with
        | none => none
        | some (.error rest') => some (.error (.cons c' child rest'))
        | some (.ok r) => some (.ok ((.cons c' child r.1.1, r.1.2), r.2))
  termination_by structural cs => cs
end

/-- `insert_internal` under an allocation budget: on failure the exception
propagates before `cnt_ += tail.cnt`, so the counter is unchanged and the
`.error` holds the container as left behind. -/
def insFBT (t : KT V) (k : List Nat) (v : V) (upd : Bool) (b : Nat) :
    Except (KT V) (KT V × Bool) :=
  if t.cnt = 0 then
    match b with
    | 0 => .error t
    | _ + 1 => .ok ({ root := some (tailA k v), cnt := t.cnt + 1 }, true)
  else
    match t.root with
    | none =>
        match b with
        | 0 => .error t
        | _ + 1 => .ok ({ root := some (tailA k v), cnt := t.cnt + 1 }, true)
    | some a =>
        match insFB a k v upd b with
        | .error a' => .error (KT.mk (some a') t.cnt)
        | .ok r =>
            .ok (KT.mk (some r.1.1) (t.cnt + (if r.1.2 then 1 else 0)), r.1.2)

/-! ### Removal (`remove_helper::remove_loop` + `rebuild_without_eos` +
branch cleanup) -/

/-- Outcome of removal from one node array:
* `notFound` — traversal failed, nothing modified;
* `gone` — the array was freed and the parent pointer nulled (cascade);
* `kept p` — the array was rebuilt as `p`;
* `branchDropped p` — `remove_last_branch` stripped the trailing branch;
  whether the rest of the array survives depends on whether it holds any
  terminator (`remove_last_branch` CASE 1/3 vs CASE 2). -/
inductive RRes (V : Type) where
  | notFound
  | gone
  | kept (p : KArr V)
  | branchDropped (p : KArr V)

/-- Does the array piece contain any terminator cell?  (The EOS scan of
`remove_last_branch`.) -/
def hasEosP : KArr V → Bool
  | .seg (some _) _ _ => true
  | .seg none _ rest => hasEosP rest
  | .fin feos _ => feos.isSome

/-- Per-array post-processing of a removal outcome: `remove_last_branch`
frees the array unless a terminator survives in it, and a truncation that
leaves `new_len == 0` frees the array as well. -/
def rmPost : RRes V → RRes V
  | .branchDropped p => if hasEosP p then .kept p else .gone
  | .kept p => if isEmptyP p then .gone else .kept p
  | .notFound => .notFound
  | .gone => .gone

mutual
/-- One array of `remove_loop`/`rebuild_without_eos`.  The traversal mirrors
lookup; on the matched terminator:
* a terminator followed by more content in the array is simply cleared
  (normal reconstruction);
* a terminator that is the last cell truncates the run leading to it
  (`need_truncate`); only that one run is dropped — the preceding flag
  carrier merely loses its HOP/SKIP bits, which is the `gone` propagation
  into `kept (.fin e none)` below;
* a branch child that became empty triggers the branch cleanup of
  `remove_child_from_branch`.

The truncation equation `.gone => .kept (.fin e none)` states the intended
effect; the source matches it only when the flags of the dropped run live
in a preceding HOP/SKIP word (which the fix-up loop of
`rebuild_without_eos` rewrites).  When the dropped run sits at the start of
its array and a terminator cell is kept (`e = some _`), its flags live in
the parent pointer, which `rebuild_without_eos` clears of
`hop_bit`/`skip_bit` only when `truncate_at == 0`
(ktrie_remove_help.h:387-392) — the kept array then advertises a run over a
zeroed word.  That path is embedded at word level in the raw memory model
section below, and `rmCleanA` delimits the erases on which the equations
here are exact. -/
def removeGo : KArr V → List Nat → RRes V
  | .seg (some _) run rest, [] => .kept (.seg none run rest)
  | .seg none _ _, [] => .notFound
  | .seg e run rest, k =>
      if run.isPrefixOf k then
        match removeGo rest (k.drop run.length) with
        | .notFound => .notFound
        | .kept p => .kept (.seg e run p)
        | .branchDropped p => .branchDropped (.seg e run p)
        | .gone => .kept (.fin e none)
      else .notFound
  | .fin (some _) none, [] => .gone
  | .fin (some _) (some b), [] => .kept (.fin none (some b))
  | .fin none _, [] => .notFound
  | .fin _ none, _ :: _ => .notFound
  | .fin feos (some (.list cs)), c :: ks =>
      match removeCh cs c ks with
      | none => .notFound
      | some (.inl cs') => .kept (.fin feos (some (.list cs')))
      | some (.inr cs') =>
          match cs' with
          | .nil => .branchDropped (.fin feos none)
          | .cons c'' child'' rest'' =>
              .kept (.fin feos (some (.list (.cons c'' child'' rest''))))
  | .fin feos (some (.pop cs)), c :: ks =>
      match removeCh cs c ks with
      | none => .notFound
      | some (.inl cs') => .kept (.fin feos (some (.pop cs')))
      | some (.inr cs') =>
          if chSize cs' = 0 then .branchDropped (.fin feos none)
          else if chSize cs' ≤ 7 then .kept (.fin feos (some (.list cs')))
          else .kept (.fin feos (some (.pop cs')))
  termination_by structural a => a

/-- Removal through a branch child.  `some (.inl cs')` — the child array was
rebuilt; `some (.inr cs')` — the child array became empty and its entry was
removed (`remove_from_list` / `remove_from_pop` / demotion decided by the
caller); `none` — not found (absent character, null child pointer, or key
absent below). -/
def removeCh : KCh V → Nat → List Nat → Option (KCh V ⊕ KCh V)
  | .nil, _, _ => none
  | .cons c' child rest, c, ks =>
      if c' = c then
        match child with
        | none => none
        | some ca =>
            match rmPost (removeGo ca ks) with
            | .notFound => none
            | .kept ca' => some (.inl (.cons c' (some ca') rest))
            | .gone => some (.inr rest)
            | .branchDropped _ => none
      else
        match removeCh rest c ks with
        | none => none
        | some (.inl rest') => some (.inl (.cons c' child rest'))
        | some (.inr rest') => some (.inr (.cons c' child rest'))
  termination_by structural cs => cs
end

/-- Removal of a whole node array (one `path` level): resolves
`remove_last_branch` (array freed unless some terminator survives) and the
`new_len == 0` truncation exit. -/
def removeArr (a : KArr V) (k : List Nat) : RRes V :=
  rmPost (removeGo a k)

/-- `erase_internal`: early exit on an empty counter, otherwise `remove_loop`
on the root; a successful removal decrements `cnt_` exactly once. -/
def eraseT (t : KT V) (k : List Nat) : KT V × Nat :=
  if t.cnt = 0 then (t, 0)
  else
    match t.root with
    | none => (t, 0)
    | some a =>
        match removeArr a k with
        | .notFound => (t, 0)
        | .kept a' => ({ root := some a', cnt := t.cnt - 1 }, 1)
        | .gone => ({ root := none, cnt := t.cnt - 1 }, 1)
        | .branchDropped _ => (t, 0)

/-- `size()` is the counter. -/
def sizeT (t : KT V) : Nat := t.cnt

mutual
/-- Structural well-formedness of a node array: runs are non-empty (a HOP
holds 1–6 bytes, a SKIP ≥ 7), a LIST branch has 1…7 children, a POP branch
has ≥ 8, branch characters are strictly ascending, and (in any state the
mutators produce) child pointers are non-null and well-formed.  A subtree may
well contain no terminator at all: `rebuild_without_eos`'s truncation exit
deliberately keeps such arrays. -/
def wfA : KArr V → Bool
  | .seg _ run rest => !run.isEmpty && wfA rest
  | .fin _ none => true
  | .fin _ (some (.list cs)) =>
      decide (1 ≤ chSize cs) && decide (chSize cs ≤ 7) && chAsc cs && wfCh cs
  | .fin _ (some (.pop cs)) => decide (8 ≤ chSize cs) && chAsc cs && wfCh cs
  termination_by structural a => a

/-- All children of a branch are non-null and well-formed. -/
def wfCh : KCh V → Bool
  | .nil => true
  | .cons _ child rest =>
      (match child with
       | none => false
       | some ca => wfA ca) && wfCh rest
  termination_by structural cs => cs
end

/-- Container-level well-formedness: the root array is well-formed and a
non-zero counter implies a non-null root. -/
def WfT (t : KT V) : Prop :=
  (∀ a, t.root = some a → wfA a = true) ∧ (t.cnt ≠ 0 → t.root.isSome)

/-! ### Navigation (`ktrie_nav.h`) -/

/-- Terminator at the very start of a node array (`has_bit(flags, eos_bit)`
on the flags a `nav_frame` captured at array entry). -/
def headEosA : KArr V → Option V
  | .seg e _ _ => e
  | .fin e _ => e

mutual
/-- `get_min_from` / `get_min_from_current`: walk terminator/run steps — the
first terminator is the minimum; at a branch descend into the first child
only, returning an absent result if that pointer is null (both helpers give
up rather than trying later siblings). -/
def getMinA : KArr V → List Nat → Option (List Nat × V)
  | .seg (some v) _ _, pre => some (pre, v)
  | .seg none run rest, pre => getMinA rest (pre ++ run)
  | .fin (some v) _, pre => some (pre, v)
  | .fin none none, _ => none
  | .fin none (some (.list cs)), pre => getMinCh cs pre
  | .fin none (some (.pop cs)), pre => getMinCh cs pre
  termination_by structural a => a

/-- First-child descent of `get_min_from`. -/
def getMinCh : KCh V → List Nat → Option (List Nat × V)
  | .nil, _ => none
  | .cons c child _, pre =>
      match child with
      | none => none
      | some ca => getMinA ca (pre ++ [c])
  termination_by structural cs => cs
end

mutual
/-- `get_max_recursive`: remember the deepest terminator seen along the
terminator/run chain, try the branch children from the greatest character
down, skipping null children and keyless subtrees, and fall back to the
remembered terminator. -/
def getMaxR : KArr V → List Nat → Option (List Nat × V)
  | .seg e run rest, pre =>
      (getMaxR rest (pre ++ run)).or (e.map (fun v => (pre, v)))
  | .fin e none, pre => e.map (fun v => (pre, v))
  | .fin e (some (.list cs)), pre => (getMaxCh cs pre).or (e.map (fun v => (pre, v)))
  | .fin e (some (.pop cs)), pre => (getMaxCh cs pre).or (e.map (fun v => (pre, v)))
  termination_by structural a => a

/-- Reverse-order child sweep of `get_max_recursive` (the recursion tries
later — greater — siblings first). -/
def getMaxCh : KCh V → List Nat → Option (List Nat × V)
  | .nil, _ => none
  | .cons c child rest, pre =>
      (getMaxCh rest pre).or
        (match child with
         | none => none
         | some ca => getMaxR ca (pre ++ [c]))
  termination_by structural cs => cs
end

/-- A `nav_frame` of `find_next_impl_static` as used by its backtrack loop:
the siblings after the descended child (`children[child_index+1…]`) and the
prefix recorded at the branch. -/
structure NFrame (V : Type) where
  sibs : KCh V
  pre : List Nat

/-- First non-null child of a sibling list (`if (child_run) …` in the
backtrack loops commits to it whether or not its subtree holds a key). -/
def firstSomeChild : KCh V → Option (Nat × KArr V)
  | .nil => none
  | .cons c child rest =>
      match child with
      | some ca => some (c, ca)
      | none => firstSomeChild rest

/-- `backtrack:` of `find_next_impl_static`: pop frames, and from the first
frame with a non-null later sibling return the minimum under that sibling
(unconditionally — a keyless sibling subtree yields an absent result). -/
def btNext : List (NFrame V) → Option (List Nat × V)
  | [] => none
  | f :: rest =>
      match firstSomeChild f.sibs with
      | some (c, ca) => getMinA ca (f.pre ++ [c])
      | none => btNext rest

mutual
/-- `find_next_impl_static`: descend matching the query; a terminator with
exhausted query returns the current key when `or_equal`, else the minimum of
the continuation; a query byte below the run continues into the minimum of
the run's continuation, above it backtracks; at a branch the matching child
is entered (pushing a frame), the next greater child's minimum is returned,
or the stack is backtracked. -/
def navNextA : KArr V → List Nat → Bool → List Nat → List (NFrame V) →
    Option (List Nat × V)
  | .seg (some v) run rest, [], orEq, pre, _ =>
      if orEq then some (pre, v) else getMinA rest (pre ++ run)
  | .seg _ run rest, k, orEq, pre, st =>
      let mm := cpl k run
      if mm = run.length then navNextA rest (k.drop run.length) orEq (pre ++ run) st
      else if k.length ≤ mm then getMinA rest (pre ++ run)
      else if k.getD mm 0 < run.getD mm 0 then getMinA rest (pre ++ run)
      else btNext st
  | .fin (some v) fb, [], orEq, pre, st =>
      if orEq then some (pre, v)
      else
        match fb with
        | some b => getMinA (.fin none (some b)) pre
        | none => btNext st
  | .fin none fb, [], _, pre, st =>
      match fb with
      | some b => getMinA (.fin none (some b)) pre
      | none => btNext st
  | .fin _ none, _ :: _, _, _, st => btNext st
  | .fin _ (some (.list cs)), c :: ks, orEq, pre, st =>
      navNextCh cs c ks orEq pre st
  | .fin _ (some (.pop cs)), c :: ks, orEq, pre, st =>
      navNextCh cs c ks orEq pre st
  termination_by structural a => a

/-- The branch scan of `find_next_impl_static`: stop at the query byte or the
first greater character. -/
def navNextCh : KCh V → Nat → List Nat → Bool → List Nat → List (NFrame V) →
    Option (List Nat × V)
  | .nil, _, _, _, _, st => btNext st
  | .cons c' child rest, c, ks, orEq, pre, st =>
      if c' = c then
        match child with
        | none => btNext ({ sibs := rest, pre := pre } :: st)
        | some ca => navNextA ca ks orEq (pre ++ [c']) ({ sibs := rest, pre := pre } :: st)
      else if c < c' then
        match child with
        | some ca => getMinA ca (pre ++ [c'])
        | none => btNext st
      else navNextCh rest c ks orEq pre st
  termination_by structural cs => cs
end

/-- A `nav_frame` of `find_prev_impl_static` as used by `backtrack_prev`:
the siblings before the descended child in descending order, the terminator
at the start of the frame's array (`has_bit(f.flags, eos_bit)` with
`f.node_start`'s value), and the prefix recorded at the branch. -/
structure PFrame (V : Type) where
  low : List (Nat × Option (KArr V))
  seos : Option V
  pre : List Nat

/-- First non-null entry of a descending sibling list. -/
def firstSomePair : List (Nat × Option (KArr V)) → Option (Nat × KArr V)
  | [] => none
  | (c, some ca) :: _ => some (c, ca)
  | (_, none) :: rest => firstSomePair rest

/-- `backtrack_prev:`: pop frames; from the first frame with a non-null
smaller sibling return the maximum under it (unconditionally); a frame whose
array starts with a terminator returns that terminator with the frame's
(branch-time) prefix; otherwise fall through to `last_less`. -/
def btPrev : List (PFrame V) → Option (List Nat × V) → Option (List Nat × V)
  | [], ll => ll
  | f :: rest, ll =>
      match firstSomePair f.low with
      | some (c, ca) => getMaxR ca (f.pre ++ [c])
      | none =>
          match f.seos with
          | some v => some (f.pre, v)
          | none => btPrev rest ll

mutual
/-- `find_prev_impl_static`: descend matching the query while remembering in
`ll` (`last_less`) the last terminator passed with a non-exhausted query; a
terminator with exhausted query returns the current key when `or_equal` and
otherwise `last_less` (without consulting the stack); a query byte below the
run returns `last_less`, above it the maximum of the run's continuation; at a
branch the matching child is entered (frame pushed; `backtrack_prev` runs
only on a null child pointer), else the nearest smaller child's maximum — or
`last_less` — is returned.  `aeos` is the terminator at the entry of the
current array, captured by the frame. -/
def navPrevA : KArr V → List Nat → Bool → List Nat → List (PFrame V) →
    Option (List Nat × V) → Option V → Option (List Nat × V)
  | .seg (some v) _ _, [], orEq, pre, _, ll, _ =>
      if orEq then some (pre, v) else ll
  | .seg e run rest, k, orEq, pre, st, ll, aeos =>
      let ll' := match k, e with
        | _ :: _, some v => some (pre, v)
        | _, _ => ll
      let mm := cpl k run
      if mm = run.length then
        navPrevA rest (k.drop run.length) orEq (pre ++ run) st ll' aeos
      else if k.length ≤ mm then ll'
      else if k.getD mm 0 < run.getD mm 0 then ll'
      else getMaxR rest (pre ++ run)
  | .fin (some v) _, [], orEq, pre, _, ll, _ =>
      if orEq then some (pre, v) else ll
  | .fin none _, [], _, _, _, ll, _ => ll
  | .fin (some v) none, _ :: _, _, pre, _, _, _ => some (pre, v)
  | .fin none none, _ :: _, _, _, _, ll, _ => ll
  | .fin (some v) (some (.list cs)), c :: ks, orEq, pre, st, _, aeos =>
      navPrevCh cs c ks orEq pre st (some (pre, v)) aeos []
  | .fin (some v) (some (.pop cs)), c :: ks, orEq, pre, st, _, aeos =>
      navPrevCh cs c ks orEq pre st (some (pre, v)) aeos []
  | .fin none (some (.list cs)), c :: ks, orEq, pre, st, ll, aeos =>
      navPrevCh cs c ks orEq pre st ll aeos []
  | .fin none (some (.pop cs)), c :: ks, orEq, pre, st, ll, aeos =>
      navPrevCh cs c ks orEq pre st ll aeos []
  termination_by structural a => a

/-- The branch scan of `find_prev_impl_static`, accumulating the smaller
siblings in descending order (`low`). -/
def navPrevCh : KCh V → Nat → List Nat → Bool → List Nat → List (PFrame V) →
    Option (List Nat × V) → Option V → List (Nat × Option (KArr V)) →
    Option (List Nat × V)
  | .nil, _, _, _, pre, _, ll, _, low =>
      match low with
      | [] => ll
      | (c', childOpt) :: _ =>
          match childOpt with
          | some ca => getMaxR ca (pre ++ [c'])
          | none => ll
  | .cons c' child rest, c, ks, orEq, pre, st, ll, aeos, low =>
      if c' = c then
        match child with
        | none => btPrev ({ low := low, seos := aeos, pre := pre } :: st) ll
        | some ca =>
            navPrevA ca ks orEq (pre ++ [c'])
              ({ low := low, seos := aeos, pre := pre } :: st) ll (headEosA ca)
      else if c' < c then navPrevCh rest c ks orEq pre st ll aeos ((c', child) :: low)
      else
        match low with
        | [] => ll
        | (c'', childOpt) :: _ =>
            match childOpt with
            | some ca => getMaxR ca (pre ++ [c''])
            | none => ll
  termination_by structural cs => cs
end

/-! ### Container-level navigation wrappers (`ktrie_base`) -/

/-- `first_internal`: `find_next_impl_static("", 0, true)` on the root. -/
def firstT (t : KT V) : Option (List Nat × V) :=
  if t.cnt = 0 then none
  else
    match t.root with
    | none => none
    | some a => navNextA a [] true [] []

/-- `lower_bound_internal`: `find_next_impl_static(key, sz, true)`. -/
def lowerBoundT (t : KT V) (k : List Nat) : Option (List Nat × V) :=
  if t.cnt = 0 then none
  else
    match t.root with
    | none => none
    | some a => navNextA a k true [] []

/-- `upper_bound_internal`: `find_next_impl_static(key, sz, false)`. -/
def upperBoundT (t : KT V) (k : List Nat) : Option (List Nat × V) :=
  if t.cnt = 0 then none
  else
    match t.root with
    | none => none
    | some a => navNextA a k false [] []

/-- `next_item_internal`: `find_next_impl_static(key, sz, false)`. -/
def nextT (t : KT V) (k : List Nat) : Option (List Nat × V) :=
  upperBoundT t k

/-- `prev_item_internal`: `find_prev_impl_static(key, sz, false)`. -/
def prevT (t : KT V) (k : List Nat) : Option (List Nat × V) :=
  if t.cnt = 0 then none
  else
    match t.root with
    | none => none
    | some a => navPrevA a k false [] [] none (headEosA a)

/-- `last_internal`: `find_prev_impl_static` with the probe key of 256
`'\xFF'` bytes, `or_equal = true`. -/
def lastT (t : KT V) : Option (List Nat × V) :=
  if t.cnt = 0 then none
  else
    match t.root with
    | none => none
    | some a => navPrevA a (List.replicate 256 255) true [] [] none (headEosA a)

/-! ### `merge` (`ktrie_base::merge(ktrie_base&)`, the lvalue overload) -/

/-- The enumeration loop of `merge`: starting from `first_internal()` of the
source, insert every enumerated item into the destination (without
overwriting) and record the keys that were actually inserted; `fuel` bounds
the iteration count (the C++ loop runs until `next_item_internal` reports no
further item — any fuel at least the number of enumerated items gives the
loop's result). -/
def mergeGo (other : KT V) : Nat → KT V → Option (List Nat × V) →
    List (List Nat) → KT V × List (List Nat)
  | 0, acc, _, merged => (acc, merged)
  | _, acc, none, merged => (acc, merged)
  | fuel + 1, acc, some (k, v), merged =>
      let r := insT acc k v false
      mergeGo other fuel r.1 (nextT other k)
        (if r.2 then merged ++ [k] else merged)

/-- `merge(ktrie_base& other)`: enumerate `other`, insert non-duplicates into
`this`, then erase exactly the inserted keys from `other`. -/
def mergeT (t other : KT V) (fuel : Nat) : KT V × KT V :=
  let r := mergeGo other fuel t (firstT other) []
  (r.1, r.2.foldl (fun b k => (eraseT b k).1) other)

/-! ## Concrete states used by the refutations -/

def kA : List Nat := [97]
def kAB : List Nat := [97, 98]
def kABCD : List Nat := [97, 98, 99, 100]
def kCD : List Nat := [99, 100]
def kB : List Nat := [98]
def kHELLO : List Nat := [104, 101, 108, 108, 111]
def kHEAP : List Nat := [104, 101, 97, 112]

/-- The trie reached from empty by
`insert "ab"→1; insert "abcd"→2; insert "cd"→8; erase "ab"; erase "abcd"`.
The second erase takes `rebuild_without_eos`'s truncation exit
(`after == 0`), which drops only the last compressed run: the child array
under `'a'` is left as a single dangling HOP (continuation flags 0) holding
no key, while its pointer stays in the root LIST. -/
def dangT : KT Nat :=
  (eraseT (eraseT (insT (insT (insT emptyKT kAB 1 false).1
    kABCD 2 false).1 kCD 8 false).1 kAB).1 kABCD).1

/-- The dangling state spelled out: the root LIST still has the `'a'` child,
whose array is the keyless run `"b"`. -/
theorem dangT_shape :
    dangT = KT.mk (some (.fin none (some (.list
      (.cons 97 (some (.seg none [98] (.fin none none)))
        (.cons 99 (some (.seg none [100] (.fin (some 8) none))) .nil)))))) 1 := rfl

/-- The trie `{"ab" → 1, "b" → 2}`. -/
def abB : KT Nat := (insT (insT emptyKT kAB 1 false).1 kB 2 false).1

/-- The trie `{"hello" → 1}`. -/
def helloT : KT Nat := (insT emptyKT kHELLO 1 false).1

/-- The container left behind when `insert("heap")` into `helloT` suffers an
allocation failure in `make_tail`, i.e. at the third node-array allocation of
the operation (after `break_hop_at` CASE 2 has allocated the split array and
the preserved-suffix array and swung the parent pointer). -/
def heapFailT : KT Nat :=
  match insFBT helloT kHEAP 2 false 2 with
  | .error t' => t'
  | .ok r => r.1

/-! ## Helper lemmas: common prefixes and runs -/

theorem cpl_le_left (k r : List Nat) : cpl k r ≤ k.length := by
  induction k generalizing r with
  | nil => simp [cpl]
  | cons x xs ih =>
      cases r with
      | nil => simp [cpl]
      | cons y ys =>
          by_cases h : x = y
          · simp only [cpl, if_pos h, List.length_cons]
            exact Nat.succ_le_succ (ih ys)
          · simp [cpl, h]

theorem cpl_le_right (k r : List Nat) : cpl k r ≤ r.length := by
  induction k generalizing r with
  | nil => cases r <;> simp [cpl]
  | cons x xs ih =>
      cases r with
      | nil => simp [cpl]
      | cons y ys =>
          by_cases h : x = y
          · simp only [cpl, if_pos h, List.length_cons]
            exact Nat.succ_le_succ (ih ys)
          · simp [cpl, h]

theorem cpl_cons_eq (x : Nat) (xs ys : List Nat) :
    cpl (x :: xs) (x :: ys) = cpl xs ys + 1 := by
  simp [cpl]

theorem cpl_take (k r : List Nat) : k.take (cpl k r) = r.take (cpl k r) := by
  induction k generalizing r with
  | nil => cases r <;> simp [cpl]
  | cons x xs ih =>
      cases r with
      | nil => simp [cpl]
      | cons y ys =>
          by_cases h : x = y
          · subst h
            rw [cpl_cons_eq, List.take_succ_cons, List.take_succ_cons, ih ys]
          · simp [cpl, h]

theorem isPrefixOf_iff_cpl (k r : List Nat) :
    r.isPrefixOf k = true ↔ cpl k r = r.length := by
  induction k generalizing r with
  | nil =>
      cases r with
      | nil => simp [cpl, List.isPrefixOf]
      | cons y ys => simp [cpl, List.isPrefixOf]
  | cons x xs ih =>
      cases r with
      | nil => simp [cpl, List.isPrefixOf]
      | cons y ys =>
          by_cases h : x = y
          · subst h
            rw [cpl_cons_eq]
            simp only [List.isPrefixOf, beq_self_eq_true, Bool.true_and,
              List.length_cons]
            rw [ih ys]
            omega
          · simp [cpl, h, List.isPrefixOf, Ne.symm h, beq_iff_eq]

theorem cpl_getD_ne (k r : List Nat) (h1 : cpl k r < k.length)
    (h2 : cpl k r < r.length) : k.getD (cpl k r) 0 ≠ r.getD (cpl k r) 0 := by
  induction k generalizing r with
  | nil => simp at h1
  | cons x xs ih =>
      cases r with
      | nil => simp at h2
      | cons y ys =>
          by_cases h : x = y
          · subst h
            rw [cpl_cons_eq] at h1 h2 ⊢
            simpa using ih ys (by simpa using h1) (by simpa using h2)
          · simpa [cpl, h] using h

theorem prefix_of_isPrefixOf {k r : List Nat} (h : r.isPrefixOf k = true) :
    r ++ k.drop r.length = k :=
  List.prefix_iff_eq_append.mp (List.isPrefixOf_iff_prefix.mp h)

theorem isPrefixOf_append (r t : List Nat) :
    r.isPrefixOf (r ++ t) = true := by
  exact List.isPrefixOf_iff_prefix.mpr ⟨t, rfl⟩

theorem drop_append_length (r t : List Nat) : (r ++ t).drop r.length = t := by
  simp

theorem append_isPrefixOf_iff (a b k : List Nat) :
    (a ++ b).isPrefixOf k = true ↔
      (a.isPrefixOf k = true ∧ b.isPrefixOf (k.drop a.length) = true) := by
  constructor
  · intro h
    have hp := prefix_of_isPrefixOf h
    constructor
    · exact List.isPrefixOf_iff_prefix.mpr ⟨b ++ k.drop (a ++ b).length, by
        rw [← List.append_assoc, hp]⟩
    · have heq : k.drop a.length = b ++ k.drop (a ++ b).length := by
        conv_lhs => rw [← hp, List.append_assoc, drop_append_length]
      rw [heq]
      exact isPrefixOf_append _ _
  · rintro ⟨h1, h2⟩
    have hp1 := prefix_of_isPrefixOf h1
    have hp2 := prefix_of_isPrefixOf h2
    refine List.isPrefixOf_iff_prefix.mpr ⟨(k.drop a.length).drop b.length, ?_⟩
    rw [List.append_assoc, hp2, hp1]

theorem drop_drop_eq (a b k : List Nat) :
    (k.drop a.length).drop b.length = k.drop (a ++ b).length := by
  rw [List.drop_drop, List.length_append, Nat.add_comm]

theorem drop_cpl_cons (k r : List Nat) (h : cpl k r < k.length) :
    k.drop (cpl k r) = k.getD (cpl k r) 0 :: k.drop (cpl k r + 1) := by
  rw [List.getD_eq_getElem _ _ h]
  exact List.drop_eq_getElem_cons h

/-! ## Helper lemmas: tails and branches -/

theorem isPrefixOf_self (r : List Nat) : r.isPrefixOf r = true := by
  simpa using isPrefixOf_append r []

theorem findA_tailA_self (k : List Nat) (v : V) : findA (tailA k v) k = some v := by
  cases k with
  | nil => rfl
  | cons c ks =>
      show findA (.seg none (c :: ks) (.fin (some v) none)) (c :: ks) = some v
      have hstep : findA (.seg none (c :: ks) (.fin (some v) none)) (c :: ks) =
          if (c :: ks).isPrefixOf (c :: ks) then
            findA (.fin (some v) none) ((c :: ks).drop (c :: ks).length)
          else none := rfl
      rw [hstep, if_pos (isPrefixOf_self (c :: ks)), List.drop_length]
      rfl

theorem findA_tailA_other (k k' : List Nat) (v : V) (h : k' ≠ k) :
    findA (tailA k v) k' = none := by
  cases k with
  | nil =>
      cases k' with
      | nil => exact absurd rfl h
      | cons c' ks' => rfl
  | cons c ks =>
      show findA (.seg none (c :: ks) (.fin (some v) none)) k' = none
      have hstep : findA (.seg none (c :: ks) (.fin (some v) none)) k' =
          if (c :: ks).isPrefixOf k' then
            findA (.fin (some v) none) (k'.drop (c :: ks).length) else none := by
        cases k' <;> rfl
      rw [hstep]
      by_cases hp : (c :: ks).isPrefixOf k' = true
      · rw [if_pos hp]
        rcases hd : k'.drop (c :: ks).length with _ | ⟨q, qs⟩
        · exfalso
          apply h
          have := prefix_of_isPrefixOf hp
          rw [hd, List.append_nil] at this
          exact this.symm
        · rfl
      · rw [if_neg hp]

theorem wfA_tailA (k : List Nat) (v : V) : wfA (tailA k v) = true := by
  cases k <;> simp [tailA, wfA]

/-- Membership of a character in a branch. -/
def chHasChar : KCh V → Nat → Bool
  | .nil, _ => false
  | .cons c' _ rest, c => decide (c' = c) || chHasChar rest c

/-- Head-character lower bound of a branch. -/
def chGT (b : Nat) : KCh V → Bool
  | .nil => true
  | .cons c _ _ => decide (b < c)

theorem findCh_nil (c : Nat) (ks : List Nat) : findCh (V := V) .nil c ks = none := rfl

theorem findCh_cons (c' : Nat) (child : Option (KArr V)) (rest : KCh V)
    (c : Nat) (ks : List Nat) :
    findCh (.cons c' child rest) c ks =
      if c' = c then (match child with | none => none | some ca => findA ca ks)
      else findCh rest c ks := by
  cases child <;> rfl

theorem wfCh_cons (c : Nat) (child : Option (KArr V)) (rest : KCh V) :
    wfCh (.cons c child rest) =
      ((match child with | none => false | some ca => wfA ca) && wfCh rest) := by
  cases child <;> rfl

theorem chAsc_cons (c : Nat) (ch : Option (KArr V)) (rest : KCh V) :
    chAsc (.cons c ch rest) = (chGT c rest && chAsc rest) := by
  cases rest <;> simp [chAsc, chGT]

theorem chGT_chInsSorted (b c : Nat) (cs : KCh V) (x : Option (KArr V))
    (hb : chGT b cs = true) (hc : b < c) : chGT b (chInsSorted cs c x) = true := by
  cases cs with
  | nil => simp [chInsSorted, chGT, hc]
  | cons c' ch rest =>
      by_cases h : c < c'
      · simp [chInsSorted, h, chGT, hc]
      · simpa [chInsSorted, h, chGT] using hb

theorem chAsc_chInsSorted : ∀ (cs : KCh V) (c : Nat) (x : Option (KArr V)),
    chAsc cs = true → chHasChar cs c = false → chAsc (chInsSorted cs c x) = true
  | .nil, c, x, ha, hn => by simp [chInsSorted, chAsc]
  | .cons c' ch rest, c, x, ha, hn => by
      rw [chAsc_cons, Bool.and_eq_true] at ha
      simp only [chHasChar, Bool.or_eq_false_iff, decide_eq_false_iff_not] at hn
      by_cases h : c < c'
      · have he : chInsSorted (.cons c' ch rest) c x = .cons c x (.cons c' ch rest) := by
          simp [chInsSorted, h]
        rw [he, chAsc_cons, chAsc_cons, Bool.and_eq_true, Bool.and_eq_true]
        exact ⟨by simp [chGT, h], ha.1, ha.2⟩
      · have hlt : c' < c := by
          rcases Nat.lt_or_ge c c' with h1 | h1
          · exact absurd h1 h
          · exact Nat.lt_of_le_of_ne h1 hn.1
        have he : chInsSorted (.cons c' ch rest) c x =
            .cons c' ch (chInsSorted rest c x) := by
          simp [chInsSorted, h]
        rw [he, chAsc_cons, Bool.and_eq_true]
        exact ⟨chGT_chInsSorted c' c rest x ha.1 hlt,
          chAsc_chInsSorted rest c x ha.2 hn.2⟩

theorem findCh_of_not_hasChar : ∀ (cs : KCh V) (c : Nat) (ks : List Nat),
    chHasChar cs c = false → findCh cs c ks = none
  | .nil, _, _, _ => rfl
  | .cons c' ch rest, c, ks, h => by
      simp only [chHasChar, Bool.or_eq_false_iff, decide_eq_false_iff_not] at h
      rw [findCh_cons, if_neg h.1]
      exact findCh_of_not_hasChar rest c ks h.2

theorem findCh_chInsSorted_self : ∀ (cs : KCh V) (c : Nat) (x : KArr V)
    (ks : List Nat), chHasChar cs c = false →
    findCh (chInsSorted cs c (some x)) c ks = findA x ks
  | .nil, c, x, ks, h => by
      rw [chInsSorted, findCh_cons, if_pos rfl]
  | .cons c' ch rest, c, x, ks, h => by
      simp only [chHasChar, Bool.or_eq_false_iff, decide_eq_false_iff_not] at h
      by_cases hlt : c < c'
      · rw [chInsSorted, if_pos hlt, findCh_cons, if_pos rfl]
      · rw [chInsSorted, if_neg hlt, findCh_cons, if_neg h.1]
        exact findCh_chInsSorted_self rest c x ks h.2

theorem findCh_chInsSorted_other : ∀ (cs : KCh V) (c : Nat) (x : Option (KArr V))
    (c2 : Nat) (ks2 : List Nat), c2 ≠ c →
    findCh (chInsSorted cs c x) c2 ks2 = findCh cs c2 ks2
  | .nil, c, x, c2, ks2, h => by
      rw [chInsSorted, findCh_cons, if_neg (Ne.symm h)]
  | .cons c' ch rest, c, x, c2, ks2, h => by
      by_cases hlt : c < c'
      · rw [chInsSorted, if_pos hlt, findCh_cons, if_neg (Ne.symm h)]
      · rw [chInsSorted, if_neg hlt, findCh_cons, findCh_cons]
        by_cases he : c' = c2
        · rw [if_pos he, if_pos he]
        · rw [if_neg he, if_neg he]
          exact findCh_chInsSorted_other rest c x c2 ks2 h

theorem chSize_chInsSorted : ∀ (cs : KCh V) (c : Nat) (x : Option (KArr V)),
    chSize (chInsSorted cs c x) = chSize cs + 1
  | .nil, _, _ => rfl
  | .cons c' ch rest, c, x => by
      by_cases hlt : c < c'
      · simp [chInsSorted, hlt, chSize]
      · simp [chInsSorted, hlt, chSize, chSize_chInsSorted rest c x]

theorem wfCh_chInsSorted : ∀ (cs : KCh V) (c : Nat) (x : KArr V),
    wfCh cs = true → wfA x = true → wfCh (chInsSorted cs c (some x)) = true
  | .nil, c, x, hw, hx => by
      rw [chInsSorted, wfCh_cons]
      simpa [wfCh] using hx
  | .cons c' ch rest, c, x, hw, hx => by
      rw [wfCh_cons, Bool.and_eq_true] at hw
      by_cases hlt : c < c'
      · rw [chInsSorted, if_pos hlt, wfCh_cons, wfCh_cons]
        simp only [Bool.and_eq_true]
        exact ⟨hx, hw.1, hw.2⟩
      · rw [chInsSorted, if_neg hlt, wfCh_cons]
        simp only [Bool.and_eq_true]
        exact ⟨hw.1, wfCh_chInsSorted rest c x hw.2 hx⟩

theorem findCh_chTwo (ac hc q : Nat) (x y : KArr V) (qs : List Nat)
    (hne : ac ≠ hc) :
    findCh (chTwo ac (some x) hc (some y)) q qs =
      if ac = q then findA x qs else if hc = q then findA y qs else none := by
  by_cases hlt : ac < hc
  · rw [chTwo, if_pos hlt]
    by_cases h1 : ac = q
    · simp [findCh, h1]
    · by_cases h2 : hc = q <;> simp [findCh, h1, h2]
  · rw [chTwo, if_neg hlt]
    by_cases h1 : ac = q
    · have h2 : ¬ hc = q := fun hq => hne (h1.trans hq.symm)
      simp [findCh, h1, h2]
    · by_cases h2 : hc = q <;> simp [findCh, h1, h2]

theorem chTwo_props (ac hc : Nat) (x y : KArr V) (hne : ac ≠ hc)
    (hx : wfA x = true) (hy : wfA y = true) :
    chAsc (chTwo ac (some x) hc (some y)) = true ∧
    wfCh (chTwo ac (some x) hc (some y)) = true ∧
    chSize (chTwo ac (some x) hc (some y)) = 2 := by
  by_cases hlt : ac < hc
  · simp [chTwo, hlt, chAsc, wfCh, chSize, hx, hy]
  · have hgt : hc < ac := by
      rcases Nat.lt_or_ge ac hc with h1 | h1
      · exact absurd h1 hlt
      · exact Nat.lt_of_le_of_ne h1 (Ne.symm hne)
    simp [chTwo, hlt, chAsc, wfCh, chSize, hx, hy, hgt]

/-! ## Step equations for the interpreter functions -/

theorem findA_seg_cons (e : Option V) (run : List Nat) (rest : KArr V)
    (c : Nat) (ks : List Nat) :
    findA (.seg e run rest) (c :: ks) =
      if run.isPrefixOf (c :: ks) then findA rest ((c :: ks).drop run.length)
      else none := by
  cases e <;> rfl

theorem findA_seg_nil_none (run : List Nat) (rest : KArr V) (hrun : run ≠ []) :
    findA (.seg (none : Option V) run rest) [] = none := by
  cases run with
  | nil => exact absurd rfl hrun
  | cons r0 rs => rfl

theorem findA_seg_nil_e (e : Option V) (run : List Nat) (rest : KArr V)
    (hrun : run ≠ []) : findA (.seg e run rest) [] = e := by
  cases e with
  | none => exact findA_seg_nil_none run rest hrun
  | some v => rfl

theorem findA_fin_nil (feos : Option V) (fb : Option (KBr V)) :
    findA (.fin feos fb) [] = feos := by
  cases fb with
  | none => rfl
  | some b => cases b <;> rfl

theorem findA_fin_none_cons (feos : Option V) (c : Nat) (ks : List Nat) :
    findA (.fin feos (none : Option (KBr V))) (c :: ks) = none := rfl

theorem findA_fin_list_cons (feos : Option V) (cs : KCh V) (c : Nat) (ks : List Nat) :
    findA (.fin feos (some (.list cs))) (c :: ks) = findCh cs c ks := rfl

theorem findA_fin_pop_cons (feos : Option V) (cs : KCh V) (c : Nat) (ks : List Nat) :
    findA (.fin feos (some (.pop cs))) (c :: ks) = findCh cs c ks := rfl

theorem findA_fin_cons_eq (e1 e2 : Option V) (fb : Option (KBr V)) (c : Nat)
    (ks : List Nat) : findA (.fin e1 fb) (c :: ks) = findA (.fin e2 fb) (c :: ks) := by
  cases fb with
  | none => rfl
  | some b => cases b <;> rfl

theorem wfA_seg (e : Option V) (run : List Nat) (rest : KArr V) :
    wfA (.seg e run rest) = (!run.isEmpty && wfA rest) := rfl

theorem wfA_fin_none (e : Option V) : wfA (.fin e (none : Option (KBr V))) = true := rfl

theorem wfA_fin_list (e : Option V) (cs : KCh V) :
    wfA (.fin e (some (.list cs))) =
      (decide (1 ≤ chSize cs) && decide (chSize cs ≤ 7) && chAsc cs && wfCh cs) := rfl

theorem wfA_fin_pop (e : Option V) (cs : KCh V) :
    wfA (.fin e (some (.pop cs))) =
      (decide (8 ≤ chSize cs) && chAsc cs && wfCh cs) := rfl

theorem wfA_fin_indep (e1 e2 : Option V) (fb : Option (KBr V)) :
    wfA (.fin e1 fb) = wfA (.fin e2 fb) := by
  cases fb with
  | none => rfl
  | some b => cases b <;> rfl

theorem insA_fin_nil_some (v0 : V) (fb : Option (KBr V)) (v : V) (upd : Bool) :
    insA (.fin (some v0) fb) [] v upd =
      (.fin (some (if upd then v else v0)) fb, false) := by
  cases fb with
  | none => rfl
  | some b => cases b <;> rfl

theorem insA_fin_nil_none (fb : Option (KBr V)) (v : V) (upd : Bool) :
    insA (.fin (none : Option V) fb) [] v upd = (.fin (some v) fb, true) := by
  cases fb with
  | none => rfl
  | some b => cases b <;> rfl

theorem insA_fin_none_cons (feos : Option V) (c : Nat) (ks : List Nat) (v : V)
    (upd : Bool) :
    insA (.fin feos (none : Option (KBr V))) (c :: ks) v upd =
      (.seg feos (c :: ks) (.fin (some v) none), true) := by
  cases feos <;> rfl

theorem insA_fin_list_cons (feos : Option V) (cs : KCh V) (c : Nat) (ks : List Nat)
    (v : V) (upd : Bool) :
    insA (.fin feos (some (.list cs))) (c :: ks) v upd =
      (match insCh cs c ks v upd with
       | some r => (.fin feos (some (.list r.1)), r.2)
       | none =>
           if 7 ≤ chSize cs then
             (.fin feos (some (.pop (chInsSorted cs c (some (tailA ks v))))), true)
           else
             (.fin feos (some (.list (chInsSorted cs c (some (tailA ks v))))), true)) := by
  cases feos <;> rfl

theorem insA_fin_pop_cons (feos : Option V) (cs : KCh V) (c : Nat) (ks : List Nat)
    (v : V) (upd : Bool) :
    insA (.fin feos (some (.pop cs))) (c :: ks) v upd =
      (match insCh cs c ks v upd with
       | some r => (.fin feos (some (.pop r.1)), r.2)
       | none =>
           (.fin feos (some (.pop (chInsSorted cs c (some (tailA ks v))))), true)) := by
  cases feos <;> rfl

theorem insA_seg_cons (e : Option V) (run : List Nat) (rest : KArr V)
    (c : Nat) (ks : List Nat) (v : V) (upd : Bool) :
    insA (.seg e run rest) (c :: ks) v upd =
      (if cpl (c :: ks) run < run.length then
        if (c :: ks).length ≤ cpl (c :: ks) run then
          (.seg e (run.take (cpl (c :: ks) run))
            (.seg (some v) (run.drop (cpl (c :: ks) run)) rest), true)
        else
          if cpl (c :: ks) run = 0 then
            (.fin e (some (.list (chTwo ((c :: ks).getD (cpl (c :: ks) run) 0)
              (some (tailA ((c :: ks).drop (cpl (c :: ks) run + 1)) v))
              (run.getD (cpl (c :: ks) run) 0)
              (some (if run.length ≤ cpl (c :: ks) run + 1 then rest
                     else .seg none (run.drop (cpl (c :: ks) run + 1)) rest))))), true)
          else
            (.seg e (run.take (cpl (c :: ks) run))
              (.fin none (some (.list (chTwo ((c :: ks).getD (cpl (c :: ks) run) 0)
                (some (tailA ((c :: ks).drop (cpl (c :: ks) run + 1)) v))
                (run.getD (cpl (c :: ks) run) 0)
                (some (if run.length ≤ cpl (c :: ks) run + 1 then rest
                       else .seg none (run.drop (cpl (c :: ks) run + 1)) rest)))))),
             true)
      else
        (.seg e run (insA rest ((c :: ks).drop run.length) v upd).1,
         (insA rest ((c :: ks).drop run.length) v upd).2)) := by
  cases e <;> rfl

theorem insCh_cons (c' : Nat) (child : Option (KArr V)) (rest : KCh V)
    (c : Nat) (ks : List Nat) (v : V) (upd : Bool) :
    insCh (.cons c' child rest) c ks v upd =
      (if c' = c then
        (match child with
         | none => some (.cons c' (some (tailA ks v)) rest, true)
         | some ca =>
             some (.cons c' (some (insA ca ks v upd).1) rest, (insA ca ks v upd).2))
      else
        (match insCh rest c ks v upd with
         | none => none
         | some r => some (.cons c' child r.1, r.2))) := by
  cases child <;> rfl

/-! ## Miscellaneous list facts -/

def chAscL : List Nat → Bool
  | c :: c' :: rest => decide (c < c') && chAscL (c' :: rest)
  | _ => true

theorem chAsc_eq_chAscL : ∀ cs : KCh V, chAsc cs = chAscL (chChars cs)
  | .nil => rfl
  | .cons c ch rest => by
      cases rest with
      | nil => rfl
      | cons c' ch' rest' =>
          show (decide (c < c') && chAsc (.cons c' ch' rest')) = _
          rw [chAsc_eq_chAscL (.cons c' ch' rest')]
          rfl

theorem chSize_eq_chars_length : ∀ cs : KCh V, chSize cs = (chChars cs).length
  | .nil => rfl
  | .cons c ch rest => by
      show chSize rest + 1 = (chChars rest).length + 1
      rw [chSize_eq_chars_length rest]

theorem drop_eq_getD_cons (l : List Nat) (n : Nat) (h : n < l.length) :
    l.drop n = l.getD n 0 :: l.drop (n + 1) := by
  rw [List.getD_eq_getElem _ _ h]
  exact List.drop_eq_getElem_cons h

theorem isPrefixOf_nil_left (l : List Nat) : List.isPrefixOf [] l = true := by
  cases l <;> rfl

theorem isPrefixOf_cons_nil (a : Nat) (as : List Nat) :
    (a :: as).isPrefixOf [] = false := rfl

theorem isPrefixOf_cons_cons (a b : Nat) (as bs : List Nat) :
    (a :: as).isPrefixOf (b :: bs) = ((a == b) && as.isPrefixOf bs) := rfl

theorem not_isPrefixOf_of_cpl_lt (k run : List Nat) (h : cpl k run < run.length) :
    run.isPrefixOf k = false := by
  cases hp : run.isPrefixOf k
  · rfl
  · rw [isPrefixOf_iff_cpl] at hp
    omega

theorem drop_ne_of_prefix_ne (run k k' : List Nat) (h1 : run.isPrefixOf k = true)
    (h2 : run.isPrefixOf k' = true) (h : k' ≠ k) :
    k'.drop run.length ≠ k.drop run.length := by
  intro he
  apply h
  have p1 := prefix_of_isPrefixOf h1
  have p2 := prefix_of_isPrefixOf h2
  rw [← p1, ← p2, he]

/-! ## Run-split lemmas for the break cases of insertion -/

theorem bnot_isEmpty_iff (l : List Nat) : (!l.isEmpty) = true ↔ l ≠ [] := by
  cases l <;> simp

theorem length_le_of_drop_eq_nil (w : List Nat) (mm : Nat) (hd : w.drop mm = []) :
    w.length ≤ mm := by
  have h := congrArg List.length hd
  rw [List.length_drop, List.length_nil] at h
  omega

theorem eq_of_prefix_drop_nil (p w : List Nat) (hp : p.isPrefixOf w = true)
    (hd : w.drop p.length = []) : w = p := by
  have h := prefix_of_isPrefixOf hp
  rw [hd, List.append_nil] at h
  exact h.symm

theorem list_split (l : List Nat) (mm : Nat) (hro : mm < l.length) :
    l = l.take mm ++ l.getD mm 0 :: l.drop (mm + 1) := by
  conv_lhs => rw [← List.take_append_drop mm l, drop_eq_getD_cons l mm hro]

theorem length_take_of_le (l : List Nat) (mm : Nat) (h : mm ≤ l.length) :
    (l.take mm).length = mm := by
  rw [List.length_take]
  omega

theorem take_isPrefixOf (l : List Nat) (n : Nat) : (l.take n).isPrefixOf l = true :=
  List.isPrefixOf_iff_prefix.mpr (List.take_prefix n l)

theorem isPrefixOf_take_of_full (run w : List Nat) (mm : Nat)
    (h : run.isPrefixOf w = true) : (run.take mm).isPrefixOf w = true := by
  have h' : (run.take mm ++ run.drop mm).isPrefixOf w = true := by
    rw [List.take_append_drop]
    exact h
  exact ((append_isPrefixOf_iff _ _ _).mp h').1

theorem isPrefixOf_split_iff (run : List Nat) (mm : Nat) (hro : mm < run.length)
    (w : List Nat) (q : Nat) (qs : List Nat) (hd : w.drop mm = q :: qs) :
    run.isPrefixOf w = true ↔
      ((run.take mm).isPrefixOf w = true ∧ run.getD mm 0 = q ∧
       (run.drop (mm + 1)).isPrefixOf qs = true) := by
  have hlt : (run.take mm).length = mm := length_take_of_le run mm (Nat.le_of_lt hro)
  constructor
  · intro h
    have h' : (run.take mm ++ run.getD mm 0 :: run.drop (mm + 1)).isPrefixOf w
        = true := by
      rw [← list_split run mm hro]
      exact h
    obtain ⟨h1, h2⟩ := (append_isPrefixOf_iff _ _ _).mp h'
    rw [hlt, hd, isPrefixOf_cons_cons, Bool.and_eq_true, beq_iff_eq] at h2
    exact ⟨h1, h2.1, h2.2⟩
  · rintro ⟨h1, h2, h3⟩
    have h' : (run.take mm ++ run.getD mm 0 :: run.drop (mm + 1)).isPrefixOf w
        = true := by
      rw [append_isPrefixOf_iff, hlt, hd, isPrefixOf_cons_cons, Bool.and_eq_true,
        beq_iff_eq]
      exact ⟨h1, h2, h3⟩
    rw [← list_split run mm hro] at h'
    exact h'

theorem drop_split_eq (run : List Nat) (mm : Nat) (hro : mm < run.length)
    (w : List Nat) (q : Nat) (qs : List Nat) (hd : w.drop mm = q :: qs) :
    w.drop run.length = qs.drop (run.length - (mm + 1)) := by
  have h1 : (w.drop mm).drop (run.length - mm) = w.drop run.length := by
    rw [List.drop_drop]
    congr 1
    omega
  rw [← h1, hd]
  have h2 : run.length - mm = run.length - (mm + 1) + 1 := by omega
  rw [h2]
  rfl

theorem findA_oldChild (rr : List Nat) (rest : KArr V) (qs : List Nat) :
    findA (if rr = [] then rest else .seg none rr rest) qs =
      if rr.isPrefixOf qs then findA rest (qs.drop rr.length) else none := by
  cases rr with
  | nil =>
      rw [if_pos rfl, isPrefixOf_nil_left]
      simp
  | cons r0 rs =>
      rw [if_neg (by simp)]
      cases qs with
      | nil =>
          rw [findA_seg_nil_none _ _ (by simp), isPrefixOf_cons_nil]
          simp
      | cons q qs' => rw [findA_seg_cons]

theorem oldChild_eq (run : List Nat) (rest : KArr V) (mm : Nat) :
    (if run.length ≤ mm + 1 then rest else KArr.seg none (run.drop (mm + 1)) rest) =
      (if run.drop (mm + 1) = [] then rest
       else KArr.seg (none : Option V) (run.drop (mm + 1)) rest) := by
  by_cases h : run.length ≤ mm + 1
  · rw [if_pos h, if_pos (List.drop_eq_nil_of_le h)]
  · rw [if_neg h, if_neg (fun h0 => h (length_le_of_drop_eq_nil run (mm + 1) h0))]

theorem wfA_oldChild (run : List Nat) (rest : KArr V) (mm : Nat)
    (hw : wfA rest = true) :
    wfA (if run.length ≤ mm + 1 then rest
         else KArr.seg (none : Option V) (run.drop (mm + 1)) rest) = true := by
  by_cases h : run.length ≤ mm + 1
  · rw [if_pos h]
    exact hw
  · rw [if_neg h, wfA_seg, Bool.and_eq_true]
    refine ⟨?_, hw⟩
    rw [bnot_isEmpty_iff]
    exact fun h0 => h (length_le_of_drop_eq_nil run (mm + 1) h0)

theorem findA_brnode (E : Option V) (ac hcv : Nat) (x y : KArr V) (q : Nat)
    (qs : List Nat) (hne : ac ≠ hcv) :
    findA (.fin E (some (.list (chTwo ac (some x) hcv (some y))))) (q :: qs) =
      if ac = q then findA x qs else if hcv = q then findA y qs else none := by
  rw [findA_fin_list_cons]
  exact findCh_chTwo ac hcv q x y qs hne

theorem wfA_brnode (E : Option V) (ac hcv : Nat) (x y : KArr V) (hne : ac ≠ hcv)
    (hx : wfA x = true) (hy : wfA y = true) :
    wfA (.fin E (some (.list (chTwo ac (some x) hcv (some y))))) = true := by
  obtain ⟨ha, hwch, hsz⟩ := chTwo_props ac hcv x y hne hx hy
  rw [wfA_fin_list]
  simp [hsz, ha, hwch]

/-! ## The break cases of `insert_update_loop` (no recursion) -/

theorem insA_break_old_none (e : Option V) (run : List Nat) (rest : KArr V)
    (c : Nat) (ks : List Nat) (hro : cpl (c :: ks) run < run.length) :
    findA (.seg e run rest) (c :: ks) = none := by
  have hnp := not_isPrefixOf_of_cpl_lt (c :: ks) run hro
  rw [findA_seg_cons, hnp]
  simp

theorem insA_case1_self (e : Option V) (run : List Nat) (rest : KArr V)
    (c : Nat) (ks : List Nat) (v : V)
    (hro : cpl (c :: ks) run < run.length)
    (hle : (c :: ks).length ≤ cpl (c :: ks) run) :
    findA (.seg e (run.take (cpl (c :: ks) run))
      (.seg (some v) (run.drop (cpl (c :: ks) run)) rest)) (c :: ks) = some v := by
  have hlen : cpl (c :: ks) run = (c :: ks).length :=
    Nat.le_antisymm (cpl_le_left _ _) hle
  have hkeq : run.take (cpl (c :: ks) run) = c :: ks := by
    rw [← cpl_take, hlen, List.take_length]
  rw [hkeq, findA_seg_cons, if_pos (isPrefixOf_self (c :: ks)), List.drop_length]
  rfl

theorem insA_case1_other (e : Option V) (run : List Nat) (rest : KArr V)
    (c : Nat) (ks : List Nat) (v : V)
    (hro : cpl (c :: ks) run < run.length)
    (hle : (c :: ks).length ≤ cpl (c :: ks) run)
    (hrun : run ≠ [])
    (k' : List Nat) (hk' : k' ≠ c :: ks) :
    findA (.seg e (run.take (cpl (c :: ks) run))
      (.seg (some v) (run.drop (cpl (c :: ks) run)) rest)) k' =
    findA (.seg e run rest) k' := by
  have hlen : cpl (c :: ks) run = (c :: ks).length :=
    Nat.le_antisymm (cpl_le_left _ _) hle
  have hm1 : 1 ≤ cpl (c :: ks) run := by
    rw [hlen]
    simp
  have hlt : (run.take (cpl (c :: ks) run)).length = cpl (c :: ks) run :=
    length_take_of_le run _ (Nat.le_of_lt hro)
  have hkeq : run.take (cpl (c :: ks) run) = c :: ks := by
    rw [← cpl_take, hlen, List.take_length]
  cases k' with
  | nil =>
      have htne : run.take (cpl (c :: ks) run) ≠ [] := by
        rw [hkeq]
        simp
      rw [findA_seg_nil_e _ _ _ htne, findA_seg_nil_e _ _ _ hrun]
  | cons c' ks' =>
      rw [findA_seg_cons, findA_seg_cons]
      by_cases hp : (run.take (cpl (c :: ks) run)).isPrefixOf (c' :: ks') = true
      · rw [if_pos hp, hlt]
        rcases hd : (c' :: ks').drop (cpl (c :: ks) run) with _ | ⟨q, qs⟩
        · exfalso
          apply hk'
          have := eq_of_prefix_drop_nil _ _ hp (by rw [hlt]; exact hd)
          rw [this, hkeq]
        · rw [findA_seg_cons]
          have hcond : run.isPrefixOf (c' :: ks') = true ↔
              (run.drop (cpl (c :: ks) run)).isPrefixOf (q :: qs) = true := by
            rw [isPrefixOf_split_iff run (cpl (c :: ks) run) hro (c' :: ks') q qs hd,
              drop_eq_getD_cons run (cpl (c :: ks) run) hro, isPrefixOf_cons_cons,
              Bool.and_eq_true, beq_iff_eq]
            exact ⟨fun h => ⟨h.2.1, h.2.2⟩, fun h => ⟨hp, h.1, h.2⟩⟩
          have hdeq : (q :: qs).drop (run.drop (cpl (c :: ks) run)).length =
              (c' :: ks').drop run.length := by
            rw [← hd, List.drop_drop, List.length_drop]
            congr 1
            omega
          by_cases hin : (run.drop (cpl (c :: ks) run)).isPrefixOf (q :: qs) = true
          · rw [if_pos hin, if_pos (hcond.mpr hin), hdeq]
          · rw [if_neg hin, if_neg (fun hcc => hin (hcond.mp hcc))]
      · rw [if_neg hp]
        have hold : run.isPrefixOf (c' :: ks') = false := by
          cases hcc : run.isPrefixOf (c' :: ks')
          · rfl
          · exact absurd (isPrefixOf_take_of_full run (c' :: ks') _ hcc) hp
        rw [hold]
        simp

theorem insA_case1_wf (e : Option V) (run : List Nat) (rest : KArr V)
    (c : Nat) (ks : List Nat) (v : V)
    (hro : cpl (c :: ks) run < run.length)
    (hle : (c :: ks).length ≤ cpl (c :: ks) run)
    (hwr : wfA rest = true) :
    wfA (.seg e (run.take (cpl (c :: ks) run))
      (.seg (some v) (run.drop (cpl (c :: ks) run)) rest)) = true := by
  have hlen : cpl (c :: ks) run = (c :: ks).length :=
    Nat.le_antisymm (cpl_le_left _ _) hle
  rw [wfA_seg, wfA_seg, Bool.and_eq_true, Bool.and_eq_true]
  refine ⟨?_, ?_, hwr⟩
  · rw [bnot_isEmpty_iff]
    intro h0
    have h1 := congrArg List.length h0
    rw [length_take_of_le run _ (Nat.le_of_lt hro), List.length_nil, hlen] at h1
    simp at h1
  · rw [bnot_isEmpty_iff]
    intro h0
    have h1 := length_le_of_drop_eq_nil run _ h0
    omega

theorem insA_case2_self0 (e : Option V) (run : List Nat) (rest : KArr V)
    (c : Nat) (ks : List Nat) (v : V) (mm : Nat)
    (hgd : (c :: ks).getD mm 0 ≠ run.getD mm 0)
    (hm0 : mm = 0) :
    findA (.fin e (some (.list (chTwo ((c :: ks).getD mm 0)
      (some (tailA ((c :: ks).drop (mm + 1)) v)) (run.getD mm 0)
      (some (if run.length ≤ mm + 1 then rest
             else .seg none (run.drop (mm + 1)) rest)))))) (c :: ks) = some v := by
  subst hm0
  rw [findA_brnode _ _ _ _ _ _ _ hgd, if_pos (show (c :: ks).getD 0 0 = c from rfl)]
  rw [show (c :: ks).drop (0 + 1) = ks from rfl]
  exact findA_tailA_self ks v

theorem insA_case2_selfP (e : Option V) (run : List Nat) (rest : KArr V)
    (c : Nat) (ks : List Nat) (v : V) (mm : Nat)
    (hro : mm < run.length) (hkl : mm < (c :: ks).length)
    (htk : (c :: ks).take mm = run.take mm)
    (hgd : (c :: ks).getD mm 0 ≠ run.getD mm 0) :
    findA (.seg e (run.take mm) (.fin none (some (.list (chTwo ((c :: ks).getD mm 0)
      (some (tailA ((c :: ks).drop (mm + 1)) v)) (run.getD mm 0)
      (some (if run.length ≤ mm + 1 then rest
             else .seg none (run.drop (mm + 1)) rest))))))) (c :: ks) = some v := by
  have hpre : (run.take mm).isPrefixOf (c :: ks) = true := by
    rw [← htk]
    exact take_isPrefixOf (c :: ks) mm
  rw [findA_seg_cons, if_pos hpre, length_take_of_le run mm (Nat.le_of_lt hro),
    drop_eq_getD_cons (c :: ks) mm hkl, findA_brnode _ _ _ _ _ _ _ hgd, if_pos rfl]
  exact findA_tailA_self _ v

theorem insA_case2_other0 (e : Option V) (run : List Nat) (rest : KArr V)
    (c : Nat) (ks : List Nat) (v : V) (mm : Nat)
    (hro : mm < run.length)
    (hgd : (c :: ks).getD mm 0 ≠ run.getD mm 0)
    (hm0 : mm = 0)
    (k' : List Nat) (hk' : k' ≠ c :: ks) :
    findA (.fin e (some (.list (chTwo ((c :: ks).getD mm 0)
      (some (tailA ((c :: ks).drop (mm + 1)) v)) (run.getD mm 0)
      (some (if run.length ≤ mm + 1 then rest
             else .seg none (run.drop (mm + 1)) rest)))))) k' =
    findA (.seg e run rest) k' := by
  subst hm0
  have hrun : run ≠ [] := by
    intro h0
    rw [h0] at hro
    simp at hro
  cases k' with
  | nil => rw [findA_fin_nil, findA_seg_nil_e _ _ _ hrun]
  | cons c' ks' =>
      rw [findA_brnode _ _ _ _ _ _ _ hgd, findA_seg_cons]
      have hiff := isPrefixOf_split_iff run 0 hro (c' :: ks') c' ks' rfl
      have hsplit0 : run.isPrefixOf (c' :: ks') = true ↔
          (run.getD 0 0 = c' ∧ (run.drop (0 + 1)).isPrefixOf ks' = true) := by
        rw [hiff]
        constructor
        · exact fun h => ⟨h.2.1, h.2.2⟩
        · intro h
          refine ⟨?_, h.1, h.2⟩
          rw [List.take_zero]
          exact isPrefixOf_nil_left _
      by_cases h1 : (c :: ks).getD 0 0 = c'
      · rw [if_pos h1]
        have hksne : ks' ≠ (c :: ks).drop (0 + 1) := by
          intro he
          apply hk'
          have hc' : c' = c := by
            rw [← h1]
            rfl
          rw [hc', he]
          rfl
        rw [findA_tailA_other _ _ _ hksne]
        have hnp : run.isPrefixOf (c' :: ks') = false := by
          cases hcc : run.isPrefixOf (c' :: ks')
          · rfl
          · exact absurd (h1.trans (hsplit0.mp hcc).1.symm) hgd
        rw [hnp]
        simp
      · rw [if_neg h1]
        by_cases h2 : run.getD 0 0 = c'
        · rw [if_pos h2, oldChild_eq run rest 0, findA_oldChild]
          have hdeq : ks'.drop (run.drop (0 + 1)).length =
              (c' :: ks').drop run.length := by
            rw [List.length_drop, drop_split_eq run 0 hro (c' :: ks') c' ks' rfl]
          by_cases h3 : (run.drop (0 + 1)).isPrefixOf ks' = true
          · rw [if_pos h3, if_pos (hsplit0.mpr ⟨h2, h3⟩), hdeq]
          · rw [if_neg h3, if_neg (fun hcc => h3 (hsplit0.mp hcc).2)]
        · rw [if_neg h2]
          have hnp : run.isPrefixOf (c' :: ks') = false := by
            cases hcc : run.isPrefixOf (c' :: ks')
            · rfl
            · exact absurd (hsplit0.mp hcc).1 h2
          rw [hnp]
          simp

theorem insA_case2_otherP (e : Option V) (run : List Nat) (rest : KArr V)
    (c : Nat) (ks : List Nat) (v : V) (mm : Nat)
    (hro : mm < run.length) (hkl : mm < (c :: ks).length)
    (htk : (c :: ks).take mm = run.take mm)
    (hgd : (c :: ks).getD mm 0 ≠ run.getD mm 0)
    (hm1 : mm ≠ 0)
    (k' : List Nat) (hk' : k' ≠ c :: ks) :
    findA (.seg e (run.take mm) (.fin none (some (.list (chTwo ((c :: ks).getD mm 0)
      (some (tailA ((c :: ks).drop (mm + 1)) v)) (run.getD mm 0)
      (some (if run.length ≤ mm + 1 then rest
             else .seg none (run.drop (mm + 1)) rest))))))) k' =
    findA (.seg e run rest) k' := by
  have hrun : run ≠ [] := by
    intro h0
    rw [h0] at hro
    simp at hro
  have hlt : (run.take mm).length = mm := length_take_of_le run mm (Nat.le_of_lt hro)
  cases k' with
  | nil =>
      have htne : run.take mm ≠ [] := by
        intro h0
        rw [h0] at hlt
        simp at hlt
        exact hm1 hlt.symm
      rw [findA_seg_nil_e _ _ _ htne, findA_seg_nil_e _ _ _ hrun]
  | cons c' ks' =>
      rw [findA_seg_cons, findA_seg_cons]
      by_cases hp : (run.take mm).isPrefixOf (c' :: ks') = true
      · rw [if_pos hp, hlt]
        rcases hd : (c' :: ks').drop mm with _ | ⟨q, qs⟩
        · rw [findA_fin_nil]
          have hnp : run.isPrefixOf (c' :: ks') = false := by
            cases hcc : run.isPrefixOf (c' :: ks')
            · rfl
            · have hlen := (List.isPrefixOf_iff_prefix.mp hcc).length_le
              have hsh := length_le_of_drop_eq_nil _ _ hd
              omega
          rw [hnp]
          simp
        · rw [findA_brnode _ _ _ _ _ _ _ hgd]
          have hiff := isPrefixOf_split_iff run mm hro (c' :: ks') q qs hd
          by_cases h1 : (c :: ks).getD mm 0 = q
          · rw [if_pos h1]
            have hksne : qs ≠ (c :: ks).drop (mm + 1) := by
              intro he
              apply hk'
              have hp2 := prefix_of_isPrefixOf hp
              rw [hlt, hd] at hp2
              rw [← hp2, he, ← h1, ← htk]
              exact (list_split (c :: ks) mm hkl).symm
            rw [findA_tailA_other _ _ _ hksne]
            have hnp : run.isPrefixOf (c' :: ks') = false := by
              cases hcc : run.isPrefixOf (c' :: ks')
              · rfl
              · exact absurd (h1.trans (hiff.mp hcc).2.1.symm) hgd
            rw [hnp]
            simp
          · rw [if_neg h1]
            by_cases h2 : run.getD mm 0 = q
            · rw [if_pos h2, oldChild_eq run rest mm, findA_oldChild]
              have hdeq : qs.drop (run.drop (mm + 1)).length =
                  (c' :: ks').drop run.length := by
                rw [List.length_drop, drop_split_eq run mm hro (c' :: ks') q qs hd]
              by_cases h3 : (run.drop (mm + 1)).isPrefixOf qs = true
              · rw [if_pos h3, if_pos (hiff.mpr ⟨hp, h2, h3⟩), hdeq]
              · rw [if_neg h3, if_neg (fun hcc => h3 (hiff.mp hcc).2.2)]
            · rw [if_neg h2]
              have hnp : run.isPrefixOf (c' :: ks') = false := by
                cases hcc : run.isPrefixOf (c' :: ks')
                · rfl
                · exact absurd (hiff.mp hcc).2.1 h2
              rw [hnp]
              simp
      · rw [if_neg hp]
        have hnp : run.isPrefixOf (c' :: ks') = false := by
          cases hcc : run.isPrefixOf (c' :: ks')
          · rfl
          · exact absurd (isPrefixOf_take_of_full run (c' :: ks') mm hcc) hp
        rw [hnp]
        simp

theorem insA_case2_wf0 (e : Option V) (run : List Nat) (rest : KArr V)
    (c : Nat) (ks : List Nat) (v : V) (mm : Nat)
    (hgd : (c :: ks).getD mm 0 ≠ run.getD mm 0)
    (hwr : wfA rest = true) :
    wfA (.fin e (some (.list (chTwo ((c :: ks).getD mm 0)
      (some (tailA ((c :: ks).drop (mm + 1)) v)) (run.getD mm 0)
      (some (if run.length ≤ mm + 1 then rest
             else .seg none (run.drop (mm + 1)) rest)))))) = true :=
  wfA_brnode _ _ _ _ _ hgd (wfA_tailA _ v) (wfA_oldChild run rest mm hwr)

theorem insA_case2_wfP (e : Option V) (run : List Nat) (rest : KArr V)
    (c : Nat) (ks : List Nat) (v : V) (mm : Nat)
    (hro : mm < run.length)
    (hgd : (c :: ks).getD mm 0 ≠ run.getD mm 0)
    (hm1 : mm ≠ 0)
    (hwr : wfA rest = true) :
    wfA (.seg e (run.take mm) (.fin none (some (.list (chTwo ((c :: ks).getD mm 0)
      (some (tailA ((c :: ks).drop (mm + 1)) v)) (run.getD mm 0)
      (some (if run.length ≤ mm + 1 then rest
             else .seg none (run.drop (mm + 1)) rest))))))) = true := by
  rw [wfA_seg, Bool.and_eq_true]
  constructor
  · rw [bnot_isEmpty_iff]
    intro h0
    have h1 := congrArg List.length h0
    rw [length_take_of_le run mm (Nat.le_of_lt hro), List.length_nil] at h1
    exact hm1 h1
  · exact wfA_brnode _ _ _ _ _ hgd (wfA_tailA _ v) (wfA_oldChild run rest mm hwr)

theorem insA_seg_cons_fst (e : Option V) (run : List Nat) (rest : KArr V)
    (c : Nat) (ks : List Nat) (v : V) (upd : Bool) :
    (insA (.seg e run rest) (c :: ks) v upd).1 =
      (if cpl (c :: ks) run < run.length then
        if (c :: ks).length ≤ cpl (c :: ks) run then
          .seg e (run.take (cpl (c :: ks) run))
            (.seg (some v) (run.drop (cpl (c :: ks) run)) rest)
        else
          if cpl (c :: ks) run = 0 then
            .fin e (some (.list (chTwo ((c :: ks).getD (cpl (c :: ks) run) 0)
              (some (tailA ((c :: ks).drop (cpl (c :: ks) run + 1)) v))
              (run.getD (cpl (c :: ks) run) 0)
              (some (if run.length ≤ cpl (c :: ks) run + 1 then rest
                     else .seg none (run.drop (cpl (c :: ks) run + 1)) rest)))))
          else
            .seg e (run.take (cpl (c :: ks) run))
              (.fin none (some (.list (chTwo ((c :: ks).getD (cpl (c :: ks) run) 0)
                (some (tailA ((c :: ks).drop (cpl (c :: ks) run + 1)) v))
                (run.getD (cpl (c :: ks) run) 0)
                (some (if run.length ≤ cpl (c :: ks) run + 1 then rest
                       else .seg none (run.drop (cpl (c :: ks) run + 1)) rest))))))
      else
        .seg e run (insA rest ((c :: ks).drop run.length) v upd).1) := by
  rw [insA_seg_cons]
  by_cases h1 : cpl (c :: ks) run < run.length
  · rw [if_pos h1, if_pos h1]
    by_cases h2 : (c :: ks).length ≤ cpl (c :: ks) run
    · rw [if_pos h2, if_pos h2]
    · rw [if_neg h2, if_neg h2]
      by_cases h3 : cpl (c :: ks) run = 0
      · rw [if_pos h3, if_pos h3]
      · rw [if_neg h3, if_neg h3]
  · rw [if_neg h1, if_neg h1]

theorem insA_seg_cons_snd (e : Option V) (run : List Nat) (rest : KArr V)
    (c : Nat) (ks : List Nat) (v : V) (upd : Bool) :
    (insA (.seg e run rest) (c :: ks) v upd).2 =
      (if cpl (c :: ks) run < run.length then true
       else (insA rest ((c :: ks).drop run.length) v upd).2) := by
  rw [insA_seg_cons]
  by_cases h1 : cpl (c :: ks) run < run.length
  · rw [if_pos h1, if_pos h1]
    by_cases h2 : (c :: ks).length ≤ cpl (c :: ks) run
    · rw [if_pos h2]
    · rw [if_neg h2]
      by_cases h3 : cpl (c :: ks) run = 0
      · rw [if_pos h3]
      · rw [if_neg h3]
  · rw [if_neg h1, if_neg h1]

theorem insA_addbranch_self (feos : Option V) (c : Nat) (ks : List Nat) (v : V) :
    findA (.seg feos (c :: ks) (.fin (some v) none)) (c :: ks) = some v := by
  rw [findA_seg_cons, if_pos (isPrefixOf_self _), List.drop_length]
  rfl

theorem insA_addbranch_other (feos : Option V) (c : Nat) (ks : List Nat) (v : V)
    (k' : List Nat) (hk' : k' ≠ c :: ks) :
    findA (.seg feos (c :: ks) (.fin (some v) none)) k' =
      findA (.fin feos (none : Option (KBr V))) k' := by
  cases k' with
  | nil => rw [findA_seg_nil_e _ _ _ (by simp), findA_fin_nil]
  | cons c' ks' =>
      rw [findA_seg_cons, findA_fin_none_cons]
      by_cases hp : (c :: ks).isPrefixOf (c' :: ks') = true
      · rw [if_pos hp]
        rcases hd : (c' :: ks').drop (c :: ks).length with _ | ⟨q, qs⟩
        · exact absurd (eq_of_prefix_drop_nil _ _ hp hd) hk'
        · rfl
      · rw [if_neg hp]

theorem insA_addbranch_wf (feos : Option V) (c : Nat) (ks : List Nat) (v : V) :
    wfA (.seg feos (c :: ks) (.fin (some v) none)) = true := by
  rw [wfA_seg, Bool.and_eq_true]
  refine ⟨?_, wfA_fin_none (some v)⟩
  rw [bnot_isEmpty_iff]
  simp

/-! ## The insertion master lemma -/

mutual
/-- Master lemma for `insert_update_loop` on one well-formed node array: the
returned flag equals prior absence of the key, the key is subsequently found
with the value dictated by the `do_update` mode, every other key keeps its
lookup result, and structural well-formedness is preserved. -/
theorem insA_spec : ∀ (a : KArr V) (k : List Nat) (v : V) (upd : Bool),
    wfA a = true →
    ((insA a k v upd).2 = (findA a k).isNone ∧
     findA (insA a k v upd).1 k = some (if upd then v else (findA a k).getD v) ∧
     (∀ k', k' ≠ k → findA (insA a k v upd).1 k' = findA a k') ∧
     wfA (insA a k v upd).1 = true)
  | .seg e run rest, [], v, upd, hw => by
      have hw' := hw
      rw [wfA_seg, Bool.and_eq_true, bnot_isEmpty_iff] at hw'
      cases e with
      | some v0 =>
          refine ⟨rfl, rfl, ?_, ?_⟩
          · intro k' hk'
            cases k' with
            | nil => exact absurd rfl hk'
            | cons c' ks' =>
                show findA (.seg (some (if upd then v else v0)) run rest)
                    (c' :: ks') = findA (.seg (some v0) run rest) (c' :: ks')
                rw [findA_seg_cons, findA_seg_cons]
          · show wfA (.seg (some (if upd then v else v0)) run rest) = true
            rw [wfA_seg, Bool.and_eq_true, bnot_isEmpty_iff]
            exact hw'
      | none =>
          have hold : findA (.seg (none : Option V) run rest) [] = none :=
            findA_seg_nil_none run rest hw'.1
          refine ⟨?_, ?_, ?_, ?_⟩
          · rw [hold]
            rfl
          · rw [hold]
            show findA (.seg (some v) run rest) [] =
              some (if upd then v else none.getD v)
            rw [findA_seg_nil_e _ _ _ hw'.1]
            simp
          · intro k' hk'
            cases k' with
            | nil => exact absurd rfl hk'
            | cons c' ks' =>
                show findA (.seg (some v) run rest) (c' :: ks') =
                  findA (.seg none run rest) (c' :: ks')
                rw [findA_seg_cons, findA_seg_cons]
          · show wfA (.seg (some v) run rest) = true
            rw [wfA_seg, Bool.and_eq_true, bnot_isEmpty_iff]
            exact hw'
  | .seg e run rest, c :: ks, v, upd, hw => by
      have hw' := hw
      rw [wfA_seg, Bool.and_eq_true, bnot_isEmpty_iff] at hw'
      by_cases hro : cpl (c :: ks) run < run.length
      · have hold := insA_break_old_none e run rest c ks hro
        by_cases hle : (c :: ks).length ≤ cpl (c :: ks) run
        · refine ⟨?_, ?_, ?_, ?_⟩
          · rw [insA_seg_cons_snd, if_pos hro, hold]
            rfl
          · rw [insA_seg_cons_fst, if_pos hro, if_pos hle, hold,
              insA_case1_self e run rest c ks v hro hle]
            simp
          · intro k' hk'
            rw [insA_seg_cons_fst, if_pos hro, if_pos hle]
            exact insA_case1_other e run rest c ks v hro hle hw'.1 k' hk'
          · rw [insA_seg_cons_fst, if_pos hro, if_pos hle]
            exact insA_case1_wf e run rest c ks v hro hle hw'.2
        · have hkl : cpl (c :: ks) run < (c :: ks).length := by
            have := cpl_le_left (c :: ks) run
            omega
          have hgd := cpl_getD_ne (c :: ks) run hkl hro
          by_cases h0 : cpl (c :: ks) run = 0
          · refine ⟨?_, ?_, ?_, ?_⟩
            · rw [insA_seg_cons_snd, if_pos hro, hold]
              rfl
            · rw [insA_seg_cons_fst, if_pos hro, if_neg hle, if_pos h0, hold,
                insA_case2_self0 e run rest c ks v _ hgd h0]
              simp
            · intro k' hk'
              rw [insA_seg_cons_fst, if_pos hro, if_neg hle, if_pos h0]
              exact insA_case2_other0 e run rest c ks v _ hro hgd h0 k' hk'
            · rw [insA_seg_cons_fst, if_pos hro, if_neg hle, if_pos h0]
              exact insA_case2_wf0 e run rest c ks v _ hgd hw'.2
          · refine ⟨?_, ?_, ?_, ?_⟩
            · rw [insA_seg_cons_snd, if_pos hro, hold]
              rfl
            · rw [insA_seg_cons_fst, if_pos hro, if_neg hle, if_neg h0, hold,
                insA_case2_selfP e run rest c ks v _ hro hkl (cpl_take _ _) hgd]
              simp
            · intro k' hk'
              rw [insA_seg_cons_fst, if_pos hro, if_neg hle, if_neg h0]
              exact insA_case2_otherP e run rest c ks v _ hro hkl (cpl_take _ _)
                hgd h0 k' hk'
            · rw [insA_seg_cons_fst, if_pos hro, if_neg hle, if_neg h0]
              exact insA_case2_wfP e run rest c ks v _ hro hgd h0 hw'.2
      · have hpre : run.isPrefixOf (c :: ks) = true := by
          rw [isPrefixOf_iff_cpl]
          have := cpl_le_right (c :: ks) run
          omega
        obtain ⟨ihf, ihs, iho, ihw⟩ :=
          insA_spec rest ((c :: ks).drop run.length) v upd hw'.2
        refine ⟨?_, ?_, ?_, ?_⟩
        · rw [insA_seg_cons_snd, if_neg hro, findA_seg_cons, if_pos hpre]
          exact ihf
        · rw [insA_seg_cons_fst, if_neg hro, findA_seg_cons, if_pos hpre,
            findA_seg_cons, if_pos hpre]
          exact ihs
        · intro k' hk'
          rw [insA_seg_cons_fst, if_neg hro]
          cases k' with
          | nil => rw [findA_seg_nil_e _ _ _ hw'.1, findA_seg_nil_e _ _ _ hw'.1]
          | cons c' ks' =>
              rw [findA_seg_cons, findA_seg_cons]
              by_cases hp' : run.isPrefixOf (c' :: ks') = true
              · rw [if_pos hp', if_pos hp']
                exact iho _
                  (drop_ne_of_prefix_ne run (c :: ks) (c' :: ks') hpre hp' hk')
              · rw [if_neg hp', if_neg hp']
        · rw [insA_seg_cons_fst, if_neg hro, wfA_seg, Bool.and_eq_true,
            bnot_isEmpty_iff]
          exact ⟨hw'.1, ihw⟩
  | .fin feos fb, [], v, upd, hw => by
      cases feos with
      | some v0 =>
          rw [insA_fin_nil_some]
          refine ⟨?_, ?_, ?_, ?_⟩
          · rw [findA_fin_nil]
            rfl
          · rw [findA_fin_nil, findA_fin_nil]
            rfl
          · intro k' hk'
            cases k' with
            | nil => exact absurd rfl hk'
            | cons c' ks' => exact findA_fin_cons_eq _ _ fb c' ks'
          · rw [wfA_fin_indep (some (if upd then v else v0)) (some v0) fb]
            exact hw
      | none =>
          rw [insA_fin_nil_none]
          refine ⟨?_, ?_, ?_, ?_⟩
          · rw [findA_fin_nil]
            rfl
          · rw [findA_fin_nil, findA_fin_nil]
            simp
          · intro k' hk'
            cases k' with
            | nil => exact absurd rfl hk'
            | cons c' ks' => exact findA_fin_cons_eq _ _ fb c' ks'
          · rw [wfA_fin_indep (some v) none fb]
            exact hw
  | .fin feos none, c :: ks, v, upd, hw => by
      rw [insA_fin_none_cons]
      refine ⟨?_, ?_, ?_, ?_⟩
      · rw [findA_fin_none_cons]
        rfl
      · rw [insA_addbranch_self, findA_fin_none_cons]
        simp
      · intro k' hk'
        exact insA_addbranch_other feos c ks v k' hk'
      · exact insA_addbranch_wf feos c ks v
  | .fin feos (some (.list cs)), c :: ks, v, upd, hw => by
      have hw' := hw
      rw [wfA_fin_list, Bool.and_eq_true, Bool.and_eq_true, Bool.and_eq_true] at hw'
      obtain ⟨⟨⟨hs1, hs7⟩, hasc⟩, hwch⟩ := hw'
      rw [decide_eq_true_eq] at hs1 hs7
      obtain ⟨hchN, hchS⟩ := insCh_spec cs c ks v upd hwch
      cases hrec : insCh cs c ks v upd with
      | some r =>
          obtain ⟨hf, hs, ho, hwc, hcc⟩ := hchS r.1 r.2 (by rw [hrec])
          have hins : insA (.fin feos (some (.list cs))) (c :: ks) v upd =
              (.fin feos (some (.list r.1)), r.2) := by
            rw [insA_fin_list_cons, hrec]
          rw [hins]
          refine ⟨?_, ?_, ?_, ?_⟩
          · show r.2 = (findA (.fin feos (some (.list cs))) (c :: ks)).isNone
            rw [findA_fin_list_cons]
            exact hf
          · show findA (.fin feos (some (.list r.1))) (c :: ks) = _
            rw [findA_fin_list_cons, findA_fin_list_cons]
            exact hs
          · intro k' hk'
            show findA (.fin feos (some (.list r.1))) k' =
              findA (.fin feos (some (.list cs))) k'
            cases k' with
            | nil => rw [findA_fin_nil, findA_fin_nil]
            | cons c2 ks2 =>
                rw [findA_fin_list_cons, findA_fin_list_cons]
                apply ho
                rintro ⟨he1, he2⟩
                exact hk' (by rw [he1, he2])
          · show wfA (.fin feos (some (.list r.1))) = true
            rw [wfA_fin_list]
            have hsz : chSize r.1 = chSize cs := by
              rw [chSize_eq_chars_length, chSize_eq_chars_length, hcc]
            have hasc' : chAsc r.1 = true := by
              rw [chAsc_eq_chAscL, hcc, ← chAsc_eq_chAscL]
              exact hasc
            simp [hsz, hasc', hwc, hs1, hs7]
      | none =>
          have hnc : chHasChar cs c = false := hchN hrec
          have hfnone : findCh cs c ks = none := findCh_of_not_hasChar cs c ks hnc
          by_cases h7 : 7 ≤ chSize cs
          · have hins : insA (.fin feos (some (.list cs))) (c :: ks) v upd =
                (.fin feos (some (.pop (chInsSorted cs c (some (tailA ks v))))),
                 true) := by
              rw [insA_fin_list_cons, hrec]
              show (if 7 ≤ chSize cs then
                  (KArr.fin feos
                    (some (.pop (chInsSorted cs c (some (tailA ks v))))), true)
                else
                  (KArr.fin feos
                    (some (.list (chInsSorted cs c (some (tailA ks v))))), true)) = _
              rw [if_pos h7]
            rw [hins]
            refine ⟨?_, ?_, ?_, ?_⟩
            · show true = (findA (.fin feos (some (.list cs))) (c :: ks)).isNone
              rw [findA_fin_list_cons, hfnone]
              rfl
            · show findA (.fin feos
                  (some (.pop (chInsSorted cs c (some (tailA ks v)))))) (c :: ks) = _
              rw [findA_fin_pop_cons, findA_fin_list_cons, hfnone,
                findCh_chInsSorted_self cs c _ ks hnc, findA_tailA_self]
              simp
            · intro k' hk'
              show findA (.fin feos
                  (some (.pop (chInsSorted cs c (some (tailA ks v)))))) k' =
                findA (.fin feos (some (.list cs))) k'
              cases k' with
              | nil => rw [findA_fin_nil, findA_fin_nil]
              | cons c2 ks2 =>
                  rw [findA_fin_pop_cons, findA_fin_list_cons]
                  by_cases hc2 : c2 = c
                  · have hks2 : ks2 ≠ ks := fun he => hk' (by rw [hc2, he])
                    rw [hc2, findCh_chInsSorted_self cs c _ ks2 hnc,
                      findA_tailA_other ks ks2 v hks2,
                      findCh_of_not_hasChar cs c ks2 hnc]
                  · rw [findCh_chInsSorted_other cs c _ c2 ks2 hc2]
            · show wfA (.fin feos
                  (some (.pop (chInsSorted cs c (some (tailA ks v)))))) = true
              rw [wfA_fin_pop]
              have hsz := chSize_chInsSorted cs c (some (tailA ks v))
              have h8 : 8 ≤ chSize (chInsSorted cs c (some (tailA ks v))) := by
                omega
              simp [h8, chAsc_chInsSorted cs c _ hasc hnc,
                wfCh_chInsSorted cs c _ hwch (wfA_tailA ks v)]
          · have hins : insA (.fin feos (some (.list cs))) (c :: ks) v upd =
                (.fin feos (some (.list (chInsSorted cs c (some (tailA ks v))))),
                 true) := by
              rw [insA_fin_list_cons, hrec]
              show (if 7 ≤ chSize cs then
                  (KArr.fin feos
                    (some (.pop (chInsSorted cs c (some (tailA ks v))))), true)
                else
                  (KArr.fin feos
                    (some (.list (chInsSorted cs c (some (tailA ks v))))), true)) = _
              rw [if_neg h7]
            rw [hins]
            refine ⟨?_, ?_, ?_, ?_⟩
            · show true = (findA (.fin feos (some (.list cs))) (c :: ks)).isNone
              rw [findA_fin_list_cons, hfnone]
              rfl
            · show findA (.fin feos
                  (some (.list (chInsSorted cs c (some (tailA ks v)))))) (c :: ks) = _
              rw [findA_fin_list_cons, findA_fin_list_cons, hfnone,
                findCh_chInsSorted_self cs c _ ks hnc, findA_tailA_self]
              simp
            · intro k' hk'
              show findA (.fin feos
                  (some (.list (chInsSorted cs c (some (tailA ks v)))))) k' =
                findA (.fin feos (some (.list cs))) k'
              cases k' with
              | nil => rw [findA_fin_nil, findA_fin_nil]
              | cons c2 ks2 =>
                  rw [findA_fin_list_cons, findA_fin_list_cons]
                  by_cases hc2 : c2 = c
                  · have hks2 : ks2 ≠ ks := fun he => hk' (by rw [hc2, he])
                    rw [hc2, findCh_chInsSorted_self cs c _ ks2 hnc,
                      findA_tailA_other ks ks2 v hks2,
                      findCh_of_not_hasChar cs c ks2 hnc]
                  · rw [findCh_chInsSorted_other cs c _ c2 ks2 hc2]
            · show wfA (.fin feos
                  (some (.list (chInsSorted cs c (some (tailA ks v)))))) = true
              rw [wfA_fin_list]
              have hsz := chSize_chInsSorted cs c (some (tailA ks v))
              have h1' : 1 ≤ chSize (chInsSorted cs c (some (tailA ks v))) := by
                omega
              have h7' : chSize (chInsSorted cs c (some (tailA ks v))) ≤ 7 := by
                omega
              simp [h1', h7', chAsc_chInsSorted cs c _ hasc hnc,
                wfCh_chInsSorted cs c _ hwch (wfA_tailA ks v)]
  | .fin feos (some (.pop cs)), c :: ks, v, upd, hw => by
      have hw' := hw
      rw [wfA_fin_pop, Bool.and_eq_true, Bool.and_eq_true] at hw'
      obtain ⟨⟨hs8, hasc⟩, hwch⟩ := hw'
      rw [decide_eq_true_eq] at hs8
      obtain ⟨hchN, hchS⟩ := insCh_spec cs c ks v upd hwch
      cases hrec : insCh cs c ks v upd with
      | some r =>
          obtain ⟨hf, hs, ho, hwc, hcc⟩ := hchS r.1 r.2 (by rw [hrec])
          have hins : insA (.fin feos (some (.pop cs))) (c :: ks) v upd =
              (.fin feos (some (.pop r.1)), r.2) := by
            rw [insA_fin_pop_cons, hrec]
          rw [hins]
          refine ⟨?_, ?_, ?_, ?_⟩
          · show r.2 = (findA (.fin feos (some (.pop cs))) (c :: ks)).isNone
            rw [findA_fin_pop_cons]
            exact hf
          · show findA (.fin feos (some (.pop r.1))) (c :: ks) = _
            rw [findA_fin_pop_cons, findA_fin_pop_cons]
            exact hs
          · intro k' hk'
            show findA (.fin feos (some (.pop r.1))) k' =
              findA (.fin feos (some (.pop cs))) k'
            cases k' with
            | nil => rw [findA_fin_nil, findA_fin_nil]
            | cons c2 ks2 =>
                rw [findA_fin_pop_cons, findA_fin_pop_cons]
                apply ho
                rintro ⟨he1, he2⟩
                exact hk' (by rw [he1, he2])
          · show wfA (.fin feos (some (.pop r.1))) = true
            rw [wfA_fin_pop]
            have hsz : chSize r.1 = chSize cs := by
              rw [chSize_eq_chars_length, chSize_eq_chars_length, hcc]
            have hasc' : chAsc r.1 = true := by
              rw [chAsc_eq_chAscL, hcc, ← chAsc_eq_chAscL]
              exact hasc
            simp [hsz, hasc', hwc, hs8]
      | none =>
          have hnc : chHasChar cs c = false := hchN hrec
          have hfnone : findCh cs c ks = none := findCh_of_not_hasChar cs c ks hnc
          have hins : insA (.fin feos (some (.pop cs))) (c :: ks) v upd =
              (.fin feos (some (.pop (chInsSorted cs c (some (tailA ks v))))),
               true) := by
            rw [insA_fin_pop_cons, hrec]
          rw [hins]
          refine ⟨?_, ?_, ?_, ?_⟩
          · show true = (findA (.fin feos (some (.pop cs))) (c :: ks)).isNone
            rw [findA_fin_pop_cons, hfnone]
            rfl
          · show findA (.fin feos
                (some (.pop (chInsSorted cs c (some (tailA ks v)))))) (c :: ks) = _
            rw [findA_fin_pop_cons, findA_fin_pop_cons, hfnone,
              findCh_chInsSorted_self cs c _ ks hnc, findA_tailA_self]
            simp
          · intro k' hk'
            show findA (.fin feos
                (some (.pop (chInsSorted cs c (some (tailA ks v)))))) k' =
              findA (.fin feos (some (.pop cs))) k'
            cases k' with
            | nil => rw [findA_fin_nil, findA_fin_nil]
            | cons c2 ks2 =>
                rw [findA_fin_pop_cons, findA_fin_pop_cons]
                by_cases hc2 : c2 = c
                · have hks2 : ks2 ≠ ks := fun he => hk' (by rw [hc2, he])
                  rw [hc2, findCh_chInsSorted_self cs c _ ks2 hnc,
                    findA_tailA_other ks ks2 v hks2,
                    findCh_of_not_hasChar cs c ks2 hnc]
                · rw [findCh_chInsSorted_other cs c _ c2 ks2 hc2]
          · show wfA (.fin feos
                (some (.pop (chInsSorted cs c (some (tailA ks v)))))) = true
            rw [wfA_fin_pop]
            have hsz := chSize_chInsSorted cs c (some (tailA ks v))
            have h8 : 8 ≤ chSize (chInsSorted cs c (some (tailA ks v))) := by
              omega
            simp [h8, chAsc_chInsSorted cs c _ hasc hnc,
              wfCh_chInsSorted cs c _ hwch (wfA_tailA ks v)]

/-- Master lemma for insertion through a branch child list. -/
theorem insCh_spec : ∀ (cs : KCh V) (c : Nat) (ks : List Nat) (v : V) (upd : Bool),
    wfCh cs = true →
    ((insCh cs c ks v upd = none → chHasChar cs c = false) ∧
     (∀ cs2 fl, insCh cs c ks v upd = some (cs2, fl) →
       (fl = (findCh cs c ks).isNone ∧
        findCh cs2 c ks = some (if upd then v else (findCh cs c ks).getD v) ∧
        (∀ c2 ks2, ¬(c2 = c ∧ ks2 = ks) → findCh cs2 c2 ks2 = findCh cs c2 ks2) ∧
        wfCh cs2 = true ∧ chChars cs2 = chChars cs)))
  | .nil, c, ks, v, upd, hw => by
      refine ⟨fun _ => rfl, ?_⟩
      intro cs2 fl h
      exact Option.noConfusion h
  | .cons c' child rest, c, ks, v, upd, hw => by
      rw [wfCh_cons, Bool.and_eq_true] at hw
      by_cases heq : c' = c
      · cases child with
        | none =>
            have hcontra : (false : Bool) = true := hw.1
            exact absurd hcontra Bool.false_ne_true
        | some ca =>
            obtain ⟨ihf, ihs, iho, ihw⟩ := insA_spec ca ks v upd hw.1
            have hins : insCh (.cons c' (some ca) rest) c ks v upd =
                some (.cons c' (some (insA ca ks v upd).1) rest,
                  (insA ca ks v upd).2) := by
              rw [insCh_cons, if_pos heq]
            refine ⟨?_, ?_⟩
            · intro h
              rw [hins] at h
              exact Option.noConfusion h
            · intro cs2 fl h
              rw [hins] at h
              injection h with h'
              have h1 : cs2 = .cons c' (some (insA ca ks v upd).1) rest :=
                (congrArg Prod.fst h').symm
              have h2 : fl = (insA ca ks v upd).2 := (congrArg Prod.snd h').symm
              subst h1
              subst h2
              refine ⟨?_, ?_, ?_, ?_, ?_⟩
              · rw [findCh_cons, if_pos heq]
                exact ihf
              · rw [findCh_cons, findCh_cons, if_pos heq, if_pos heq]
                exact ihs
              · intro c2 ks2 hne2
                rw [findCh_cons, findCh_cons]
                by_cases hc2 : c' = c2
                · rw [if_pos hc2, if_pos hc2]
                  have hks2 : ks2 ≠ ks := by
                    intro he
                    exact hne2 ⟨hc2.symm.trans heq, he⟩
                  exact iho ks2 hks2
                · rw [if_neg hc2, if_neg hc2]
              · rw [wfCh_cons, Bool.and_eq_true]
                exact ⟨ihw, hw.2⟩
              · show c' :: chChars rest = c' :: chChars rest
                rfl
      · obtain ⟨ihn, ihs2⟩ := insCh_spec rest c ks v upd hw.2
        cases hrec : insCh rest c ks v upd with
        | none =>
            have hins : insCh (.cons c' child rest) c ks v upd = none := by
              rw [insCh_cons, if_neg heq, hrec]
            refine ⟨?_, ?_⟩
            · intro _
              show (decide (c' = c) || chHasChar rest c) = false
              rw [ihn hrec]
              simp [heq]
            · intro cs2 fl h
              rw [hins] at h
              exact Option.noConfusion h
        | some rr =>
            obtain ⟨hf, hs, ho, hwc, hcc⟩ := ihs2 rr.1 rr.2 (by rw [hrec])
            have hins : insCh (.cons c' child rest) c ks v upd =
                some (.cons c' child rr.1, rr.2) := by
              rw [insCh_cons, if_neg heq, hrec]
            refine ⟨?_, ?_⟩
            · intro h
              rw [hins] at h
              exact Option.noConfusion h
            · intro cs2 fl h
              rw [hins] at h
              injection h with h'
              have h1 : cs2 = .cons c' child rr.1 := (congrArg Prod.fst h').symm
              have h2 : fl = rr.2 := (congrArg Prod.snd h').symm
              subst h1
              subst h2
              refine ⟨?_, ?_, ?_, ?_, ?_⟩
              · rw [findCh_cons, if_neg heq]
                exact hf
              · rw [findCh_cons, findCh_cons, if_neg heq, if_neg heq]
                exact hs
              · intro c2 ks2 hne2
                rw [findCh_cons, findCh_cons]
                by_cases hc2 : c' = c2
                · rw [if_pos hc2, if_pos hc2]
                · rw [if_neg hc2, if_neg hc2]
                  exact ho c2 ks2 hne2
              · rw [wfCh_cons, Bool.and_eq_true]
                exact ⟨hw.1, hwc⟩
              · show c' :: chChars rr.1 = c' :: chChars rest
                rw [hcc]
end

/-! ## Container-level insertion -/

theorem findT_mk (r : Option (KArr V)) (n : Nat) (k : List Nat) :
    findT ⟨r, n⟩ k =
      if n = 0 then none
      else (match r with | none => none | some a => findA a k) := rfl

theorem insT_eq (t : KT V) (k : List Nat) (v : V) (upd : Bool) (a : KArr V)
    (hcnt : t.cnt ≠ 0) (hroot : t.root = some a) :
    insT t k v upd = (KT.mk (some (insA a k v upd).1)
      (t.cnt + (if (insA a k v upd).2 then 1 else 0)), (insA a k v upd).2) := by
  rw [insT, if_neg hcnt, hroot]

theorem root_some_of_cnt (t : KT V) (hwf : WfT t) (hcnt : t.cnt ≠ 0) :
    ∃ a, t.root = some a ∧ wfA a = true := by
  have hs := hwf.2 hcnt
  cases hr : t.root with
  | none =>
      rw [hr] at hs
      exact absurd hs (by simp)
  | some a => exact ⟨a, rfl, hwf.1 a hr⟩

/-- `insert_internal`/`insert_or_assign_internal` at the container level:
flag, lookup of the inserted key, other keys, counter bookkeeping, and
well-formedness. -/
theorem insT_spec (t : KT V) (k : List Nat) (v : V) (upd : Bool) (hwf : WfT t) :
    ((insT t k v upd).2 = (findT t k).isNone ∧
     findT (insT t k v upd).1 k = some (if upd then v else (findT t k).getD v) ∧
     (∀ k', k' ≠ k → findT (insT t k v upd).1 k' = findT t k') ∧
     sizeT (insT t k v upd).1 = sizeT t + (if (insT t k v upd).2 then 1 else 0) ∧
     WfT (insT t k v upd).1) := by
  by_cases hcnt : t.cnt = 0
  · have hT : insT t k v upd =
        ({ root := some (tailA k v), cnt := t.cnt + 1 }, true) := by
      rw [insT, if_pos hcnt]
    have hfind : findT t k = none := by rw [findT, if_pos hcnt]
    rw [hT, hfind]
    refine ⟨rfl, ?_, ?_, ?_, ?_⟩
    · show findT { root := some (tailA k v), cnt := t.cnt + 1 } k = _
      rw [findT_mk, if_neg (by omega)]
      show findA (tailA k v) k = _
      rw [findA_tailA_self]
      simp
    · intro k' hk'
      show findT { root := some (tailA k v), cnt := t.cnt + 1 } k' = findT t k'
      rw [findT_mk, if_neg (by omega), findT, if_pos hcnt]
      show findA (tailA k v) k' = none
      exact findA_tailA_other k k' v hk'
    · rfl
    · constructor
      · intro a ha
        have h1 : tailA k v = a := by injection ha
        rw [← h1]
        exact wfA_tailA k v
      · intro _
        rfl
  · obtain ⟨a, hroot, hwa⟩ := root_some_of_cnt t hwf hcnt
    obtain ⟨ihf, ihs, iho, ihw⟩ := insA_spec a k v upd hwa
    have hT := insT_eq t k v upd a hcnt hroot
    have hfT : findT t k = findA a k := by rw [findT, if_neg hcnt, hroot]
    have hcnt' : t.cnt + (if (insA a k v upd).2 then 1 else 0) ≠ 0 := by
      cases (insA a k v upd).2 <;> simp <;> omega
    rw [hT, hfT]
    refine ⟨ihf, ?_, ?_, ?_, ?_⟩
    · show findT (KT.mk (some (insA a k v upd).1)
        (t.cnt + (if (insA a k v upd).2 then 1 else 0))) k = _
      rw [findT_mk, if_neg hcnt']
      exact ihs
    · intro k' hk'
      show findT (KT.mk (some (insA a k v upd).1)
        (t.cnt + (if (insA a k v upd).2 then 1 else 0))) k' = findT t k'
      rw [findT_mk, if_neg hcnt', findT, if_neg hcnt, hroot]
      exact iho k' hk'
    · rfl
    · constructor
      · intro a2 ha2
        have h1 : (insA a k v upd).1 = a2 := by injection ha2
        rw [← h1]
        exact ihw
      · intro _
        rfl

/-! ## The empty key at the head of the traversal -/

theorem navNextA_empty_key (a : KArr V) (v : V) (hw : wfA a = true)
    (h : findA a [] = some v) : navNextA a [] true [] [] = some ([], v) := by
  cases a with
  | seg e run rest =>
      cases e with
      | some v0 =>
          have hv : v0 = v := by
            have h0 : findA (.seg (some v0) run rest) [] = some v0 := rfl
            rw [h0] at h
            injection h
          rw [hv]
          rfl
      | none =>
          exfalso
          rw [wfA_seg, Bool.and_eq_true, bnot_isEmpty_iff] at hw
          rw [findA_seg_nil_none run rest hw.1] at h
          exact Option.noConfusion h
  | fin feos fb =>
      cases feos with
      | some v0 =>
          rw [findA_fin_nil] at h
          injection h with h'
          rw [h']
          cases fb with
          | none => rfl
          | some b => cases b <;> rfl
      | none =>
          rw [findA_fin_nil] at h
          exact Option.noConfusion h

theorem firstT_empty_key (t : KT V) (v : V) (hwf : WfT t)
    (h : findT t [] = some v) : firstT t = some ([], v) := by
  have hcnt : t.cnt ≠ 0 := by
    intro h0
    rw [findT, if_pos h0] at h
    exact Option.noConfusion h
  obtain ⟨a, hroot, hwa⟩ := root_some_of_cnt t hwf hcnt
  have hfa : findA a [] = some v := by
    rw [findT, if_neg hcnt, hroot] at h
    exact h
  rw [firstT, if_neg hcnt, hroot]
  exact navNextA_empty_key a v hwa hfa

/-- C5.  On a key `k` already stored with value `v0` in a well-formed trie,
`insert(k, v1)` (`insert_internal`, no-update mode) reports
`inserted = false`, keeps the stored value `v0` and the size, while
`insert_or_assign(k, v1)` also reports `inserted = false` but overwrites the
stored value with `v1`, again keeping the size; in both modes every other key
keeps its lookup result. -/
theorem insert_duplicate_spec (t : KT V) (k : List Nat) (v0 v1 : V)
    (hwf : WfT t) (hpres : findT t k = some v0) :
    (insT t k v1 false).2 = false ∧
    findT (insT t k v1 false).1 k = some v0 ∧
    sizeT (insT t k v1 false).1 = sizeT t ∧
    (insT t k v1 true).2 = false ∧
    findT (insT t k v1 true).1 k = some v1 ∧
    sizeT (insT t k v1 true).1 = sizeT t ∧
    (∀ k', k' ≠ k → findT (insT t k v1 false).1 k' = findT t k' ∧
      findT (insT t k v1 true).1 k' = findT t k') := by
  obtain ⟨hf0, hs0, ho0, hz0, _⟩ := insT_spec t k v1 false hwf
  obtain ⟨hf1, hs1, ho1, hz1, _⟩ := insT_spec t k v1 true hwf
  rw [hpres] at hf0 hs0 hf1 hs1
  have hfl0 : (insT t k v1 false).2 = false := by
    rw [hf0]
    rfl
  have hfl1 : (insT t k v1 true).2 = false := by
    rw [hf1]
    rfl
  rw [hfl0] at hz0
  rw [hfl1] at hz1
  refine ⟨hfl0, ?_, ?_, hfl1, ?_, ?_, ?_⟩
  · rw [hs0]
    rfl
  · rw [hz0]
    rfl
  · rw [hs1]
    rfl
  · rw [hz1]
    rfl
  · intro k' hk'
    exact ⟨ho0 k' hk', ho1 k' hk'⟩

/-- Witness for C5 on the one-element trie holding the key `"a"` with value
`5`: re-inserting with value `9` keeps `5`, while `insert_or_assign`
overwrites to `9`; both report not-inserted. -/
theorem insert_duplicate_spec_witness :
    findT (KT.mk (some (KArr.seg none [97] (.fin (some (5 : Nat)) none))) 1) [97]
        = some 5 ∧
    (insT (KT.mk (some (KArr.seg none [97] (.fin (some (5 : Nat)) none))) 1)
        [97] 9 false).2 = false ∧
    findT (insT (KT.mk (some (KArr.seg none [97] (.fin (some (5 : Nat)) none))) 1)
        [97] 9 false).1 [97] = some 5 ∧
    findT (insT (KT.mk (some (KArr.seg none [97] (.fin (some (5 : Nat)) none))) 1)
        [97] 9 true).1 [97] = some 9 := by
  have h := insert_duplicate_spec
    (KT.mk (some (KArr.seg none [97] (.fin (some (5 : Nat)) none))) 1) [97] 5 9
    ⟨fun a ha => by cases ha; rfl, fun _ => rfl⟩ rfl
  exact ⟨rfl, h.1, h.2.1, h.2.2.2.2.1⟩

/-! ## Step equations and facts for removal -/

theorem removeGo_seg_nil_some (v : V) (run : List Nat) (rest : KArr V) :
    removeGo (.seg (some v) run rest) [] = .kept (.seg none run rest) := rfl

theorem removeGo_seg_nil_none (run : List Nat) (rest : KArr V) :
    removeGo (.seg (none : Option V) run rest) [] = .notFound := rfl

theorem removeGo_seg_cons (e : Option V) (run : List Nat) (rest : KArr V)
    (c : Nat) (ks : List Nat) :
    removeGo (.seg e run rest) (c :: ks) =
      (if run.isPrefixOf (c :: ks) then
        match removeGo rest ((c :: ks).drop run.length) with
        | .notFound => .notFound
        | .kept p => .kept (.seg e run p)
        | .branchDropped p => .branchDropped (.seg e run p)
        | .gone => .kept (.fin e none)
      else .notFound) := by
  cases e <;> rfl

theorem removeGo_fin_some_none_nil (v : V) :
    removeGo (.fin (some v) (none : Option (KBr V))) [] = .gone := rfl

theorem removeGo_fin_some_br_nil (v : V) (b : KBr V) :
    removeGo (.fin (some v) (some b)) [] = .kept (.fin none (some b)) := by
  cases b <;> rfl

theorem removeGo_fin_none_nil (fb : Option (KBr V)) :
    removeGo (.fin (none : Option V) fb) [] = .notFound := by
  cases fb with
  | none => rfl
  | some b => cases b <;> rfl

theorem removeGo_fin_none_cons (feos : Option V) (c : Nat) (ks : List Nat) :
    removeGo (.fin feos (none : Option (KBr V))) (c :: ks) = .notFound := by
  cases feos <;> rfl

theorem removeGo_fin_list_cons (feos : Option V) (cs : KCh V) (c : Nat)
    (ks : List Nat) :
    removeGo (.fin feos (some (.list cs))) (c :: ks) =
      (match removeCh cs c ks with
       | none => .notFound
       | some (.inl cs2) => .kept (.fin feos (some (.list cs2)))
       | some (.inr cs2) =>
           match cs2 with
           | .nil => .branchDropped (.fin feos none)
           | .cons c2 ch2 rest2 =>
               .kept (.fin feos (some (.list (.cons c2 ch2 rest2))))) := by
  cases feos <;> rfl

theorem removeGo_fin_pop_cons (feos : Option V) (cs : KCh V) (c : Nat)
    (ks : List Nat) :
    removeGo (.fin feos (some (.pop cs))) (c :: ks) =
      (match removeCh cs c ks with
       | none => .notFound
       | some (.inl cs2) => .kept (.fin feos (some (.pop cs2)))
       | some (.inr cs2) =>
           if chSize cs2 = 0 then .branchDropped (.fin feos none)
           else if chSize cs2 ≤ 7 then .kept (.fin feos (some (.list cs2)))
           else .kept (.fin feos (some (.pop cs2)))) := by
  cases feos <;> rfl

theorem removeCh_cons (c' : Nat) (child : Option (KArr V)) (rest : KCh V)
    (c : Nat) (ks : List Nat) :
    removeCh (.cons c' child rest) c ks =
      (if c' = c then
        match child with
        | none => none
        | some ca =>
            match rmPost (removeGo ca ks) with
            | .notFound => none
            | .kept ca2 => some (.inl (.cons c' (some ca2) rest))
            | .gone => some (.inr rest)
            | .branchDropped _ => none
      else
        match removeCh rest c ks with
        | none => none
        | some (.inl rest2) => some (.inl (.cons c' child rest2))
        | some (.inr rest2) => some (.inr (.cons c' child rest2))) := by
  cases child <;> rfl

theorem removeCh_cons_found (c' : Nat) (ca : KArr V) (rest : KCh V)
    (c : Nat) (ks : List Nat) (heq : c' = c) :
    removeCh (.cons c' (some ca) rest) c ks =
      (match rmPost (removeGo ca ks) with
       | .notFound => none
       | .kept ca2 => some (.inl (.cons c' (some ca2) rest))
       | .gone => some (.inr rest)
       | .branchDropped _ => none) := by
  rw [removeCh_cons, if_pos heq]

theorem removeCh_cons_miss (c' : Nat) (child : Option (KArr V)) (rest : KCh V)
    (c : Nat) (ks : List Nat) (hne : ¬ c' = c) :
    removeCh (.cons c' child rest) c ks =
      (match removeCh rest c ks with
       | none => none
       | some (.inl rest2) => some (.inl (.cons c' child rest2))
       | some (.inr rest2) => some (.inr (.cons c' child rest2))) := by
  rw [removeCh_cons, if_neg hne]

theorem findA_empty (w : List Nat) :
    findA (.fin (none : Option V) (none : Option (KBr V))) w = none := by
  cases w <;> rfl

theorem isEmptyP_true_iff : ∀ p : KArr V,
    isEmptyP p = true ↔ p = .fin none none
  | .seg e run rest => by simp [isEmptyP]
  | .fin e fb => by
      cases e with
      | some v =>
          simp [isEmptyP]
      | none =>
          cases fb with
          | none => simp [isEmptyP]
          | some b => simp [isEmptyP]

theorem chHasChar_iff_mem : ∀ (cs : KCh V) (c : Nat),
    chHasChar cs c = true ↔ c ∈ chChars cs
  | .nil, c => by simp [chHasChar, chChars]
  | .cons c' ch rest, c => by
      show (decide (c' = c) || chHasChar rest c) = true ↔ c ∈ c' :: chChars rest
      rw [Bool.or_eq_true, decide_eq_true_eq, List.mem_cons,
        chHasChar_iff_mem rest c]
      constructor
      · rintro (h | h)
        · exact Or.inl h.symm
        · exact Or.inr h
      · rintro (h | h)
        · exact Or.inl h.symm
        · exact Or.inr h

theorem chAscL_iff_chain : ∀ l : List Nat,
    chAscL l = true ↔ l.Chain' (· < ·)
  | [] => by simp [chAscL]
  | [c] => by simp [chAscL]
  | c :: c' :: rest => by
      rw [List.chain'_cons]
      simp [chAscL, chAscL_iff_chain (c' :: rest)]

theorem chAscL_nodup (l : List Nat) (h : chAscL l = true) : l.Nodup := by
  rw [chAscL_iff_chain] at h
  have hp := List.chain'_iff_pairwise.mp h
  exact hp.imp Nat.ne_of_lt

theorem chAscL_erase (l : List Nat) (c : Nat) (h : chAscL l = true) :
    chAscL (l.erase c) = true := by
  rw [chAscL_iff_chain] at h ⊢
  exact h.sublist (List.erase_sublist c l)

theorem rmPost_gone : rmPost (RRes.gone : RRes V) = .gone := rfl

theorem rmPost_kept (p : KArr V) :
    rmPost (RRes.kept p) = if isEmptyP p then .gone else .kept p := rfl

theorem rmPost_bd (p : KArr V) :
    rmPost (RRes.branchDropped p) = if hasEosP p then .kept p else .gone := rfl

/-! ## The removal master lemma -/

mutual
/-- Master lemma for `remove_loop` / `rebuild_without_eos` on one
well-formed node array: `notFound` exactly on an absent key; a `kept`
rebuild drops exactly the removed key while preserving every other lookup
and well-formedness; a `branchDropped` array behaves like a `kept` one and
is keyless when it carries no terminator; `gone` certifies that the array
held no key other than the removed one. -/
theorem removeGo_spec : ∀ (a : KArr V) (k : List Nat), wfA a = true →
    ((removeGo a k = .notFound ↔ findA a k = none) ∧
     (∀ p, removeGo a k = .kept p →
        (wfA p = true ∧ findA p k = none ∧
         (∀ k', k' ≠ k → findA p k' = findA a k'))) ∧
     (∀ p, removeGo a k = .branchDropped p →
        (wfA p = true ∧ findA p k = none ∧
         (∀ k', k' ≠ k → findA p k' = findA a k') ∧
         (hasEosP p = false → ∀ w, findA p w = none))) ∧
     (removeGo a k = .gone → ∀ k', k' ≠ k → findA a k' = none))
  | .seg e run rest, [], hw => by
      have hw' := hw
      rw [wfA_seg, Bool.and_eq_true, bnot_isEmpty_iff] at hw'
      cases e with
      | some v =>
          rw [removeGo_seg_nil_some]
          refine ⟨?_, ?_, ?_, ?_⟩
          · constructor
            · intro h
              exact RRes.noConfusion h
            · intro h
              rw [show findA (.seg (some v) run rest) [] = some v from rfl] at h
              exact Option.noConfusion h
          · intro p hp
            injection hp with hp'
            refine ⟨?_, ?_, ?_⟩
            · rw [← hp', wfA_seg, Bool.and_eq_true, bnot_isEmpty_iff]
              exact hw'
            · rw [← hp']
              exact findA_seg_nil_none run rest hw'.1
            · intro k' hk'
              rw [← hp']
              cases k' with
              | nil => exact absurd rfl hk'
              | cons c' ks' => rw [findA_seg_cons, findA_seg_cons]
          · intro p hp
            exact RRes.noConfusion hp
          · intro hp
            exact RRes.noConfusion hp
      | none =>
          rw [removeGo_seg_nil_none]
          refine ⟨?_, ?_, ?_, ?_⟩
          · exact iff_of_true rfl (findA_seg_nil_none run rest hw'.1)
          · intro p hp
            exact RRes.noConfusion hp
          · intro p hp
            exact RRes.noConfusion hp
          · intro hp
            exact RRes.noConfusion hp
  | .seg e run rest, c :: ks, hw => by
      have hw' := hw
      rw [wfA_seg, Bool.and_eq_true, bnot_isEmpty_iff] at hw'
      rw [removeGo_seg_cons]
      by_cases hp : run.isPrefixOf (c :: ks) = true
      · rw [if_pos hp]
        obtain ⟨ihn, ihk, ihb, ihg⟩ :=
          removeGo_spec rest ((c :: ks).drop run.length) hw'.2
        have hfind : findA (.seg e run rest) (c :: ks) =
            findA rest ((c :: ks).drop run.length) := by
          rw [findA_seg_cons, if_pos hp]
        cases hrec : removeGo rest ((c :: ks).drop run.length) with
        | notFound =>
            refine ⟨?_, ?_, ?_, ?_⟩
            · refine iff_of_true rfl ?_
              rw [hfind]
              exact ihn.mp hrec
            · intro p hpk
              exact RRes.noConfusion hpk
            · intro p hpk
              exact RRes.noConfusion hpk
            · intro hpk
              exact RRes.noConfusion hpk
        | kept p0 =>
            obtain ⟨hkw, hkn, hko⟩ := ihk p0 hrec
            refine ⟨?_, ?_, ?_, ?_⟩
            · constructor
              · intro h
                exact RRes.noConfusion h
              · intro h
                rw [hfind] at h
                have h2 := ihn.mpr h
                rw [hrec] at h2
                exact RRes.noConfusion h2
            · intro p hpk
              injection hpk with hpk'
              refine ⟨?_, ?_, ?_⟩
              · rw [← hpk', wfA_seg, Bool.and_eq_true, bnot_isEmpty_iff]
                exact ⟨hw'.1, hkw⟩
              · rw [← hpk', findA_seg_cons, if_pos hp]
                exact hkn
              · intro k' hk'
                rw [← hpk']
                cases k' with
                | nil =>
                    rw [findA_seg_nil_e _ _ _ hw'.1, findA_seg_nil_e _ _ _ hw'.1]
                | cons c2 ks2 =>
                    rw [findA_seg_cons, findA_seg_cons]
                    by_cases hp2 : run.isPrefixOf (c2 :: ks2) = true
                    · rw [if_pos hp2, if_pos hp2]
                      exact hko _
                        (drop_ne_of_prefix_ne run (c :: ks) (c2 :: ks2) hp hp2 hk')
                    · rw [if_neg hp2, if_neg hp2]
            · intro p hpk
              exact RRes.noConfusion hpk
            · intro hpk
              exact RRes.noConfusion hpk
        | branchDropped p0 =>
            obtain ⟨hbw, hbn, hbo, hb2⟩ := ihb p0 hrec
            refine ⟨?_, ?_, ?_, ?_⟩
            · constructor
              · intro h
                exact RRes.noConfusion h
              · intro h
                rw [hfind] at h
                have h2 := ihn.mpr h
                rw [hrec] at h2
                exact RRes.noConfusion h2
            · intro p hpk
              exact RRes.noConfusion hpk
            · intro p hpk
              injection hpk with hpk'
              refine ⟨?_, ?_, ?_, ?_⟩
              · rw [← hpk', wfA_seg, Bool.and_eq_true, bnot_isEmpty_iff]
                exact ⟨hw'.1, hbw⟩
              · rw [← hpk', findA_seg_cons, if_pos hp]
                exact hbn
              · intro k' hk'
                rw [← hpk']
                cases k' with
                | nil =>
                    rw [findA_seg_nil_e _ _ _ hw'.1, findA_seg_nil_e _ _ _ hw'.1]
                | cons c2 ks2 =>
                    rw [findA_seg_cons, findA_seg_cons]
                    by_cases hp2 : run.isPrefixOf (c2 :: ks2) = true
                    · rw [if_pos hp2, if_pos hp2]
                      exact hbo _
                        (drop_ne_of_prefix_ne run (c :: ks) (c2 :: ks2) hp hp2 hk')
                    · rw [if_neg hp2, if_neg hp2]
              · intro hEos w
                rw [← hpk'] at hEos ⊢
                have he : e = none := by
                  cases e with
                  | none => rfl
                  | some v =>
                      rw [show hasEosP (KArr.seg (some v) run p0) = true from rfl]
                        at hEos
                      exact absurd hEos (by simp)
                subst he
                have hEos' : hasEosP p0 = false := hEos
                have hall := hb2 hEos'
                cases w with
                | nil => exact findA_seg_nil_none run p0 hw'.1
                | cons cw ksw =>
                    rw [findA_seg_cons]
                    by_cases hpw : run.isPrefixOf (cw :: ksw) = true
                    · rw [if_pos hpw]
                      exact hall _
                    · rw [if_neg hpw]
            · intro hpk
              exact RRes.noConfusion hpk
        | gone =>
            refine ⟨?_, ?_, ?_, ?_⟩
            · constructor
              · intro h
                exact RRes.noConfusion h
              · intro h
                rw [hfind] at h
                have h2 := ihn.mpr h
                rw [hrec] at h2
                exact RRes.noConfusion h2
            · intro p hpk
              injection hpk with hpk'
              refine ⟨?_, ?_, ?_⟩
              · rw [← hpk']
                exact wfA_fin_none e
              · rw [← hpk']
                exact findA_fin_none_cons e c ks
              · intro k' hk'
                rw [← hpk']
                cases k' with
                | nil =>
                    rw [findA_fin_nil, findA_seg_nil_e _ _ _ hw'.1]
                | cons c2 ks2 =>
                    rw [findA_fin_none_cons, findA_seg_cons]
                    by_cases hp2 : run.isPrefixOf (c2 :: ks2) = true
                    · rw [if_pos hp2]
                      exact (ihg hrec _
                        (drop_ne_of_prefix_ne run (c :: ks) (c2 :: ks2) hp hp2 hk')).symm
                    · rw [if_neg hp2]
            · intro p hpk
              exact RRes.noConfusion hpk
            · intro hpk
              exact RRes.noConfusion hpk
      · rw [if_neg hp]
        refine ⟨?_, ?_, ?_, ?_⟩
        · refine iff_of_true rfl ?_
          rw [findA_seg_cons, if_neg hp]
        · intro p hpk
          exact RRes.noConfusion hpk
        · intro p hpk
          exact RRes.noConfusion hpk
        · intro hpk
          exact RRes.noConfusion hpk
  | .fin feos fb, [], hw => by
      cases feos with
      | some v =>
          cases fb with
          | none =>
              rw [removeGo_fin_some_none_nil]
              refine ⟨?_, ?_, ?_, ?_⟩
              · constructor
                · intro h
                  exact RRes.noConfusion h
                · intro h
                  rw [findA_fin_nil] at h
                  exact Option.noConfusion h
              · intro p hpk
                exact RRes.noConfusion hpk
              · intro p hpk
                exact RRes.noConfusion hpk
              · intro _ k' hk'
                cases k' with
                | nil => exact absurd rfl hk'
                | cons c' ks' => exact findA_fin_none_cons (some v) c' ks'
          | some b =>
              rw [removeGo_fin_some_br_nil]
              refine ⟨?_, ?_, ?_, ?_⟩
              · constructor
                · intro h
                  exact RRes.noConfusion h
                · intro h
                  rw [findA_fin_nil] at h
                  exact Option.noConfusion h
              · intro p hpk
                injection hpk with hpk'
                refine ⟨?_, ?_, ?_⟩
                · rw [← hpk', wfA_fin_indep none (some v)]
                  exact hw
                · rw [← hpk', findA_fin_nil]
                · intro k' hk'
                  rw [← hpk']
                  cases k' with
                  | nil => exact absurd rfl hk'
                  | cons c' ks' => exact findA_fin_cons_eq none (some v) (some b) c' ks'
              · intro p hpk
                exact RRes.noConfusion hpk
              · intro hpk
                exact RRes.noConfusion hpk
      | none =>
          rw [removeGo_fin_none_nil]
          refine ⟨?_, ?_, ?_, ?_⟩
          · exact iff_of_true rfl (findA_fin_nil none fb)
          · intro p hpk
            exact RRes.noConfusion hpk
          · intro p hpk
            exact RRes.noConfusion hpk
          · intro hpk
            exact RRes.noConfusion hpk
  | .fin feos none, c :: ks, hw => by
      rw [removeGo_fin_none_cons]
      refine ⟨?_, ?_, ?_, ?_⟩
      · exact iff_of_true rfl (findA_fin_none_cons feos c ks)
      · intro p hpk
        exact RRes.noConfusion hpk
      · intro p hpk
        exact RRes.noConfusion hpk
      · intro hpk
        exact RRes.noConfusion hpk
  | .fin feos (some (.list cs)), c :: ks, hw => by
      have hw' := hw
      rw [wfA_fin_list, Bool.and_eq_true, Bool.and_eq_true, Bool.and_eq_true] at hw'
      obtain ⟨⟨⟨hs1, hs7⟩, hasc⟩, hwch⟩ := hw'
      rw [decide_eq_true_eq] at hs1 hs7
      obtain ⟨ichn, ichl, ichr, ichnn⟩ := removeCh_spec cs c ks hwch
      rw [removeGo_fin_list_cons]
      have hfind : findA (.fin feos (some (.list cs))) (c :: ks) = findCh cs c ks :=
        findA_fin_list_cons feos cs c ks
      have hascL : chAscL (chChars cs) = true := by
        rw [← chAsc_eq_chAscL]
        exact hasc
      have hnd := chAscL_nodup _ hascL
      cases hrec : removeCh cs c ks with
      | none =>
          refine ⟨?_, ?_, ?_, ?_⟩
          · refine iff_of_true rfl ?_
            rw [hfind]
            exact ichn hrec
          · intro p hpk
            exact RRes.noConfusion hpk
          · intro p hpk
            exact RRes.noConfusion hpk
          · intro hpk
            exact RRes.noConfusion hpk
      | some sc =>
          have hne : findCh cs c ks ≠ none := by
            refine ichnn ?_
            rw [hrec]
            intro h2
            exact Option.noConfusion h2
          cases sc with
          | inl cs2 =>
              obtain ⟨hwc2, hch2, hfn2, hot2⟩ := ichl cs2 (by rw [hrec])
              refine ⟨?_, ?_, ?_, ?_⟩
              · constructor
                · intro h
                  exact RRes.noConfusion h
                · intro h
                  rw [hfind] at h
                  exact absurd h hne
              · intro p hpk
                injection hpk with hpk'
                refine ⟨?_, ?_, ?_⟩
                · rw [← hpk', wfA_fin_list]
                  have hsz : chSize cs2 = chSize cs := by
                    rw [chSize_eq_chars_length, chSize_eq_chars_length, hch2]
                  have hasc2 : chAsc cs2 = true := by
                    rw [chAsc_eq_chAscL, hch2, ← chAsc_eq_chAscL]
                    exact hasc
                  simp [hsz, hasc2, hwc2, hs1, hs7]
                · rw [← hpk', findA_fin_list_cons]
                  exact hfn2
                · intro k' hk'
                  rw [← hpk']
                  cases k' with
                  | nil => rw [findA_fin_nil, findA_fin_nil]
                  | cons c2 ks2 =>
                      rw [findA_fin_list_cons, findA_fin_list_cons]
                      apply hot2
                      rintro ⟨he1, he2⟩
                      exact hk' (by rw [he1, he2])
              · intro p hpk
                exact RRes.noConfusion hpk
              · intro hpk
                exact RRes.noConfusion hpk
          | inr cs2 =>
              obtain ⟨hwc2, hch2, hmem, hoth, hot2⟩ := ichr cs2 (by rw [hrec])
              have hcin : c ∈ chChars cs := (chHasChar_iff_mem cs c).mp hmem
              have hnotin : c ∉ chChars cs2 := by
                rw [hch2]
                intro hx
                exact ((hnd.mem_erase_iff).mp hx).1 rfl
              have hhc2 : chHasChar cs2 c = false := by
                cases hcc : chHasChar cs2 c
                · rfl
                · exact absurd ((chHasChar_iff_mem cs2 c).mp hcc) hnotin
              have hsz2 : chSize cs2 = chSize cs - 1 := by
                rw [chSize_eq_chars_length, chSize_eq_chars_length, hch2]
                exact List.length_erase_of_mem hcin
              have hasc2 : chAsc cs2 = true := by
                rw [chAsc_eq_chAscL, hch2]
                exact chAscL_erase _ _ hascL
              have hother_none : ∀ c2 ks2, c2 ≠ c → chHasChar cs2 c2 = false →
                  findCh cs c2 ks2 = none := by
                intro c2 ks2 hc2 hn2
                have : findCh cs2 c2 ks2 = findCh cs c2 ks2 := hot2 c2 ks2 hc2
                rw [← this]
                exact findCh_of_not_hasChar cs2 c2 ks2 hn2
              cases cs2 with
              | nil =>
                  refine ⟨?_, ?_, ?_, ?_⟩
                  · constructor
                    · intro h
                      exact RRes.noConfusion h
                    · intro h
                      rw [hfind] at h
                      exact absurd h hne
                  · intro p hpk
                    exact RRes.noConfusion hpk
                  · intro p hpk
                    injection hpk with hpk'
                    refine ⟨?_, ?_, ?_, ?_⟩
                    · rw [← hpk']
                      exact wfA_fin_none feos
                    · rw [← hpk']
                      exact findA_fin_none_cons feos c ks
                    · intro k' hk'
                      rw [← hpk']
                      cases k' with
                      | nil => rw [findA_fin_nil, findA_fin_nil]
                      | cons c2 ks2 =>
                          rw [findA_fin_none_cons, findA_fin_list_cons]
                          by_cases hc2 : c2 = c
                          · subst hc2
                            have hks2 : ks2 ≠ ks := fun he => hk' (by rw [he])
                            exact (hoth ks2 hks2).symm
                          · refine (hother_none c2 ks2 hc2 ?_).symm
                            rfl
                    · intro hEos w
                      rw [← hpk'] at hEos ⊢
                      have hfe : feos = none := by
                        cases feos with
                        | none => rfl
                        | some v =>
                            rw [show hasEosP
                              (KArr.fin (some v) (none : Option (KBr V))) = true
                              from rfl] at hEos
                            exact absurd hEos (by simp)
                      subst hfe
                      exact findA_empty w
                  · intro hpk
                    exact RRes.noConfusion hpk
              | cons c2h ch2h rest2h =>
                  refine ⟨?_, ?_, ?_, ?_⟩
                  · constructor
                    · intro h
                      exact RRes.noConfusion h
                    · intro h
                      rw [hfind] at h
                      exact absurd h hne
                  · intro p hpk
                    injection hpk with hpk'
                    refine ⟨?_, ?_, ?_⟩
                    · rw [← hpk', wfA_fin_list]
                      have h1 : 1 ≤ chSize (KCh.cons c2h ch2h rest2h) := by
                        rw [chSize]
                        omega
                      have h7 : chSize (KCh.cons c2h ch2h rest2h) ≤ 7 := by
                        omega
                      simp [h1, h7, hasc2, hwc2]
                    · rw [← hpk', findA_fin_list_cons]
                      exact findCh_of_not_hasChar _ c ks hhc2
                    · intro k' hk'
                      rw [← hpk']
                      cases k' with
                      | nil => rw [findA_fin_nil, findA_fin_nil]
                      | cons c2 ks2 =>
                          rw [findA_fin_list_cons, findA_fin_list_cons]
                          by_cases hc2 : c2 = c
                          · subst hc2
                            have hks2 : ks2 ≠ ks := fun he => hk' (by rw [he])
                            rw [findCh_of_not_hasChar _ c2 ks2 hhc2]
                            exact (hoth ks2 hks2).symm
                          · exact hot2 c2 ks2 hc2
                  · intro p hpk
                    exact RRes.noConfusion hpk
                  · intro hpk
                    exact RRes.noConfusion hpk
  | .fin feos (some (.pop cs)), c :: ks, hw => by
      have hw' := hw
      rw [wfA_fin_pop, Bool.and_eq_true, Bool.and_eq_true] at hw'
      obtain ⟨⟨hs8, hasc⟩, hwch⟩ := hw'
      rw [decide_eq_true_eq] at hs8
      obtain ⟨ichn, ichl, ichr, ichnn⟩ := removeCh_spec cs c ks hwch
      have hfind : findA (.fin feos (some (.pop cs))) (c :: ks) = findCh cs c ks :=
        findA_fin_pop_cons feos cs c ks
      have hascL : chAscL (chChars cs) = true := by
        rw [← chAsc_eq_chAscL]
        exact hasc
      have hnd := chAscL_nodup _ hascL
      cases hrec : removeCh cs c ks with
      | none =>
          have hgo : removeGo (.fin feos (some (.pop cs))) (c :: ks) =
              .notFound := by
            rw [removeGo_fin_pop_cons, hrec]
          rw [hgo]
          refine ⟨?_, ?_, ?_, ?_⟩
          · refine iff_of_true rfl ?_
            rw [hfind]
            exact ichn hrec
          · intro p hpk
            exact RRes.noConfusion hpk
          · intro p hpk
            exact RRes.noConfusion hpk
          · intro hpk
            exact RRes.noConfusion hpk
      | some sc =>
          have hne : findCh cs c ks ≠ none := by
            refine ichnn ?_
            rw [hrec]
            intro h2
            exact Option.noConfusion h2
          cases sc with
          | inl cs2 =>
              obtain ⟨hwc2, hch2, hfn2, hot2⟩ := ichl cs2 (by rw [hrec])
              have hgo : removeGo (.fin feos (some (.pop cs))) (c :: ks) =
                  .kept (.fin feos (some (.pop cs2))) := by
                rw [removeGo_fin_pop_cons, hrec]
              rw [hgo]
              refine ⟨?_, ?_, ?_, ?_⟩
              · constructor
                · intro h
                  exact RRes.noConfusion h
                · intro h
                  rw [hfind] at h
                  exact absurd h hne
              · intro p hpk
                injection hpk with hpk'
                refine ⟨?_, ?_, ?_⟩
                · rw [← hpk', wfA_fin_pop]
                  have hsz : chSize cs2 = chSize cs := by
                    rw [chSize_eq_chars_length, chSize_eq_chars_length, hch2]
                  have hasc2 : chAsc cs2 = true := by
                    rw [chAsc_eq_chAscL, hch2, ← chAsc_eq_chAscL]
                    exact hasc
                  simp [hsz, hasc2, hwc2, hs8]
                · rw [← hpk', findA_fin_pop_cons]
                  exact hfn2
                · intro k' hk'
                  rw [← hpk']
                  cases k' with
                  | nil => rw [findA_fin_nil, findA_fin_nil]
                  | cons c2 ks2 =>
                      rw [findA_fin_pop_cons, findA_fin_pop_cons]
                      apply hot2
                      rintro ⟨he1, he2⟩
                      exact hk' (by rw [he1, he2])
              · intro p hpk
                exact RRes.noConfusion hpk
              · intro hpk
                exact RRes.noConfusion hpk
          | inr cs2 =>
              obtain ⟨hwc2, hch2, hmem, hoth, hot2⟩ := ichr cs2 (by rw [hrec])
              have hcin : c ∈ chChars cs := (chHasChar_iff_mem cs c).mp hmem
              have hnotin : c ∉ chChars cs2 := by
                rw [hch2]
                intro hx
                exact ((hnd.mem_erase_iff).mp hx).1 rfl
              have hhc2 : chHasChar cs2 c = false := by
                cases hcc : chHasChar cs2 c
                · rfl
                · exact absurd ((chHasChar_iff_mem cs2 c).mp hcc) hnotin
              have hsz2 : chSize cs2 = chSize cs - 1 := by
                rw [chSize_eq_chars_length, chSize_eq_chars_length, hch2]
                exact List.length_erase_of_mem hcin
              have hasc2 : chAsc cs2 = true := by
                rw [chAsc_eq_chAscL, hch2]
                exact chAscL_erase _ _ hascL
              have hother_none : ∀ c2 ks2, c2 ≠ c → chHasChar cs2 c2 = false →
                  findCh cs c2 ks2 = none := by
                intro c2 ks2 hc2 hn2
                have : findCh cs2 c2 ks2 = findCh cs c2 ks2 := hot2 c2 ks2 hc2
                rw [← this]
                exact findCh_of_not_hasChar cs2 c2 ks2 hn2
              by_cases h0 : chSize cs2 = 0
              · have hgo : removeGo (.fin feos (some (.pop cs))) (c :: ks) =
                    .branchDropped (.fin feos none) := by
                  rw [removeGo_fin_pop_cons, hrec]
                  show (if chSize cs2 = 0 then
                          RRes.branchDropped (KArr.fin feos none)
                        else if chSize cs2 ≤ 7 then
                          RRes.kept (.fin feos (some (.list cs2)))
                        else RRes.kept (.fin feos (some (.pop cs2)))) = _
                  rw [if_pos h0]
                rw [hgo]
                have hcs2nil : cs2 = .nil := by
                  cases cs2 with
                  | nil => rfl
                  | cons x y z =>
                      rw [chSize] at h0
                      omega
                subst hcs2nil
                refine ⟨?_, ?_, ?_, ?_⟩
                · constructor
                  · intro h
                    exact RRes.noConfusion h
                  · intro h
                    rw [hfind] at h
                    exact absurd h hne
                · intro p hpk
                  exact RRes.noConfusion hpk
                · intro p hpk
                  injection hpk with hpk'
                  refine ⟨?_, ?_, ?_, ?_⟩
                  · rw [← hpk']
                    exact wfA_fin_none feos
                  · rw [← hpk']
                    exact findA_fin_none_cons feos c ks
                  · intro k' hk'
                    rw [← hpk']
                    cases k' with
                    | nil => rw [findA_fin_nil, findA_fin_nil]
                    | cons c2 ks2 =>
                        rw [findA_fin_none_cons, findA_fin_pop_cons]
                        by_cases hc2 : c2 = c
                        · subst hc2
                          have hks2 : ks2 ≠ ks := fun he => hk' (by rw [he])
                          exact (hoth ks2 hks2).symm
                        · refine (hother_none c2 ks2 hc2 ?_).symm
                          rfl
                  · intro hEos w
                    rw [← hpk'] at hEos ⊢
                    have hfe : feos = none := by
                      cases feos with
                      | none => rfl
                      | some v =>
                          rw [show hasEosP
                            (KArr.fin (some v) (none : Option (KBr V))) = true
                            from rfl] at hEos
                          exact absurd hEos (by simp)
                    subst hfe
                    exact findA_empty w
                · intro hpk
                  exact RRes.noConfusion hpk
              · by_cases h7 : chSize cs2 ≤ 7
                · have hgo : removeGo (.fin feos (some (.pop cs))) (c :: ks) =
                      .kept (.fin feos (some (.list cs2))) := by
                    rw [removeGo_fin_pop_cons, hrec]
                    show (if chSize cs2 = 0 then
                            RRes.branchDropped (KArr.fin feos none)
                          else if chSize cs2 ≤ 7 then
                            RRes.kept (.fin feos (some (.list cs2)))
                          else RRes.kept (.fin feos (some (.pop cs2)))) = _
                    rw [if_neg h0, if_pos h7]
                  rw [hgo]
                  refine ⟨?_, ?_, ?_, ?_⟩
                  · constructor
                    · intro h
                      exact RRes.noConfusion h
                    · intro h
                      rw [hfind] at h
                      exact absurd h hne
                  · intro p hpk
                    injection hpk with hpk'
                    refine ⟨?_, ?_, ?_⟩
                    · rw [← hpk', wfA_fin_list]
                      have h1 : 1 ≤ chSize cs2 := by omega
                      simp [h1, h7, hasc2, hwc2]
                    · rw [← hpk', findA_fin_list_cons]
                      exact findCh_of_not_hasChar _ c ks hhc2
                    · intro k' hk'
                      rw [← hpk']
                      cases k' with
                      | nil => rw [findA_fin_nil, findA_fin_nil]
                      | cons c2 ks2 =>
                          rw [findA_fin_list_cons, findA_fin_pop_cons]
                          by_cases hc2 : c2 = c
                          · subst hc2
                            have hks2 : ks2 ≠ ks := fun he => hk' (by rw [he])
                            rw [findCh_of_not_hasChar _ c2 ks2 hhc2]
                            exact (hoth ks2 hks2).symm
                          · exact hot2 c2 ks2 hc2
                  · intro p hpk
                    exact RRes.noConfusion hpk
                  · intro hpk
                    exact RRes.noConfusion hpk
                · have hgo : removeGo (.fin feos (some (.pop cs))) (c :: ks) =
                      .kept (.fin feos (some (.pop cs2))) := by
                    rw [removeGo_fin_pop_cons, hrec]
                    show (if chSize cs2 = 0 then
                            RRes.branchDropped (KArr.fin feos none)
                          else if chSize cs2 ≤ 7 then
                            RRes.kept (.fin feos (some (.list cs2)))
                          else RRes.kept (.fin feos (some (.pop cs2)))) = _
                    rw [if_neg h0, if_neg h7]
                  rw [hgo]
                  refine ⟨?_, ?_, ?_, ?_⟩
                  · constructor
                    · intro h
                      exact RRes.noConfusion h
                    · intro h
                      rw [hfind] at h
                      exact absurd h hne
                  · intro p hpk
                    injection hpk with hpk'
                    refine ⟨?_, ?_, ?_⟩
                    · rw [← hpk', wfA_fin_pop]
                      have h8 : 8 ≤ chSize cs2 := by omega
                      simp [h8, hasc2, hwc2]
                    · rw [← hpk', findA_fin_pop_cons]
                      exact findCh_of_not_hasChar _ c ks hhc2
                    · intro k' hk'
                      rw [← hpk']
                      cases k' with
                      | nil => rw [findA_fin_nil, findA_fin_nil]
                      | cons c2 ks2 =>
                          rw [findA_fin_pop_cons, findA_fin_pop_cons]
                          by_cases hc2 : c2 = c
                          · subst hc2
                            have hks2 : ks2 ≠ ks := fun he => hk' (by rw [he])
                            rw [findCh_of_not_hasChar _ c2 ks2 hhc2]
                            exact (hoth ks2 hks2).symm
                          · exact hot2 c2 ks2 hc2
                  · intro p hpk
                    exact RRes.noConfusion hpk
                  · intro hpk
                    exact RRes.noConfusion hpk

/-- Master lemma for `remove_child_from_branch` on a branch child list. -/
theorem removeCh_spec : ∀ (cs : KCh V) (c : Nat) (ks : List Nat), wfCh cs = true →
    ((removeCh cs c ks = none → findCh cs c ks = none) ∧
     (∀ cs2, removeCh cs c ks = some (.inl cs2) →
        (wfCh cs2 = true ∧ chChars cs2 = chChars cs ∧
         findCh cs2 c ks = none ∧
         (∀ c2 ks2, ¬(c2 = c ∧ ks2 = ks) →
           findCh cs2 c2 ks2 = findCh cs c2 ks2))) ∧
     (∀ cs2, removeCh cs c ks = some (.inr cs2) →
        (wfCh cs2 = true ∧ chChars cs2 = (chChars cs).erase c ∧
         chHasChar cs c = true ∧
         (∀ ks2, ks2 ≠ ks → findCh cs c ks2 = none) ∧
         (∀ c2 ks2, c2 ≠ c → findCh cs2 c2 ks2 = findCh cs c2 ks2))) ∧
     (removeCh cs c ks ≠ none → findCh cs c ks ≠ none))
  | .nil, c, ks, hw => by
      refine ⟨fun _ => rfl, ?_, ?_, ?_⟩
      · intro cs2 h
        exact Option.noConfusion h
      · intro cs2 h
        exact Option.noConfusion h
      · intro h
        exact absurd rfl h
  | .cons c' child rest, c, ks, hw => by
      rw [wfCh_cons, Bool.and_eq_true] at hw
      by_cases heq : c' = c
      · cases child with
        | none => exact absurd hw.1 Bool.false_ne_true
        | some ca =>
            rw [removeCh_cons_found c' ca rest c ks heq]
            obtain ⟨ihn, ihk, ihb, ihg⟩ := removeGo_spec ca ks hw.1
            have hfound : findCh (.cons c' (some ca) rest) c ks = findA ca ks := by
              rw [findCh_cons, if_pos heq]
            have hnfound : removeGo ca ks ≠ .notFound → findA ca ks ≠ none := by
              intro h1 h2
              have h3 := ihn.mpr h2
              exact h1 h3
            cases hrec : removeGo ca ks with
            | notFound =>
                refine ⟨?_, ?_, ?_, ?_⟩
                · intro _
                  rw [hfound]
                  exact ihn.mp hrec
                · intro cs2 h
                  exact Option.noConfusion h
                · intro cs2 h
                  exact Option.noConfusion h
                · intro h
                  exact absurd rfl h
            | kept p0 =>
                obtain ⟨hkw, hkn, hko⟩ := ihk p0 hrec
                by_cases hemp : isEmptyP p0 = true
                · have hred : rmPost (RRes.kept p0) = RRes.gone := by
                    rw [rmPost_kept, if_pos hemp]
                  rw [hred]
                  have hp0 : p0 = .fin none none := (isEmptyP_true_iff p0).mp hemp
                  subst hp0
                  refine ⟨?_, ?_, ?_, ?_⟩
                  · intro h
                    exact Option.noConfusion h
                  · intro cs2 h
                    injection h with h'
                    exact Sum.noConfusion h'
                  · intro cs2 h
                    injection h with h'
                    injection h' with h''
                    refine ⟨?_, ?_, ?_, ?_, ?_⟩
                    · rw [← h'']
                      exact hw.2
                    · rw [← h'']
                      show chChars rest = (chChars (KCh.cons c' (some ca) rest)).erase c
                      rw [show chChars (KCh.cons c' (some ca) rest) =
                        c' :: chChars rest from rfl, heq, List.erase_cons_head]
                    · show (decide (c' = c) || chHasChar rest c) = true
                      simp [heq]
                    · intro ks2 hks2
                      rw [findCh_cons, if_pos heq]
                      show findA ca ks2 = none
                      rw [← hko ks2 hks2]
                      exact findA_empty ks2
                    · intro c2 ks2 hc2
                      rw [← h'', findCh_cons]
                      have hne2 : ¬ c' = c2 := by
                        rw [heq]
                        exact fun h2 => hc2 h2.symm
                      rw [if_neg hne2]
                  · intro h
                    rw [hfound]
                    exact hnfound (by rw [hrec]; intro h2; exact RRes.noConfusion h2)
                · have hred : rmPost (RRes.kept p0) = RRes.kept p0 := by
                    rw [rmPost_kept, if_neg hemp]
                  rw [hred]
                  refine ⟨?_, ?_, ?_, ?_⟩
                  · intro h
                    exact Option.noConfusion h
                  · intro cs2 h
                    injection h with h'
                    injection h' with h''
                    refine ⟨?_, ?_, ?_, ?_⟩
                    · rw [← h'', wfCh_cons, Bool.and_eq_true]
                      exact ⟨hkw, hw.2⟩
                    · rw [← h'']
                      rfl
                    · rw [← h'', findCh_cons, if_pos heq]
                      exact hkn
                    · intro c2 ks2 hne2
                      rw [← h'', findCh_cons, findCh_cons]
                      by_cases hc2 : c' = c2
                      · rw [if_pos hc2, if_pos hc2]
                        have hks2 : ks2 ≠ ks := fun he =>
                          hne2 ⟨hc2.symm.trans heq, he⟩
                        exact hko ks2 hks2
                      · rw [if_neg hc2, if_neg hc2]
                  · intro cs2 h
                    injection h with h'
                    exact Sum.noConfusion h'
                  · intro h
                    rw [hfound]
                    exact hnfound (by rw [hrec]; intro h2; exact RRes.noConfusion h2)
            | branchDropped p0 =>
                obtain ⟨hbw, hbn, hbo, hb2⟩ := ihb p0 hrec
                by_cases hEos : hasEosP p0 = true
                · have hred : rmPost (RRes.branchDropped p0) = RRes.kept p0 := by
                    rw [rmPost_bd, if_pos hEos]
                  rw [hred]
                  refine ⟨?_, ?_, ?_, ?_⟩
                  · intro h
                    exact Option.noConfusion h
                  · intro cs2 h
                    injection h with h'
                    injection h' with h''
                    refine ⟨?_, ?_, ?_, ?_⟩
                    · rw [← h'', wfCh_cons, Bool.and_eq_true]
                      exact ⟨hbw, hw.2⟩
                    · rw [← h'']
                      rfl
                    · rw [← h'', findCh_cons, if_pos heq]
                      exact hbn
                    · intro c2 ks2 hne2
                      rw [← h'', findCh_cons, findCh_cons]
                      by_cases hc2 : c' = c2
                      · rw [if_pos hc2, if_pos hc2]
                        have hks2 : ks2 ≠ ks := fun he =>
                          hne2 ⟨hc2.symm.trans heq, he⟩
                        exact hbo ks2 hks2
                      · rw [if_neg hc2, if_neg hc2]
                  · intro cs2 h
                    injection h with h'
                    exact Sum.noConfusion h'
                  · intro h
                    rw [hfound]
                    exact hnfound (by rw [hrec]; intro h2; exact RRes.noConfusion h2)
                · have hEos' : hasEosP p0 = false := by
                    cases h2 : hasEosP p0
                    · rfl
                    · exact absurd h2 hEos
                  have hred : rmPost (RRes.branchDropped p0) = RRes.gone := by
                    rw [rmPost_bd, if_neg hEos]
                  rw [hred]
                  refine ⟨?_, ?_, ?_, ?_⟩
                  · intro h
                    exact Option.noConfusion h
                  · intro cs2 h
                    injection h with h'
                    exact Sum.noConfusion h'
                  · intro cs2 h
                    injection h with h'
                    injection h' with h''
                    refine ⟨?_, ?_, ?_, ?_, ?_⟩
                    · rw [← h'']
                      exact hw.2
                    · rw [← h'']
                      show chChars rest = (chChars (KCh.cons c' (some ca) rest)).erase c
                      rw [show chChars (KCh.cons c' (some ca) rest) =
                        c' :: chChars rest from rfl, heq, List.erase_cons_head]
                    · show (decide (c' = c) || chHasChar rest c) = true
                      simp [heq]
                    · intro ks2 hks2
                      rw [findCh_cons, if_pos heq]
                      show findA ca ks2 = none
                      rw [← hbo ks2 hks2]
                      exact hb2 hEos' ks2
                    · intro c2 ks2 hc2
                      rw [← h'', findCh_cons]
                      have hne2 : ¬ c' = c2 := by
                        rw [heq]
                        exact fun h2 => hc2 h2.symm
                      rw [if_neg hne2]
                  · intro h
                    rw [hfound]
                    exact hnfound (by rw [hrec]; intro h2; exact RRes.noConfusion h2)
            | gone =>
                rw [rmPost_gone]
                refine ⟨?_, ?_, ?_, ?_⟩
                · intro h
                  exact Option.noConfusion h
                · intro cs2 h
                  injection h with h'
                  exact Sum.noConfusion h'
                · intro cs2 h
                  injection h with h'
                  injection h' with h''
                  refine ⟨?_, ?_, ?_, ?_, ?_⟩
                  · rw [← h'']
                    exact hw.2
                  · rw [← h'']
                    show chChars rest = (chChars (KCh.cons c' (some ca) rest)).erase c
                    rw [show chChars (KCh.cons c' (some ca) rest) =
                      c' :: chChars rest from rfl, heq, List.erase_cons_head]
                  · show (decide (c' = c) || chHasChar rest c) = true
                    simp [heq]
                  · intro ks2 hks2
                    rw [findCh_cons, if_pos heq]
                    show findA ca ks2 = none
                    exact ihg hrec ks2 hks2
                  · intro c2 ks2 hc2
                    rw [← h'', findCh_cons]
                    have hne2 : ¬ c' = c2 := by
                      rw [heq]
                      exact fun h2 => hc2 h2.symm
                    rw [if_neg hne2]
                · intro h
                  rw [hfound]
                  exact hnfound (by rw [hrec]; intro h2; exact RRes.noConfusion h2)
      · rw [removeCh_cons_miss c' child rest c ks heq]
        obtain ⟨ihn2, ihl2, ihr2, ihnn2⟩ := removeCh_spec rest c ks hw.2
        cases hrec : removeCh rest c ks with
        | none =>
            refine ⟨?_, ?_, ?_, ?_⟩
            · intro _
              rw [findCh_cons, if_neg heq]
              exact ihn2 hrec
            · intro cs2 h
              exact Option.noConfusion h
            · intro cs2 h
              exact Option.noConfusion h
            · intro h
              exact absurd rfl h
        | some sc =>
            have hne : findCh rest c ks ≠ none := by
              refine ihnn2 ?_
              rw [hrec]
              intro h2
              exact Option.noConfusion h2
            cases sc with
            | inl rest2 =>
                obtain ⟨hwc2, hch2, hfn2, hot2⟩ := ihl2 rest2 (by rw [hrec])
                refine ⟨?_, ?_, ?_, ?_⟩
                · intro h
                  exact Option.noConfusion h
                · intro cs2 h
                  injection h with h'
                  injection h' with h''
                  refine ⟨?_, ?_, ?_, ?_⟩
                  · rw [← h'', wfCh_cons, Bool.and_eq_true]
                    exact ⟨hw.1, hwc2⟩
                  · rw [← h'']
                    show c' :: chChars rest2 = c' :: chChars rest
                    rw [hch2]
                  · rw [← h'', findCh_cons, if_neg heq]
                    exact hfn2
                  · intro c2 ks2 hne2
                    rw [← h'', findCh_cons, findCh_cons]
                    by_cases hc2 : c' = c2
                    · rw [if_pos hc2, if_pos hc2]
                    · rw [if_neg hc2, if_neg hc2]
                      exact hot2 c2 ks2 hne2
                · intro cs2 h
                  injection h with h'
                  exact Sum.noConfusion h'
                · intro h
                  rw [findCh_cons, if_neg heq]
                  exact hne
            | inr rest2 =>
                obtain ⟨hwc2, hch2, hmem2, hoth2, hot2⟩ := ihr2 rest2 (by rw [hrec])
                refine ⟨?_, ?_, ?_, ?_⟩
                · intro h
                  exact Option.noConfusion h
                · intro cs2 h
                  injection h with h'
                  exact Sum.noConfusion h'
                · intro cs2 h
                  injection h with h'
                  injection h' with h''
                  refine ⟨?_, ?_, ?_, ?_, ?_⟩
                  · rw [← h'', wfCh_cons, Bool.and_eq_true]
                    exact ⟨hw.1, hwc2⟩
                  · rw [← h'']
                    show c' :: chChars rest2 =
                      (chChars (KCh.cons c' child rest)).erase c
                    rw [show chChars (KCh.cons c' child rest) =
                      c' :: chChars rest from rfl, List.erase_cons,
                      if_neg (by simp [heq]), hch2]
                  · show (decide (c' = c) || chHasChar rest c) = true
                    rw [hmem2]
                    simp
                  · intro ks2 hks2
                    rw [findCh_cons, if_neg heq]
                    exact hoth2 ks2 hks2
                  · intro c2 ks2 hc2
                    rw [← h'', findCh_cons, findCh_cons]
                    by_cases hc2' : c' = c2
                    · rw [if_pos hc2', if_pos hc2']
                    · rw [if_neg hc2', if_neg hc2']
                      exact hot2 c2 ks2 hc2
                · intro h
                  rw [findCh_cons, if_neg heq]
                  exact hne
end

inductive KOp (V : Type) where
  | ins (k : List Nat) (v : V)
  | upsert (k : List Nat) (v : V)
  | del (k : List Nat)
  | clr

def insM : List (List Nat × V) → List Nat → V → Bool → List (List Nat × V)
  | [], k, v, _ => [(k, v)]
  | (k0, v0) :: m, k, v, upd =>
      if k0 = k then (k0, if upd then v else v0) :: m
      else (k0, v0) :: insM m k v upd

def delM : List (List Nat × V) → List Nat → List (List Nat × V)
  | [], _ => []
  | (k0, v0) :: m, k => if k0 = k then m else (k0, v0) :: delM m k

def modelOp (m : List (List Nat × V)) : KOp V → List (List Nat × V)
  | .ins k v => insM m k v false
  | .upsert k v => insM m k v true
  | .del k => delM m k
  | .clr => []

def modelOps (ops : List (KOp V)) : List (List Nat × V) :=
  ops.foldl modelOp []

/-! ### Model lemmas -/

mutual
/-- The branch-arity invariant in isolation: every LIST branch in the tree
has 1–7 children and every POP branch at least 8. -/
def branchBoundsA : KArr V → Bool
  | .seg _ _ rest => branchBoundsA rest
  | .fin _ none => true
  | .fin _ (some (.list cs)) =>
      decide (1 ≤ chSize cs) && decide (chSize cs ≤ 7) && branchBoundsCh cs
  | .fin _ (some (.pop cs)) => decide (8 ≤ chSize cs) && branchBoundsCh cs
  termination_by structural a => a

/-- Branch-arity bounds below every child. -/
def branchBoundsCh : KCh V → Bool
  | .nil => true
  | .cons _ none rest => branchBoundsCh rest
  | .cons _ (some ca) rest => branchBoundsA ca && branchBoundsCh rest
  termination_by structural cs => cs
end

mutual
theorem wfA_branchBounds : ∀ a : KArr V, wfA a = true → branchBoundsA a = true
  | .seg e run rest, hw => by
      rw [wfA_seg, Bool.and_eq_true] at hw
      show branchBoundsA rest = true
      exact wfA_branchBounds rest hw.2
  | .fin e none, _ => rfl
  | .fin e (some (.list cs)), hw => by
      rw [wfA_fin_list, Bool.and_eq_true, Bool.and_eq_true, Bool.and_eq_true] at hw
      obtain ⟨⟨⟨hs1, hs7⟩, _⟩, hwch⟩ := hw
      show (decide (1 ≤ chSize cs) && decide (chSize cs ≤ 7) &&
        branchBoundsCh cs) = true
      rw [Bool.and_eq_true, Bool.and_eq_true]
      exact ⟨⟨hs1, hs7⟩, wfCh_branchBounds cs hwch⟩
  | .fin e (some (.pop cs)), hw => by
      rw [wfA_fin_pop, Bool.and_eq_true, Bool.and_eq_true] at hw
      obtain ⟨⟨hs8, _⟩, hwch⟩ := hw
      show (decide (8 ≤ chSize cs) && branchBoundsCh cs) = true
      rw [Bool.and_eq_true]
      exact ⟨hs8, wfCh_branchBounds cs hwch⟩

theorem wfCh_branchBounds : ∀ cs : KCh V, wfCh cs = true → branchBoundsCh cs = true
  | .nil, _ => rfl
  | .cons c child rest, hw => by
      rw [wfCh_cons, Bool.and_eq_true] at hw
      cases child with
      | none => exact absurd hw.1 Bool.false_ne_true
      | some ca =>
          show (branchBoundsA ca && branchBoundsCh rest) = true
          rw [Bool.and_eq_true]
          exact ⟨wfA_branchBounds ca hw.1, wfCh_branchBounds rest hw.2⟩
end

/-! ### The faithfulness envelope of the abstract insert/erase equations

Three source paths rebuild a node array with wrong or missing flag updates
and leave a layout the walkers mis-parse (they are exhibited one by one, at
word level, in the section on the raw memory model below):

* `break_hop_at` CASE 1 with `plen == 0` and `nodes_before == 0`
  (ktrie_insert_help.h:617-626): inserting a key that ends at a HOP sitting
  at the start of its array never sets `eos_bit` in the parent flags;
* `break_skip_at` CASE 1 (ktrie_insert_help.h:745-816): its rebuilt array
  drops the `nodes_before` cells preceding the SKIP and its `nf` is computed
  from scratch, losing the flags of whatever preceded the SKIP;
* the truncation exit of `rebuild_without_eos`
  (ktrie_remove_help.h:387-392): the parent-pointer flags lose their
  `hop_bit`/`skip_bit` only when `truncate_at == 0`, so dropping a trailing
  run while a terminator cell at the array start survives leaves the hop bit
  set over a zeroed word.

The predicates below mark, along the same traversal as `insA`/`removeGo`,
the operations that stay clear of those three paths; on them the abstract
equations agree with the source.  They are deliberately conservative: a run
longer than `t_hop::max_hop = 6` splitting under CASE 1 is always rejected
(it may be stored as a SKIP), and an erase whose truncation keeps a
terminator is rejected whenever the dropped run sits at the start of its
array (only there do the run's flags live in the parent pointer). -/

mutual
/-- Insertions on which the `insA` equations match the source: `false` marks
a key ending at a run with no terminator cell before it (`break_hop_at`
CASE 1 with `plen == 0`, `nodes_before == 0` — the eos-losing path) and any
CASE 1 split of a run longer than `t_hop::max_hop` (potentially a SKIP,
whose CASE 1 drops the cells before it). -/
def insCleanA : KArr V → List Nat → Bool
  | .seg (some _) _ _, [] => true
  | .seg none _ _, [] => false
  | .seg _ run rest, k =>
      let mm := cpl k run
      if mm < run.length then
        if k.length ≤ mm then decide (run.length ≤ 6) else true
      else insCleanA rest (k.drop run.length)
  | .fin _ _, [] => true
  | .fin _ none, _ => true
  | .fin _ (some (.list cs)), c :: ks => insCleanCh cs c ks
  | .fin _ (some (.pop cs)), c :: ks => insCleanCh cs c ks
  termination_by structural a => a

/-- Branch descent of `insCleanA`. -/
def insCleanCh : KCh V → Nat → List Nat → Bool
  | .nil, _, _ => true
  | .cons c' child rest, c, ks =>
      if c' = c then
        match child with
        | none => true
        | some ca => insCleanA ca ks
      else insCleanCh rest c ks
  termination_by structural cs => cs
end

mutual
/-- Erases on which the `removeGo` equations match the source: `false` marks
a truncation (`removeGo` of the tail returning `.gone`) that keeps a
terminator cell while the dropped run sits at the start of its array
(`atStart`), where `rebuild_without_eos` leaves the parent flags' hop bit
set; descending through a run stays inside the same array (`atStart :=
false`), descending through a branch child enters a new one. -/
def rmCleanA : Bool → KArr V → List Nat → Bool
  | atStart, .seg e run rest, k =>
      if run.isPrefixOf k then
        (match removeGo rest (k.drop run.length) with
         | .gone => !(atStart && e.isSome)
         | _ => true) && rmCleanA false rest (k.drop run.length)
      else true
  | _, .fin _ none, _ => true
  | _, .fin _ _, [] => true
  | _, .fin _ (some (.list cs)), c :: ks => rmCleanCh cs c ks
  | _, .fin _ (some (.pop cs)), c :: ks => rmCleanCh cs c ks
  termination_by structural _ a => a

/-- Branch descent of `rmCleanA`. -/
def rmCleanCh : KCh V → Nat → List Nat → Bool
  | .nil, _, _ => true
  | .cons c' child rest, c, ks =>
      if c' = c then
        match child with
        | none => true
        | some ca => rmCleanA true ca ks
      else rmCleanCh rest c ks
  termination_by structural cs => cs
end

/-- Failure marks of the word-level interpreters (see the section
comment). -/
inductive RErr where
  | fromCharZero
  | skipWord
  | branchWord
  | case2
  | addEos
  | normalRebuild
  | nullRoot
  | fuel

/-- Bit `i` of a byte value. -/
def bitAt (u i : Nat) : Nat := u / 2 ^ i % 2

/-- `has_bit(u, c)` of ktrie_defines.h:277 on byte-sized flag values; the
flag bits are `eos_bit = 1`, `skip_bit = 2`, `hop_bit = 4`, `list_bit = 8`,
`pop_bit = 16`. -/
def has_bit (u c : Nat) : Bool :=
  decide (1 ≤ bitAt u 0 * bitAt c 0 + bitAt u 1 * bitAt c 1 +
    bitAt u 2 * bitAt c 2 + bitAt u 3 * bitAt c 3 + bitAt u 4 * bitAt c 4 +
    bitAt u 5 * bitAt c 5 + bitAt u 6 * bitAt c 6 + bitAt u 7 * bitAt c 7)

/-- Clear bit `i` of a byte value. -/
def clearBit (f i : Nat) : Nat := f - bitAt f i * 2 ^ i

/-- Bitwise or of two byte values. -/
def orF (a b : Nat) : Nat :=
  max (bitAt a 0) (bitAt b 0) + 2 * max (bitAt a 1) (bitAt b 1) +
  4 * max (bitAt a 2) (bitAt b 2) + 8 * max (bitAt a 3) (bitAt b 3) +
  16 * max (bitAt a 4) (bitAt b 4) + 32 * max (bitAt a 5) (bitAt b 5) +
  64 * max (bitAt a 6) (bitAt b 6) + 128 * max (bitAt a 7) (bitAt b 7)

/-- `old_cont & (hop_bit | skip_bit | list_bit | pop_bit)`, the mask used
by `break_hop_at`. -/
def keep_path_bits (f : Nat) : Nat :=
  2 * bitAt f 1 + 4 * bitAt f 2 + 8 * bitAt f 3 + 16 * bitAt f 4

/-- Byte `i` of a word in `to_char_static` order (0 = most significant). -/
def byteAt (w i : Nat) : Nat := w / 256 ^ (7 - i) % 256

/-- `t_hop::get_hop_sz`: the length byte at position 7 (ktrie_hop.h:300). -/
def get_hop_sz (w : Nat) : Nat := byteAt w 7

/-- `t_hop::get_new_flags`: the flag byte at position 6
(ktrie_hop.h:295). -/
def get_new_flags (w : Nat) : Nat := byteAt w 6

/-- The byte array `to_char_static(w)`. -/
def hop_chars (w : Nat) : List Nat := (List.range 8).map (byteAt w)

/-- `from_char_static(from, len)` (ktrie_defines.h:236-241): pack `len`
bytes into the top of a word.  Callers must respect its
`KTRIE_DEBUG_ASSERT` that `0 < len < 8`. -/
def from_char_pack (k : List Nat) (len : Nat) : Nat :=
  (List.range len).foldl (fun a i => a + k.getD i 0 * 256 ^ (7 - i)) 0

/-- The `t_hop` constructor (ktrie_hop.h:261-287): packed characters, flag
byte 6, length byte 7.  Its assert `0 < len <= 6` holds at every use
below. -/
def mk_hop (k : List Nat) (len flags : Nat) : Nat :=
  from_char_pack k len + flags * 256 + len

/-- Replace the flag byte (position 6) of a HOP word, as the
`to_char_static` / `from_char_static` round trips of the source do. -/
def set_hop_cont (w f : Nat) : Nat := w / 65536 * 65536 + f * 256 + w % 256

/-- `t_hop::matches` (ktrie_hop.h:327-344): length precheck, then the
masked 64-bit comparison of the six character bytes.  A word whose length
byte reads 0 feeds `from_char_static` a zero length — `.fromCharZero`. -/
def hop_matches (w : Nat) (k : List Nat) : Except RErr Bool :=
  let sz := get_hop_sz w
  if k.length < sz then .ok false
  else if sz = 0 then .error .fromCharZero
  else .ok (decide (w / 65536 = from_char_pack k sz / 65536))

/-- The byte loop of `t_hop::find_mismatch` (ktrie_hop.h:346-359). -/
def mmGo (w : Nat) (k : List Nat) : Nat → Nat → Nat
  | i, 0 => i
  | i, n + 1 => if byteAt w i = k.getD i 0 then mmGo w k (i + 1) n else i

/-- `t_hop::find_mismatch`: first differing position below
`min(hop_sz, remaining)`. -/
def hop_find_mismatch (w : Nat) (k : List Nat) : Nat :=
  mmGo w k 0 (min (get_hop_sz w) k.length)

/-- `alloc_size` (ktrie_defines.h:259-262): the node allocator's size
classes. -/
def alloc_size (n : Nat) : Nat :=
  if n ≤ 24 then (n + 3) / 4 * 4 else (n + 15) / 16 * 16

/-- An allocated block: the written cells padded with the zero words of the
default-constructed allocation. -/
def padTo (l : List Nat) (n : Nat) : List Nat :=
  l ++ List.replicate (n - l.length) 0

/-- The container at word level: the head pointer's flag byte, the root
block (`none` is the null pointer), and `cnt_`. -/
structure RState where
  rflags : Nat
  root : Option (List Nat)
  cnt : Nat

/-- A default-constructed `ktrie_base`. -/
def emptyR : RState := RState.mk 0 none 0

/-- `insert_helper::node_array_sz` (ktrie_insert_help.h:215-242): walk the
flag-directed layout to the array length. -/
def node_array_sz_go (arr : List Nat) : Nat → Nat → Nat → Except RErr Nat
  | 0, _, _ => .error .fuel
  | fuel + 1, run, flags =>
      if has_bit flags 7 then
        let run2 := run + (if has_bit flags 1 then 1 else 0)
        if has_bit flags 6 then
          if has_bit flags 4 then
            node_array_sz_go arr fuel (run2 + 1)
              (get_new_flags (arr.getD run2 0))
          else .error .skipWord
        else
          if has_bit flags 24 then .error .branchWord else .ok run2
      else
        if has_bit flags 24 then .error .branchWord else .ok run

def node_array_sz (arr : List Nat) (flags : Nat) : Except RErr Nat :=
  node_array_sz_go arr (arr.length + 4) 0 flags

/-- `find_internal`, variable-length path (ktrie_base.h:720-800): the inner
EOS/HOP/SKIP loop.  The terminator returns the data word itself (the inline
value); branch and SKIP words do not occur in the states below. -/
def find_go (arr : List Nat) : Nat → Nat → Nat → List Nat →
    Except RErr (Option Nat)
  | 0, _, _, _ => .error .fuel
  | fuel + 1, run, flags, rem =>
      if has_bit flags 7 then
        if has_bit flags 1 && rem.isEmpty then .ok (some (arr.getD run 0))
        else
          let run1 := if has_bit flags 1 then run + 1 else run
          if has_bit flags 6 then
            if has_bit flags 4 then
              match hop_matches (arr.getD run1 0) rem with
              | .error e => .error e
              | .ok false => .ok none
              | .ok true =>
                  find_go arr fuel (run1 + 1)
                    (get_new_flags (arr.getD run1 0))
                    (rem.drop (get_hop_sz (arr.getD run1 0)))
            else .error .skipWord
          else
            if has_bit flags 24 then .error .branchWord else .ok none
      else
        if has_bit flags 24 then .error .branchWord else .ok none

/-- `find_internal` at the container level (ktrie_base.h:561-569): the
`cnt_ == 0` early exit; the root pointer is dereferenced without a null
check. -/
def find_internal (s : RState) (k : List Nat) : Except RErr (Option Nat) :=
  if s.cnt = 0 then .ok none
  else
    match s.root with
    | none => .error .nullRoot
    | some arr => find_go arr (arr.length + k.length + 4) 0 s.rflags k

/-- Where a structural rewrite would write the current flags
(`modify_data::flags_writer`); the SKIP location cannot occur in the states
below. -/
inductive FW where
  | inPtr
  | inHop (pos : Nat)

/-- `insert_helper::make_tail` installing at the head pointer (the
`cnt_ == 0` path of `insert_internal`, ktrie_insert_help.h:290-316): the
fresh root block and its parent flag byte. -/
def make_tail_root (k : List Nat) (v : Nat) : Except RErr (Nat × List Nat) :=
  if k.length = 0 then .ok (1, padTo [v] (alloc_size 1))
  else if k.length ≤ 6 then
    .ok (4, padTo [mk_hop k k.length 1, v] (alloc_size 2))
  else .error .skipWord

/-- `break_hop_at` CASE 1 (`break_pos >= remaining`,
ktrie_insert_help.h:593-647), translated clause by clause: `arr` is the
current block, `inif` is `m.initial_flags`, `run_off` the HOP's index,
`cur` the HOP word as read, `break_pos` the computed mismatch position and
`v` the value.  Returns the new parent flag byte, the new block and the
count delta.  When `plen = 0` and `nodes_before = 0`, neither the
prefix-HOP branch nor the `nodes_before > 0` branch of the flag fix-up
(617-626) runs, so `nf` keeps `m.initial_flags` — `eos_bit` is never set
although the terminator cell is written at position 0. -/
def break_hop_case1 (arr : List Nat) (inif run_off cur break_pos v : Nat) :
    Except RErr (Nat × List Nat × Nat) :=
  match node_array_sz arr inif with
  | .error e => .error e
  | .ok orig_len =>
      let hop_sz := get_hop_sz cur
      let old_cont := get_new_flags cur
      let nodes_after := orig_len - run_off - 1
      let plen := break_pos
      let slen := hop_sz - break_pos
      let nodes_before := run_off
      let after_prefix_or_eos :=
        if 0 < slen then orF 1 4 else orF 1 (keep_path_bits old_cont)
      let nf :=
        if 0 < plen then inif
        else if 0 < nodes_before then
          let nf1 := orF (clearBit inif 2) 1
          if 0 < slen then orF nf1 4 else orF nf1 (keep_path_bits old_cont)
        else inif
      let nsz := nodes_before + (if 0 < plen then 1 else 0) + 1 +
        (if 0 < slen then 1 else 0) + nodes_after
      let pre_part :=
        if 0 < plen then [mk_hop (hop_chars cur) plen after_prefix_or_eos]
        else []
      let suf_part :=
        if 0 < slen then
          [mk_hop ((hop_chars cur).drop break_pos) slen old_cont]
        else []
      let nn := (arr.take nodes_before) ++ pre_part ++ [v] ++ suf_part ++
        ((arr.drop (run_off + 1)).take nodes_after)
      .ok (nf, padTo nn (alloc_size nsz), 1)

/-- `add_branch_at_end` (ktrie_insert_help.h:1076-1129): append the
remaining key as a fresh HOP and terminator pair at the current position;
the flag gaining `hop_bit` lives either in the parent pointer or in the
last consumed HOP word. -/
def add_branch_at_end (arr : List Nat) (inif pos : Nat) (fw : FW)
    (rem : List Nat) (v : Nat) : Except RErr (Nat × List Nat × Nat) :=
  match node_array_sz arr inif with
  | .error e => .error e
  | .ok orig_len =>
      if 6 < rem.length then .error .skipWord
      else
        let nif :=
          match fw with
          | .inPtr => orF inif 4
          | .inHop _ => inif
        let arr2 :=
          match fw with
          | .inPtr => arr
          | .inHop p =>
              arr.set p (set_hop_cont (arr.getD p 0)
                (orF (get_new_flags (arr.getD p 0)) 4))
        let nn := (arr2.take pos) ++ [mk_hop rem rem.length 1, v] ++
          ((arr2.drop pos).take (orig_len - pos))
        .ok (nif, padTo nn (alloc_size (orig_len + 2)), 1)

/-- The code after the EOS/HOP/SKIP loop of `insert_update_loop`
(ktrie_insert_help.h:505-551): exhausted input inserts a terminator here
(`add_eos_at` — not reached below), a branch word descends (not present
below), otherwise `add_branch_at_end`. -/
def ins_after_loop (arr : List Nat) (inif run flags : Nat) (fw : FW)
    (rem : List Nat) (v : Nat) : Except RErr (Nat × List Nat × Nat) :=
  if rem.isEmpty then .error .addEos
  else if has_bit flags 24 then .error .branchWord
  else add_branch_at_end arr inif run fw rem v

/-- `insert_update_loop`, variable-length path
(ktrie_insert_help.h:458-552), covering the paths the states below
exercise: the duplicate-key update (in place, through `update_data`), the
walk past a terminator cell, the full-HOP advance, the `break_hop_at`
dispatch (its CASE 1 / CASE 2 split `break_pos >= remaining` is tested
here) and the after-loop cases. -/
def ins_go (v : Nat) (upd : Bool) :
    Nat → List Nat → Nat → Nat → Nat → FW → List Nat →
    Except RErr (Nat × List Nat × Nat)
  | 0, _, _, _, _, _, _ => .error .fuel
  | fuel + 1, arr, inif, run, flags, fw, rem =>
      if has_bit flags 7 then
        if has_bit flags 1 && rem.isEmpty then
          .ok (inif, (if upd then arr.set run v else arr), 0)
        else
          let run1 := if has_bit flags 1 then run + 1 else run
          if has_bit flags 6 then
            if has_bit flags 4 then
              let cur := arr.getD run1 0
              let mm := hop_find_mismatch cur rem
              if mm < get_hop_sz cur then
                if rem.length ≤ mm then
                  break_hop_case1 arr inif run1 cur mm v
                else .error .case2
              else
                ins_go v upd fuel arr inif (run1 + 1) (get_new_flags cur)
                  (FW.inHop run1) (rem.drop (get_hop_sz cur))
            else .error .skipWord
          else ins_after_loop arr inif run1 flags fw rem v
      else ins_after_loop arr inif run flags fw rem v

/-- `insert_internal` / `insert_or_assign_internal` (ktrie_base.h:416-457):
an empty counter builds the root through `make_tail`; otherwise the loop
runs on the root array, and a positive count delta increments `cnt_` and
reports an insertion. -/
def insert_internal (s : RState) (k : List Nat) (v : Nat) (upd : Bool) :
    Except RErr (RState × Bool) :=
  if s.cnt = 0 then
    match make_tail_root k v with
    | .error e => .error e
    | .ok (f, blk) => .ok (RState.mk f (some blk) (s.cnt + 1), true)
  else
    match s.root with
    | none => .error .nullRoot
    | some arr =>
        match ins_go v upd (arr.length + k.length + 4) arr s.rflags 0
            s.rflags FW.inPtr k with
        | .error e => .error e
        | .ok (nf, blk, d) =>
            .ok (RState.mk nf (some blk) (s.cnt + d), decide (d ≠ 0))

/-- `remove_loop`, variable-length path (ktrie_remove_help.h:1117-1214), up
to the call of `rebuild_without_eos`: the index of the matched terminator,
or `none` when the key is absent.  The hop step checks the remaining
length before `matches` (1141-1142); the post-loop terminator re-check
(1167-1175) cannot fire because the loop clears `eos_bit`; branch words do
not occur below. -/
def rm_go (arr : List Nat) : Nat → Nat → Nat → Nat → List Nat →
    Except RErr (Option Nat)
  | 0, _, _, _, _ => .error .fuel
  | fuel + 1, run, ep, flags, rem =>
      if has_bit flags 7 then
        if has_bit flags 1 && rem.isEmpty then .ok (some ep)
        else
          let run1 := if has_bit flags 1 then run + 1 else run
          let flags1 := if has_bit flags 1 then clearBit flags 0 else flags
          if has_bit flags1 4 then
            let cur := arr.getD run1 0
            if rem.length < get_hop_sz cur then .ok none
            else
              match hop_matches cur rem with
              | .error e => .error e
              | .ok false => .ok none
              | .ok true =>
                  rm_go arr fuel (run1 + 1) (run1 + 1) (get_new_flags cur)
                    (rem.drop (get_hop_sz cur))
          else if has_bit flags1 2 then .error .skipWord
          else
            if has_bit flags1 24 then .error .branchWord else .ok none
      else
        if has_bit flags 24 then .error .branchWord else .ok none

/-- The truncation scan of `rebuild_without_eos`
(ktrie_remove_help.h:267-303): does a HOP/SKIP run lead directly to the
terminator being removed, and where does that run start? -/
def truncate_scan (arr : List Nat) (before : Nat) :
    Nat → Nat → Nat → Bool → Nat → Except RErr (Bool × Nat)
  | 0, _, _, _, _ => .error .fuel
  | fuel + 1, pos, scan_flags, found, tr =>
      if pos < before then
        let pos1 := if has_bit scan_flags 1 then pos + 1 else pos
        let scan1 :=
          if has_bit scan_flags 1 then clearBit scan_flags 0 else scan_flags
        if has_bit scan1 4 then
          let cont := get_new_flags (arr.getD pos1 0)
          if pos1 + 1 = before && has_bit cont 1 then
            truncate_scan arr before fuel (pos1 + 1) cont true pos1
          else truncate_scan arr before fuel (pos1 + 1) cont found tr
        else if has_bit scan1 2 then .error .skipWord
        else .ok (found, tr)
      else .ok (found, tr)

/-- The flag fix-up loop of the truncation path
(ktrie_remove_help.h:346-385): clear the HOP/SKIP continuation bits of the
run word whose continuation crosses the truncation point.  Note that it
reads the words of the already truncated block `nn` — at the truncation
point itself it therefore reads a zero word of the fresh allocation. -/
def truncate_flag_fix (tr : Nat) :
    Nat → Nat → Nat → List Nat → Except RErr (List Nat)
  | 0, _, _, _ => .error .fuel
  | fuel + 1, pos, scan_flags, nn =>
      if pos < tr then
        let pos1 := if has_bit scan_flags 1 then pos + 1 else pos
        let scan1 :=
          if has_bit scan_flags 1 then clearBit scan_flags 0 else scan_flags
        if has_bit scan1 4 then
          let w := nn.getD pos1 0
          let next_flags := get_new_flags w
          let next_pos := pos1 + 1 + (if has_bit next_flags 1 then 1 else 0)
          let nn1 :=
            if tr ≤ next_pos then
              nn.set pos1 (set_hop_cont w (clearBit (clearBit next_flags 1) 2))
            else nn
          truncate_flag_fix tr fuel (pos1 + 1) next_flags nn1
        else if has_bit scan1 2 then .error .skipWord
        else .ok nn
      else .ok nn

/-- `rebuild_without_eos` (ktrie_remove_help.h:208-478), with `ep` the
terminator's index.  Result `none`: the array is freed and the parent
pointer nulled; `some (nf, nn)`: the new parent flag byte and block.  On
the truncation path the parent flags lose their `hop_bit` and `skip_bit`
only when `truncate_at = 0` (387-392); the normal reconstruction is
translated for `ep = 0` and marked unreachable otherwise (the erase below
truncates). -/
def rebuild_without_eos (arr : List Nat) (inif ep : Nat) :
    Except RErr (Option (Nat × List Nat)) :=
  match node_array_sz arr inif with
  | .error e => .error e
  | .ok orig_len =>
      if orig_len = 1 then .ok none
      else
        let before := ep
        let after := orig_len - ep - 1
        match
          (if after = 0 && 0 < before then
            truncate_scan arr before (before + 4) 0 inif false before
          else (.ok (false, before) : Except RErr (Bool × Nat))) with
        | .error e => .error e
        | .ok (need_truncate, truncate_at) =>
            let new_len :=
              if need_truncate then truncate_at + after else before + after
            if new_len = 0 then .ok none
            else
              if need_truncate then
                let nn := padTo ((arr.take truncate_at) ++
                  ((arr.drop (ep + 1)).take after)) (alloc_size new_len)
                match
                  (if 0 < truncate_at then
                    truncate_flag_fix truncate_at (truncate_at + 4) 0 inif nn
                  else (.ok nn : Except RErr (List Nat))) with
                | .error e => .error e
                | .ok nn2 =>
                    let nif :=
                      if truncate_at = 0 then clearBit (clearBit inif 2) 1
                      else inif
                    .ok (some (nif, nn2))
              else
                if ep = 0 then
                  .ok (some (clearBit inif 0,
                    padTo ((arr.drop 1).take after) (alloc_size new_len)))
                else .error .normalRebuild

/-- `erase_internal` (ktrie_base.h:465-469) over `remove_loop`: counter
early exit, null-root early exit, walk, rebuild, counter decrement.  The
path stack stays empty in the states below (no branch descent), so no
branch cleanup can follow a freed array. -/
def erase_internal (s : RState) (k : List Nat) : Except RErr (RState × Nat) :=
  if s.cnt = 0 then .ok (s, 0)
  else
    match s.root with
    | none => .ok (s, 0)
    | some arr =>
        match rm_go arr (arr.length + k.length + 4) 0 0 s.rflags k with
        | .error e => .error e
        | .ok none => .ok (s, 0)
        | .ok (some ep) =>
            match rebuild_without_eos arr s.rflags ep with
            | .error e => .error e
            | .ok none => .ok (RState.mk 0 none (s.cnt - 1), 1)
            | .ok (some (nf, blk)) =>
                .ok (RState.mk nf (some blk) (s.cnt - 1), 1)

/-- The HOP word of the run "ab" whose continuation flag byte is eos. -/
def wAB : Nat := mk_hop [97, 98] 2 1

/-- The HOP word of the run "b" whose continuation flag byte is eos. -/
def wB : Nat := mk_hop [98] 1 1

/-- C9 [refuted: the empty key is unfindable after a successful insert].
In the reachable one-key trie holding "ab" — root block
[HOP "ab" with continuation eos, value 1], parent flags hop — the call
insert("", 2) walks to the HOP with an exhausted key and `break_hop_at`
CASE 1 runs with `plen = 0` and `nodes_before = 0`: the terminator cell is
written at position 0, the insert reports inserted and the counter reaches
2, but neither branch of the flag fix-up executes, so the parent flags
keep plain hop (`has_bit 4 1 = false`: no eos) and find("") returns an
absent result.  The walkers moreover now parse the value cell 2 as the HOP
word (length byte 2, zero characters), so find("ab") is absent as well.
The claim says the empty key is insertable and findable while present. -/
theorem empty_key_insert_drops_eos :
    insert_internal emptyR [97, 98] 1 false =
      .ok (RState.mk 4 (some [wAB, 1, 0, 0]) 1, true) ∧
    find_internal (RState.mk 4 (some [wAB, 1, 0, 0]) 1) [97, 98] =
      .ok (some 1) ∧
    insert_internal (RState.mk 4 (some [wAB, 1, 0, 0]) 1) [] 2 false =
      .ok (RState.mk 4 (some [2, wAB, 1, 0]) 2, true) ∧
    has_bit 4 1 = false ∧
    find_internal (RState.mk 4 (some [2, wAB, 1, 0]) 2) [] = .ok none ∧
    find_internal (RState.mk 4 (some [2, wAB, 1, 0]) 2) [97, 98] = .ok none :=
  ⟨rfl, rfl, rfl, rfl, rfl, rfl⟩

/-- C7 [refuted: size diverges from the number of distinct keys].  After
insert "ab" then insert "" (the eos-losing CASE 1 above), the root block is
[2, HOP "ab", 1] under plain hop flags; a second insert of "" reads the
value cell 2 as the HOP word (length byte 2), finds an immediate mismatch
with the exhausted key, and takes the same eos-losing CASE 1 again — every
repetition reports inserted and increments `cnt_`.  After the three
operations `size()` is 3, while the distinct keys ever inserted and not
removed are two ("ab" and ""), as the specification-side model counts. -/
theorem repeated_empty_key_insert_inflates_size :
    insert_internal emptyR [97, 98] 1 false =
      .ok (RState.mk 4 (some [wAB, 1, 0, 0]) 1, true) ∧
    insert_internal (RState.mk 4 (some [wAB, 1, 0, 0]) 1) [] 2 false =
      .ok (RState.mk 4 (some [2, wAB, 1, 0]) 2, true) ∧
    insert_internal (RState.mk 4 (some [2, wAB, 1, 0]) 2) [] 3 false =
      .ok (RState.mk 4 (some [3, 2, 0, 0]) 3, true) ∧
    (RState.mk 4 (some [3, 2, 0, 0]) 3).cnt = 3 ∧
    (modelOps [KOp.ins [97, 98] (1 : Nat), KOp.ins [] 2,
      KOp.ins [] 3]).length = 2 ∧
    3 ≠ 2 :=
  ⟨rfl, rfl, rfl, rfl, rfl, by decide⟩

/-- C1 [refuted: after erasing a present key, looking it up faults instead
of reporting it absent].  From empty, insert ""  (terminator-only root
[1], flags eos) and insert "b" (root [1, HOP "b" with continuation eos, 2],
flags eos and hop) — both reachable and faithfully rebuilt at word level.
erase("b") matches the terminator at index 2 and takes the truncation exit
of `rebuild_without_eos` with `truncate_at = 1`: the block shrinks to the
kept terminator [1] (padded with zero words by the fresh allocation), but
because `truncate_at` is not 0 the parent flags keep their `hop_bit`
(`has_bit 5 4 = true`).  The erase itself reports 1 and decrements the
counter, yet the following find("b") walks past the terminator and parses
the zero word as a HOP whose length byte is 0; `t_hop::matches` then hands
`from_char_static` the length 0, failing its `KTRIE_DEBUG_ASSERT`
(`RErr.fromCharZero` — an abort in debug builds, undefined behaviour in
release builds) instead of returning the absent result the claim requires.
The other stored key "" is still found. -/
theorem erase_leaves_hop_flag_over_phantom_word :
    insert_internal emptyR [] 1 false =
      .ok (RState.mk 1 (some [1, 0, 0, 0]) 1, true) ∧
    insert_internal (RState.mk 1 (some [1, 0, 0, 0]) 1) [98] 2 false =
      .ok (RState.mk 5 (some [1, wB, 2, 0]) 2, true) ∧
    find_internal (RState.mk 5 (some [1, wB, 2, 0]) 2) [98] = .ok (some 2) ∧
    erase_internal (RState.mk 5 (some [1, wB, 2, 0]) 2) [98] =
      .ok (RState.mk 5 (some [1, 0, 0, 0]) 1, 1) ∧
    has_bit 5 4 = true ∧
    find_internal (RState.mk 5 (some [1, 0, 0, 0]) 1) [98] =
      .error .fromCharZero ∧
    find_internal (RState.mk 5 (some [1, 0, 0, 0]) 1) [] = .ok (some 1) :=
  ⟨rfl, rfl, rfl, rfl, rfl, rfl, rfl⟩

/-- C2, evaluated at a concrete reachable state.  In `dangT` — reached from
the empty trie by `insert "ab"`, `insert "abcd"`, `insert "cd"`, `erase
"ab"`, `erase "abcd"` — the key `"cd"` is stored and `"a" < "cd"`
byte-lexicographically, yet `lower_bound("a")` and `upper_bound("a")` both
return an absent result instead of `("cd", 8)`: the second erase left a
keyless child array under `'a'` in the root LIST, and `get_min_from` commits
to that first child without trying its siblings. -/
theorem lower_bound_misses_stored_key :
    findT dangT kCD = some 8 ∧ sizeT dangT = 1 ∧ lexLt kA kCD = true ∧
      lowerBoundT dangT kA = none ∧ upperBoundT dangT kA = none :=
  ⟨rfl, rfl, rfl, rfl, rfl⟩

/-- C3, evaluated at `{"ab" → 1, "b" → 2}`.  `last()` correctly returns
`"b"`, but `prev("b")` returns an absent result instead of `"ab"`:
`find_prev_impl_static` answers a matched terminator with `last_less`, which
only remembers terminators passed on the descent path and never consults the
stacked smaller-sibling subtrees, so the reverse traversal stops after one
element and misses `"ab"`. -/
theorem prev_from_last_skips_stored_key :
    findT abB kAB = some 1 ∧ findT abB kB = some 2 ∧ sizeT abB = 2 ∧
      lexLt kAB kB = true ∧ lastT abB = some (kB, 2) ∧ prevT abB kB = none :=
  ⟨rfl, rfl, rfl, rfl, by decide, rfl⟩

/-- C4, evaluated at `{"hello" → 1}` with `insert("heap", 2)` failing at the
third node-array allocation (the `make_tail` allocation).  The exception
propagates (`.error`) and the counter and key set are unchanged, but the
trie is *not* left as it was: `break_hop_at` CASE 2 already installed the
split array, whose branch carries a default-initialised null child word for
`"heap"`'s tail, and that partially rebuilt array stays reachable from the
root — observably, `first()` now returns an absent result on a non-empty
container. -/
theorem alloc_failure_leaves_installed_split :
    insFBT helloT kHEAP 2 false 2 = .error heapFailT ∧
      sizeT heapFailT = sizeT helloT ∧
      findT heapFailT kHELLO = some 1 ∧ findT heapFailT kHEAP = none ∧
      firstT helloT = some (kHELLO, 1) ∧ firstT heapFailT = none ∧
      heapFailT.root = some (.seg none [104, 101] (.fin none (some (.list
        (.cons 97 none (.cons 108 (some (.seg none [108, 111]
          (.fin (some 1) none))) .nil)))))) :=
  ⟨rfl, rfl, rfl, rfl, rfl, rfl, rfl⟩

/-- C10, evaluated with `this` empty and `other = dangT`.  `"cd"` is present
only in `other`, but `merge` enumerates `other` with
`first_internal`/`next_item_internal`, and `first_internal` on `dangT`
descends into the keyless `'a'` child and reports an absent result, so the
merge loop performs zero iterations: `"cd"` is neither inserted into `this`
nor removed from `other`. -/
theorem merge_lvalue_leaves_only_in_other_key :
    findT dangT kCD = some 8 ∧ firstT dangT = none ∧
      (mergeT emptyKT dangT 2).1 = emptyKT ∧
      (mergeT emptyKT dangT 2).2 = dangT ∧
      findT (mergeT emptyKT dangT 2).1 kCD = none :=
  ⟨rfl, rfl, rfl, rfl, rfl⟩

end KtrieProof
